import Mathlib

/-!
Verification development for the `yolo` promise/future library.

The repository contains two implementations of the same single-threaded
promise/future primitive:

* `src/unnamed/part_000` — the current implementation, in which every
  continuation dispatch is funnelled through the iterative trampoline
  `execute_future`;
* `src/Future.cpp` — the earlier implementation, in which
  `future_state::satisfy` / `future_state::chain` execute continuations
  inline, recursively.

Both are shallowly embedded below over a common heap of shared states.
C++ template parameters are erased: the dispatch logic of
`future_then<T, Func>::continue_with` is type-uniform, so values of all
value types (including the `future_void` marker used for `void` futures)
are modelled by a single type `Nat`, and `std::exception_ptr` tokens by
the type `Err`.  User-supplied continuation functions are modelled as
pure Lean functions that either return a value, throw an error, or
return an (already captured) future handle — mirroring what a C++
callback can do with the value it receives and the handles it owns.
-/

set_option autoImplicit false

/-- An opaque error token (`std::exception_ptr`).  `user` covers
exceptions thrown by user code or passed to `set_exception`;
`futureError` covers the tokens produced by
`detail::make_future_error(what)`. -/
inductive Err where
  | user (n : Nat)
  | futureError (what : String)
deriving DecidableEq, Repr

/-- The Result Cell contents:
`future_value<T> = std::variant<std::monostate, future_storage_t<T>, std::exception_ptr>`.
`empty` is `std::monostate` (index 0), `value` index 1, `error` index 2. -/
inductive FVal where
  | empty
  | value (v : Nat)
  | error (e : Err)
deriving DecidableEq, Repr

/-- `std::variant::index()` of a `future_value`. -/
def FVal.idx : FVal → Nat
  | .empty => 0
  | .value _ => 1
  | .error _ => 2

/- State ids: shared states are heap-allocated; each
`std::shared_ptr<future_state<T>>` is identified with the `Nat` id of
the state it points to, and a null pointer with `none : Option Nat`. -/

/-- The user function stored in a `future_then` continuation
(type-erased).  `fnPlain g` is a function that, on argument `x`, either
returns a value or throws; `fnFut st` is a function that returns a
`future` — the handle it returns was captured when the continuation was
created and points to state `st` (`none` models a null/invalid handle). -/
inductive FnK where
  | fnPlain (g : Nat → Except Err Nat)
  | fnFut (st : Option Nat)

/-- The user function stored in a `future_catch` continuation:
it receives the `std::exception_ptr`. -/
inductive CatchK where
  | cPlain (g : Err → Except Err Nat)
  | cFut (st : Option Nat)

/-- The three concrete `future_continuation` subclasses.  Each carries a
strong reference to its destination state; `thenC`/`catchC` also carry
the user function and a label identifying that function in the trace. -/
inductive FutureCont where
  | thenC (label : Nat) (k : FnK) (dest : Nat)
  | catchC (label : Nat) (k : CatchK) (dest : Nat)
  | attachC (dest : Nat)

/-- The destination shared state a continuation writes to. -/
def FutureCont.dest : FutureCont → Nat
  | .thenC _ _ d => d
  | .catchC _ _ d => d
  | .attachC d => d

@[simp] theorem FutureCont.dest_thenC (l : Nat) (k : FnK) (d : Nat) :
    (FutureCont.thenC l k d).dest = d := rfl
@[simp] theorem FutureCont.dest_catchC (l : Nat) (k : CatchK) (d : Nat) :
    (FutureCont.catchC l k d).dest = d := rfl
@[simp] theorem FutureCont.dest_attachC (d : Nat) :
    (FutureCont.attachC d).dest = d := rfl

/-- Observable events: invocation of a user function with its argument
(the value a `then` function receives, or the error token a `catch`
handler receives), and a `future_error` thrown at an API call site and
caught by the caller. -/
inductive Event where
  | invokeThen (label : Nat) (arg : Nat)
  | invokeCatch (label : Nat) (e : Err)
  | apiRaise (what : String)

abbrev Trace := List Event

/-- One `future_state`: the result cell `val` (`_value`) and the single
continuation slot `cont` (`_continuation`). -/
structure FutureState where
  val : FVal
  cont : Option FutureCont

/-- A freshly constructed `future_state`: cell `std::monostate`, no
continuation. -/
def FutureState.init : FutureState := ⟨.empty, none⟩

/-- `future_state::ready_impl`. -/
def FutureState.ready (s : FutureState) : Bool := s.val.idx ≠ 0

/-- The heap of shared states.  `map` gives the state stored at each id;
all ids at or beyond `size` are unallocated and hold the
default-constructed state (`closed`), so that allocation at `size` is
fresh. -/
structure Heap where
  map : Nat → FutureState
  size : Nat
  closed : ∀ i, size ≤ i → map i = FutureState.init

/-- The empty heap. -/
def Heap.empty : Heap := ⟨fun _ => FutureState.init, 0, fun _ _ => rfl⟩

/-- Read a state. -/
def Heap.get (h : Heap) (i : Nat) : FutureState := h.map i

/-- Write a state (extending `size` so that `closed` is maintained). -/
def Heap.set (h : Heap) (i : Nat) (s : FutureState) : Heap :=
  ⟨fun j => if j = i then s else h.map j, Nat.max h.size (i + 1), by
    intro j hj
    rcases Nat.max_le.mp hj with ⟨h1, h2⟩
    have hne : j ≠ i := by omega
    simp only [if_neg hne]
    exact h.closed j h1⟩

/-- Write only the result cell of state `i`
(`future_state::set_value` assigns `_value`). -/
def Heap.setVal (h : Heap) (i : Nat) (v : FVal) : Heap :=
  h.set i { h.get i with val := v }

/-- `future_state::move_value`: moving from the stored
`std::variant` hands its contents to the caller and leaves the variant
holding the same alternative (the tag is unchanged), so the heap is not
modified. -/
def Heap.moveValue (h : Heap) (i : Nat) : FVal := (h.get i).val

/-- `future_state::ready`. -/
def Heap.ready (h : Heap) (i : Nat) : Bool := (h.get i).ready

/-- `future_state::next`: return `std::move(_continuation)`, clearing
the slot.  (The `assert(ready_impl())` is a debug-mode no-op.) -/
def Heap.next (h : Heap) (i : Nat) : Option FutureCont × Heap :=
  ((h.get i).cont, h.set i { h.get i with cont := none })

/-- `future_state::chain`: if the cell is already set, hand the
continuation back to the caller to run; otherwise store it in the slot.
(The `assert(!_continuation)` is a debug-mode no-op; the C++ assignment
overwrites the slot.) -/
def Heap.chain (h : Heap) (i : Nat) (c : FutureCont) : Option FutureCont × Heap :=
  if h.ready i then (some c, h)
  else (none, h.set i { h.get i with cont := some c })

/-- Allocate a fresh shared state (`std::make_shared<future_state<T>>()`),
returning its id. -/
def Heap.alloc (h : Heap) : Nat × Heap :=
  (h.size, h.set h.size FutureState.init)

@[simp] theorem Heap.get_set (h : Heap) (i : Nat) (s : FutureState) (j : Nat) :
    (h.set i s).get j = if j = i then s else h.get j := rfl

@[simp] theorem Heap.get_empty (i : Nat) : Heap.empty.get i = FutureState.init := rfl

theorem Heap.get_of_size_le (h : Heap) (i : Nat) (hi : h.size ≤ i) :
    h.get i = FutureState.init := h.closed i hi

@[simp] theorem Heap.size_set (h : Heap) (i : Nat) (s : FutureState) :
    (h.set i s).size = Nat.max h.size (i + 1) := rfl

@[simp] theorem Heap.get_setVal (h : Heap) (i : Nat) (v : FVal) (j : Nat) :
    (h.setVal i v).get j = if j = i then { h.get i with val := v } else h.get j := rfl

/-- Two heaps with the same states and the same allocation bound are
equal. -/
theorem Heap.ext (h h' : Heap) (hm : ∀ i, h.get i = h'.get i) (hs : h.size = h'.size) :
    h = h' := by
  cases h with
  | mk m s c =>
    cases h' with
    | mk m' s' c' =>
      have : m = m' := funext hm
      subst this
      simp only [mk.injEq, true_and]
      exact hs

/-- The number of stored continuations: the well-founded measure for the
trampoline loop (every iteration that continues has just removed one
continuation from a slot). -/
def Heap.storedCount (h : Heap) : Nat :=
  ((Finset.range h.size).filter (fun i => ((h.map i).cont).isSome = true)).card

theorem Heap.storedCount_set_congr (h : Heap) (i : Nat) (s : FutureState)
    (hs : s.cont.isSome = (h.get i).cont.isSome) :
    (h.set i s).storedCount = h.storedCount := by
  unfold Heap.storedCount
  by_cases hi : i < h.size
  · have hsz : Nat.max h.size (i + 1) = h.size := Nat.max_eq_left (by omega)
    simp only [Heap.set, hsz]
    congr 1
    apply Finset.filter_congr
    intro j hj
    by_cases hji : j = i
    · subst hji; simp [hs, Heap.get]
    · simp [hji]
  · have hget : h.get i = FutureState.init := h.get_of_size_le i (by omega)
    have hcnone : s.cont = none := by
      have : s.cont.isSome = false := by
        rw [hs, hget]; rfl
      cases hc : s.cont with
      | none => rfl
      | some c => rw [hc] at this; simp at this
    have hsz : Nat.max h.size (i + 1) = i + 1 := Nat.max_eq_right (by omega)
    simp only [Heap.set, hsz]
    congr 1
    ext j
    simp only [Finset.mem_filter, Finset.mem_range]
    constructor
    · rintro ⟨hjr, hjp⟩
      by_cases hji : j = i
      · subst hji
        simp [hcnone] at hjp
      · simp only [if_neg hji] at hjp
        refine ⟨?_, hjp⟩
        by_contra hge
        have := h.closed j (by omega)
        rw [this] at hjp
        simp [FutureState.init] at hjp
    · rintro ⟨hjr, hjp⟩
      have hji : j ≠ i := by omega
      exact ⟨by omega, by simp only [if_neg hji]; exact hjp⟩

theorem Heap.storedCount_setVal (h : Heap) (i : Nat) (v : FVal) :
    (h.setVal i v).storedCount = h.storedCount :=
  h.storedCount_set_congr i _ rfl

theorem Heap.storedCount_clear_lt (h : Heap) (i : Nat) (c : FutureCont)
    (hc : (h.get i).cont = some c) (s : FutureState) (hs : s.cont = none) :
    (h.set i s).storedCount < h.storedCount := by
  have hi : i < h.size := by
    by_contra hge
    have := h.get_of_size_le i (by omega)
    rw [this] at hc
    simp [FutureState.init] at hc
  have hsz : Nat.max h.size (i + 1) = h.size := Nat.max_eq_left (by omega)
  unfold Heap.storedCount
  simp only [Heap.set, hsz]
  apply Finset.card_lt_card
  have hsub : (Finset.range h.size).filter
      (fun j => ((if j = i then s else h.map j).cont).isSome = true) ⊆
      (Finset.range h.size).filter (fun j => ((h.map j).cont).isSome = true) := by
    intro j hj
    simp only [Finset.mem_filter, Finset.mem_range] at hj ⊢
    rcases hj with ⟨hjr, hjp⟩
    by_cases hji : j = i
    · subst hji; simp [hs] at hjp
    · simp only [if_neg hji] at hjp
      exact ⟨hjr, hjp⟩
  refine (Finset.ssubset_iff_of_subset hsub).mpr ⟨i, ?_, ?_⟩
  · simp only [Finset.mem_filter, Finset.mem_range]
    exact ⟨hi, by rw [show h.map i = h.get i from rfl, hc]; rfl⟩
  · simp only [Finset.mem_filter, Finset.mem_range]
    rintro ⟨-, hp⟩
    simp [hs] at hp

/-! ## The trampoline implementation (`src/unnamed/part_000`)

`future_continuation::continue_with` receives the source state and
returns the next work unit `future_next = (continuation?, state)`;
`execute_future` loops until the continuation of the work unit is null.

A dispatch function returns `none` when a non-`future_error` exception
escapes the machinery itself — the only such case is
`std::get<std::exception_ptr>` applied to a `std::monostate` variant
(i.e. dispatching a then/catch continuation over a source whose cell is
still `Empty`), which throws `std::bad_variant_access` out of
`continue_with`.  The development proves this never happens in runs of
the public API. -/

/-- The common tail of every `continue_with` overload:
`dest->set_value(v); next = dest->next(); return {next, dest};`. -/
def settleNext (h : Heap) (dest : Nat) (v : FVal) : (Option FutureCont × Nat) × Heap :=
  let h1 := h.setVal dest v
  let (nx, h2) := h1.next dest
  ((nx, dest), h2)

/-- `detail::attach_future` (part_000, lines 267-289). -/
def attachFuture (src : Option Nat) (dest : Nat) (h : Heap) :
    (Option FutureCont × Nat) × Heap :=
  match src with
  | some s =>
    if h.ready s then
      settleNext h dest (h.moveValue s)
    else
      let (nx, h1) := h.chain s (.attachC dest)
      ((nx, s), h1)
  | none =>
    settleNext h dest (.error (.futureError "invalid future"))

/-- The result written by `invoke_future_then` respectively the
surrounding `try { ... } catch (...) { set_value(current_exception) }`:
the function's return value, or the exception it threw. -/
def invokeResult (r : Except Err Nat) : FVal :=
  match r with
  | .ok v => .value v
  | .error e => .error e

/-- The virtual `continue_with(state)` dispatch, merged over the three
continuation classes of part_000: `future_then::continue_with`
(lines 347-379), `future_catch::continue_with` (lines 428-461) and
`future_attach::continue_with` (lines 254-261). -/
def continueWith (c : FutureCont) (sid : Nat) (h : Heap) :
    Option ((Option FutureCont × Nat) × Heap × Trace) :=
  match c with
  | .thenC l k dest =>
    match h.moveValue sid with
    | .value x =>
      match k with
      | .fnPlain g =>
        let (w, h1) := settleNext h dest (invokeResult (g x))
        some (w, h1, [.invokeThen l x])
      | .fnFut st =>
        let (w, h1) := attachFuture st dest h
        some (w, h1, [.invokeThen l x])
    | .error e =>
      let (w, h1) := settleNext h dest (.error e)
      some (w, h1, [])
    | .empty => none
  | .catchC l k dest =>
    match h.moveValue sid with
    | .value x =>
      let (w, h1) := settleNext h dest (.value x)
      some (w, h1, [])
    | .error e =>
      match k with
      | .cPlain g =>
        let (w, h1) := settleNext h dest (invokeResult (g e))
        some (w, h1, [.invokeCatch l e])
      | .cFut st =>
        let (w, h1) := attachFuture st dest h
        some (w, h1, [.invokeCatch l e])
    | .empty => none
  | .attachC dest =>
    let (w, h1) := settleNext h dest (h.moveValue sid)
    some (w, h1, [])

theorem Heap.set_set (h : Heap) (i : Nat) (s s' : FutureState) :
    (h.set i s).set i s' = h.set i s' := by
  apply Heap.ext
  · intro j
    simp only [Heap.get_set]
    by_cases hji : j = i <;> simp [hji]
  · simp only [Heap.size_set]
    exact Nat.max_eq_left (Nat.le_max_right _ _)

/-- Canonical form of the settle-then-take tail: the destination ends up
with cell `v` and an emptied slot, and the continuation taken is the one
that was stored there. -/
theorem settleNext_eq (h : Heap) (dest : Nat) (v : FVal) :
    settleNext h dest v = (((h.get dest).cont, dest), h.set dest ⟨v, none⟩) := by
  unfold settleNext Heap.next Heap.setVal
  simp [Heap.set_set]

theorem chain_ready (h : Heap) (i : Nat) (c : FutureCont) (hr : h.ready i = true) :
    h.chain i c = (some c, h) := by
  unfold Heap.chain
  simp [hr]

theorem chain_pend (h : Heap) (i : Nat) (c : FutureCont) (hr : h.ready i = false) :
    h.chain i c = (none, h.set i { h.get i with cont := some c }) := by
  unfold Heap.chain
  simp [hr]

theorem settleNext_progress (h : Heap) (dest : Nat) (v : FVal) (c' : FutureCont) (s' : Nat)
    (h' : Heap) (hs : settleNext h dest v = ((some c', s'), h')) :
    h'.storedCount < h.storedCount := by
  rw [settleNext_eq] at hs
  simp only [Prod.mk.injEq] at hs
  rcases hs with ⟨⟨hc, -⟩, hh⟩
  subst hh
  exact h.storedCount_clear_lt dest c' hc _ rfl

theorem attachFuture_progress (src : Option Nat) (dest : Nat) (h : Heap) (c' : FutureCont)
    (s' : Nat) (h' : Heap) (hs : attachFuture src dest h = ((some c', s'), h')) :
    h'.storedCount < h.storedCount := by
  match src with
  | some s =>
    by_cases hr : h.ready s = true
    · simp only [attachFuture, hr, if_true] at hs
      exact settleNext_progress _ _ _ _ _ _ hs
    · rw [Bool.not_eq_true] at hr
      simp only [attachFuture, hr, Bool.false_eq_true, if_false,
        chain_pend h s _ hr] at hs
      simp at hs
  | none =>
    simp only [attachFuture] at hs
    exact settleNext_progress _ _ _ _ _ _ hs

/-- Every iteration of the trampoline that continues has just removed a
stored continuation from a slot, so the stored-continuation count
decreases. -/
theorem continueWith_progress (c : FutureCont) (sid : Nat) (h : Heap) (c' : FutureCont)
    (s' : Nat) (h' : Heap) (tr : Trace)
    (hs : continueWith c sid h = some ((some c', s'), h', tr)) :
    h'.storedCount < h.storedCount := by
  match c with
  | .thenC l k dest =>
    match hv : h.moveValue sid with
    | .value x =>
      match k with
      | .fnPlain g =>
        simp only [continueWith, hv, settleNext_eq, Option.some.injEq, Prod.mk.injEq] at hs
        rcases hs with ⟨⟨hc, -⟩, hh, -⟩
        subst hh
        exact h.storedCount_clear_lt dest c' hc _ rfl
      | .fnFut st =>
        rcases haf : attachFuture st dest h with ⟨w, h1⟩
        simp only [continueWith, hv, haf, Option.some.injEq, Prod.mk.injEq] at hs
        rcases hs with ⟨hw, hh, -⟩
        subst hh
        exact attachFuture_progress st dest h c' s' h1 (by rw [haf]; simp [hw])
    | .error e =>
      simp only [continueWith, hv, settleNext_eq, Option.some.injEq, Prod.mk.injEq] at hs
      rcases hs with ⟨⟨hc, -⟩, hh, -⟩
      subst hh
      exact h.storedCount_clear_lt dest c' hc _ rfl
    | .empty =>
      simp only [continueWith, hv] at hs
      simp at hs
  | .catchC l k dest =>
    match hv : h.moveValue sid with
    | .value x =>
      simp only [continueWith, hv, settleNext_eq, Option.some.injEq, Prod.mk.injEq] at hs
      rcases hs with ⟨⟨hc, -⟩, hh, -⟩
      subst hh
      exact h.storedCount_clear_lt dest c' hc _ rfl
    | .error e =>
      match k with
      | .cPlain g =>
        simp only [continueWith, hv, settleNext_eq, Option.some.injEq, Prod.mk.injEq] at hs
        rcases hs with ⟨⟨hc, -⟩, hh, -⟩
        subst hh
        exact h.storedCount_clear_lt dest c' hc _ rfl
      | .cFut st =>
        rcases haf : attachFuture st dest h with ⟨w, h1⟩
        simp only [continueWith, hv, haf, Option.some.injEq, Prod.mk.injEq] at hs
        rcases hs with ⟨hw, hh, -⟩
        subst hh
        exact attachFuture_progress st dest h c' s' h1 (by rw [haf]; simp [hw])
    | .empty =>
      simp only [continueWith, hv] at hs
      simp at hs
  | .attachC dest =>
    simp only [continueWith, settleNext_eq, Option.some.injEq, Prod.mk.injEq] at hs
    rcases hs with ⟨⟨hc, -⟩, hh, -⟩
    subst hh
    exact h.storedCount_clear_lt dest c' hc _ rfl

/-- `detail::execute_future` (part_000, lines 160-164): the trampoline.
`while (next.first) next = next.first->continue_with(*next.second);`
The state of the loop is a single work unit; no recursion into the
dispatcher happens (`continueWith` never calls `executeFuture`). -/
def executeFuture (h : Heap) (c : FutureCont) (sid : Nat) : Option (Heap × Trace) :=
  match hcw : continueWith c sid h with
  | none => none
  | some ((none, _), h1, tr) => some (h1, tr)
  | some ((some c1, s1), h1, tr) =>
    match executeFuture h1 c1 s1 with
    | none => none
    | some (h2, tr2) => some (h2, tr ++ tr2)
termination_by h.storedCount
decreasing_by exact continueWith_progress _ _ _ _ _ _ _ hcw

theorem executeFuture_eq (h : Heap) (c : FutureCont) (sid : Nat) :
    executeFuture h c sid =
      match continueWith c sid h with
      | none => none
      | some ((none, _), h1, tr) => some (h1, tr)
      | some ((some c1, s1), h1, tr) =>
        match executeFuture h1 c1 s1 with
        | none => none
        | some (h2, tr2) => some (h2, tr ++ tr2) := by
  conv_lhs => rw [executeFuture]
  rcases hcw : continueWith c sid h with - | ⟨⟨nx, s1⟩, h1, tr⟩
  · simp [hcw]
  · rcases nx with - | c1 <;> simp [hcw]

theorem executeFuture_fault (h : Heap) (c : FutureCont) (sid : Nat)
    (hcw : continueWith c sid h = none) : executeFuture h c sid = none := by
  rw [executeFuture_eq, hcw]

theorem executeFuture_stop (h : Heap) (c : FutureCont) (sid : Nat) (s' : Nat) (h1 : Heap)
    (tr : Trace) (hcw : continueWith c sid h = some ((none, s'), h1, tr)) :
    executeFuture h c sid = some (h1, tr) := by
  rw [executeFuture_eq, hcw]

theorem executeFuture_step (h : Heap) (c : FutureCont) (sid : Nat) (c1 : FutureCont)
    (s1 : Nat) (h1 : Heap) (tr : Trace)
    (hcw : continueWith c sid h = some ((some c1, s1), h1, tr)) :
    executeFuture h c sid =
      match executeFuture h1 c1 s1 with
      | none => none
      | some (h2, tr2) => some (h2, tr ++ tr2) := by
  rw [executeFuture_eq, hcw]

/-- Running `execute_future` on a whole work unit (`future_next`): when
the continuation of the pair is null, the loop body never runs. -/
def executeWork (h : Heap) (w : Option FutureCont × Nat) : Option (Heap × Trace) :=
  match w with
  | (none, _) => some (h, [])
  | (some c, sid) => executeFuture h c sid

/-! ## Public API over the trampoline implementation (`part_000`) -/

/-- `detail::promise_base::satisfy` (part_000, lines 576-584):
`_state->set_value(arg); next = _state->next(); execute_future({next, _state});`
(the promise's `_state` pointer is moved out, consuming the handle). -/
def promiseSatisfy (h : Heap) (sid : Nat) (arg : FVal) : Option (Heap × Trace) :=
  let h1 := h.setVal sid arg
  let (nx, h2) := h1.next sid
  executeWork h2 (nx, sid)

/-- `future::then` (part_000, lines 495-512), after the null-handle
check: allocate the downstream state, chain a then-continuation onto the
source, and feed the chain result into the trampoline.  Returns the
state owned by the returned future. -/
def futureThen (h : Heap) (src : Nat) (l : Nat) (k : FnK) : Option (Heap × Nat × Trace) :=
  let (dest, h1) := h.alloc
  let (nx, h2) := h1.chain src (.thenC l k dest)
  match executeWork h2 (nx, src) with
  | none => none
  | some (h3, tr) => some (h3, dest, tr)

/-- `future::catch_exception` (part_000, lines 514-531), after the
null-handle check. -/
def futureCatch (h : Heap) (src : Nat) (l : Nat) (k : CatchK) : Option (Heap × Nat × Trace) :=
  let (dest, h1) := h.alloc
  let (nx, h2) := h1.chain src (.catchC l k dest)
  match executeWork h2 (nx, src) with
  | none => none
  | some (h3, tr) => some (h3, dest, tr)

/-- Outcome of a public API call: a `future_error` thrown at the call
site (`raised`), an exception escaping the dispatch machinery itself
(`fault`; proven unreachable for well-formed runs), or success. -/
inductive ApiOut (α : Type) where
  | raised (what : String)
  | fault
  | ok (a : α)

/-- A `future<T>` handle: a possibly null `shared_ptr` to its state. -/
structure Fut where
  st : Option Nat

/-- A `promise<T>` handle. -/
structure Prom where
  st : Option Nat

/-- `future::valid`: `_state != nullptr`. -/
def Fut.valid (f : Fut) : Bool := f.st.isSome

/-- `future::ready`: `_state && _state->ready()` — the null test
short-circuits, so a null handle never reaches the shared state. -/
def Fut.ready (h : Heap) (f : Fut) : Bool :=
  match f.st with
  | none => false
  | some s => h.ready s

/-- `future::then` at the handle level.  `check()` throws
`future_error("invalid future")` on a null handle; otherwise the handle
is consumed (`std::move(_state)` into the trampoline call).  The first
component is the value of `this` after the call. -/
def Fut.thenF (h : Heap) (f : Fut) (l : Nat) (k : FnK) :
    Fut × ApiOut (Fut × Heap × Trace) :=
  match f.st with
  | none => (⟨none⟩, .raised "invalid future")
  | some s =>
    match futureThen h s l k with
    | none => (⟨none⟩, .fault)
    | some (h', d, tr) => (⟨none⟩, .ok (⟨some d⟩, h', tr))

/-- `future::catch_exception` at the handle level. -/
def Fut.catchF (h : Heap) (f : Fut) (l : Nat) (k : CatchK) :
    Fut × ApiOut (Fut × Heap × Trace) :=
  match f.st with
  | none => (⟨none⟩, .raised "invalid future")
  | some s =>
    match futureCatch h s l k with
    | none => (⟨none⟩, .fault)
    | some (h', d, tr) => (⟨none⟩, .ok (⟨some d⟩, h', tr))

/-- `promise::set_value`: `check()` throws
`future_error("promise already satisfied")` on a null handle, then
`satisfy` writes the value and drains; the handle is consumed. -/
def Prom.setValue (h : Heap) (p : Prom) (v : Nat) : Prom × ApiOut (Heap × Trace) :=
  match p.st with
  | none => (p, .raised "promise already satisfied")
  | some s =>
    match promiseSatisfy h s (.value v) with
    | none => (⟨none⟩, .fault)
    | some r => (⟨none⟩, .ok r)

/-- `promise::set_exception`. -/
def Prom.setException (h : Heap) (p : Prom) (e : Err) : Prom × ApiOut (Heap × Trace) :=
  match p.st with
  | none => (p, .raised "promise already satisfied")
  | some s =>
    match promiseSatisfy h s (.error e) with
    | none => (⟨none⟩, .fault)
    | some r => (⟨none⟩, .ok r)

/-- `promise_base::~promise_base` (part_000, lines 564-568): a
still-armed handle injects `future_error("broken promise")` through the
ordinary `satisfy` path. -/
def Prom.drop (h : Heap) (p : Prom) : ApiOut (Heap × Trace) :=
  match p.st with
  | none => .ok (h, [])
  | some s =>
    match promiseSatisfy h s (.error (.futureError "broken promise")) with
    | none => .fault
    | some r => .ok r

/-- `make_promise` via `future_helper::make`: one fresh shared state
shared by both handles. -/
def makePromise (h : Heap) : (Prom × Fut) × Heap :=
  let (s, h1) := h.alloc
  ((⟨some s⟩, ⟨some s⟩), h1)

/-- `make_ready_future` via `future_helper::make_ready`:
`set_value_unsafe` pre-fulfills the fresh state. -/
def makeReadyFuture (h : Heap) (v : Nat) : Fut × Heap :=
  let (s, h1) := h.alloc
  (⟨some s⟩, h1.setVal s (.value v))

/-- `make_exceptional_future`. -/
def makeExceptionalFuture (h : Heap) (e : Err) : Fut × Heap :=
  let (s, h1) := h.alloc
  (⟨some s⟩, h1.setVal s (.error e))

/-! ## Step lemmas for the trampoline API -/

@[simp] theorem FVal.idx_empty : FVal.empty.idx = 0 := rfl
@[simp] theorem FVal.idx_value (v : Nat) : (FVal.value v).idx = 1 := rfl
@[simp] theorem FVal.idx_error (e : Err) : (FVal.error e).idx = 2 := rfl

@[simp] theorem FutureState.ready_mk (v : FVal) (c : Option FutureCont) :
    FutureState.ready ⟨v, c⟩ = (v.idx ≠ 0 : Bool) := rfl

@[simp] theorem FutureState.init_val : FutureState.init.val = .empty := rfl
@[simp] theorem FutureState.init_cont : FutureState.init.cont = none := rfl

theorem Heap.ready_eq (h : Heap) (i : Nat) : h.ready i = ((h.get i).val.idx ≠ 0 : Bool) := rfl

theorem Heap.ready_of_val (h : Heap) (i : Nat) (v : FVal) (hv : (h.get i).val = v) :
    h.ready i = (v.idx ≠ 0 : Bool) := by rw [Heap.ready_eq, hv]

theorem Heap.lt_size_of_ready (h : Heap) (i : Nat) (hr : h.ready i = true) : i < h.size := by
  by_contra hge
  rw [Heap.ready_eq, h.get_of_size_le i (by omega)] at hr
  simp [FutureState.init] at hr

/-- A satisfaction call on a state with an empty continuation slot just
writes the cell; the trampoline gets a null work unit. -/
theorem promiseSatisfy_unattached (h : Heap) (sid : Nat) (arg : FVal)
    (hc : (h.get sid).cont = none) :
    promiseSatisfy h sid arg = some (h.set sid ⟨arg, none⟩, []) := by
  unfold promiseSatisfy Heap.next Heap.setVal executeWork
  simp [hc, Heap.set_set]

/-- A satisfaction call on a state with an attached continuation removes
it and drives it through the trampoline. -/
theorem promiseSatisfy_attached (h : Heap) (sid : Nat) (arg : FVal) (c : FutureCont)
    (hc : (h.get sid).cont = some c) :
    promiseSatisfy h sid arg = executeFuture (h.set sid ⟨arg, none⟩) c sid := by
  unfold promiseSatisfy Heap.next Heap.setVal executeWork
  simp [hc, Heap.set_set]

/-- `future::then` on a pending source parks the continuation in the
slot; nothing is dispatched. -/
theorem futureThen_pend (h : Heap) (src l : Nat) (k : FnK)
    (hsrc : h.get src = ⟨.empty, none⟩) (hsz : src < h.size) :
    futureThen h src l k =
      some ((h.set h.size FutureState.init).set src
        ⟨.empty, some (.thenC l k h.size)⟩, h.size, []) := by
  have hget : (h.set h.size FutureState.init).get src = h.get src := by
    simp only [Heap.get_set]
    rw [if_neg (by omega)]
  unfold futureThen Heap.alloc
  dsimp only
  rw [chain_pend _ _ _ (by rw [Heap.ready_eq, hget, hsrc]; simp)]
  simp only [executeWork, hget, hsrc]

/-- `future::then` on a ready source feeds the fresh continuation
straight into the trampoline, paired with the source state. -/
theorem futureThen_ready (h : Heap) (src l : Nat) (k : FnK)
    (hr : h.ready src = true) :
    futureThen h src l k =
      match executeFuture (h.set h.size FutureState.init) (.thenC l k h.size) src with
      | none => none
      | some (h3, tr) => some (h3, h.size, tr) := by
  have hsz := h.lt_size_of_ready src hr
  have hget : (h.set h.size FutureState.init).get src = h.get src := by
    simp only [Heap.get_set]
    rw [if_neg (by omega)]
  unfold futureThen Heap.alloc
  dsimp only
  rw [chain_ready _ _ _ (by rw [Heap.ready_eq, hget]; rw [Heap.ready_eq] at hr; exact hr)]
  simp only [executeWork]

/-- `future::catch_exception` on a pending source parks the
continuation. -/
theorem futureCatch_pend (h : Heap) (src l : Nat) (k : CatchK)
    (hsrc : h.get src = ⟨.empty, none⟩) (hsz : src < h.size) :
    futureCatch h src l k =
      some ((h.set h.size FutureState.init).set src
        ⟨.empty, some (.catchC l k h.size)⟩, h.size, []) := by
  have hget : (h.set h.size FutureState.init).get src = h.get src := by
    simp only [Heap.get_set]
    rw [if_neg (by omega)]
  unfold futureCatch Heap.alloc
  dsimp only
  rw [chain_pend _ _ _ (by rw [Heap.ready_eq, hget, hsrc]; simp)]
  simp only [executeWork, hget, hsrc]

/-- `future::catch_exception` on a ready source dispatches immediately. -/
theorem futureCatch_ready (h : Heap) (src l : Nat) (k : CatchK)
    (hr : h.ready src = true) :
    futureCatch h src l k =
      match executeFuture (h.set h.size FutureState.init) (.catchC l k h.size) src with
      | none => none
      | some (h3, tr) => some (h3, h.size, tr) := by
  have hsz := h.lt_size_of_ready src hr
  have hget : (h.set h.size FutureState.init).get src = h.get src := by
    simp only [Heap.get_set]
    rw [if_neg (by omega)]
  unfold futureCatch Heap.alloc
  dsimp only
  rw [chain_ready _ _ _ (by rw [Heap.ready_eq, hget]; rw [Heap.ready_eq] at hr; exact hr)]
  simp only [executeWork]

/-! ## Claim C8 and C10 -/

/-- **C8**: for every valid future handle, calling `then(f)` or
`catch_exception(f)` consumes the handle: `valid()` returns `false`
immediately after the call returns.  Quantifying over the heap `h`
covers both the already-settled and the still-pending source case (and
even the dispatch-fault case): in every branch the source handle's
state pointer has been moved out. -/
theorem claim_c8_then_catch_consume (h : Heap) (f : Fut) (l l' : Nat) (k : FnK) (k' : CatchK)
    (hv : f.valid = true) :
    (f.thenF h l k).1.valid = false ∧ (f.catchF h l' k').1.valid = false := by
  rcases f with ⟨st⟩
  cases st with
  | none => simp [Fut.valid] at hv
  | some s =>
    constructor
    · rcases hf : futureThen h s l k with - | ⟨h', d, tr⟩ <;> simp [Fut.thenF, hf, Fut.valid]
    · rcases hf : futureCatch h s l' k' with - | ⟨h', d, tr⟩ <;> simp [Fut.catchF, hf, Fut.valid]

theorem claim_c8_witness :
    (Fut.valid ⟨some 0⟩ = true) ∧
    ((Fut.thenF Heap.empty ⟨some 0⟩ 0 (.fnPlain (fun x => .ok x))).1.valid = false ∧
      (Fut.catchF Heap.empty ⟨some 0⟩ 1 (.cPlain (fun _ => .ok 0))).1.valid = false) :=
  ⟨rfl, claim_c8_then_catch_consume Heap.empty ⟨some 0⟩ 0 1
    (.fnPlain (fun x => .ok x)) (.cPlain (fun _ => .ok 0)) rfl⟩

/-- **C10**: an invalid future handle (default-constructed, or consumed
— `Fut.thenF`/`Fut.catchF` always return a null `this`, see C8) answers
`valid() = false` and `ready() = false` for every heap: the null test in
`_state && _state->ready()` short-circuits, so the shared state is never
dereferenced, and neither observer throws. -/
theorem claim_c10_invalid_observers (f : Fut) (hf : f.st = none) :
    f.valid = false ∧ ∀ h : Heap, f.ready h = false := by
  rcases f with ⟨st⟩
  cases hf
  exact ⟨rfl, fun _ => rfl⟩

theorem claim_c10_witness :
    (Fut.mk none).st = none ∧
      ((Fut.mk none).valid = false ∧ ∀ h : Heap, (Fut.mk none).ready h = false) :=
  ⟨rfl, claim_c10_invalid_observers ⟨none⟩ rfl⟩

theorem attachFuture_null (dest : Nat) (h : Heap) :
    attachFuture none dest h =
      (((h.get dest).cont, dest), h.set dest ⟨.error (.futureError "invalid future"), none⟩) := by
  unfold attachFuture
  rw [settleNext_eq]

theorem attachFuture_pend (s dest : Nat) (h : Heap) (hr : h.ready s = false) :
    attachFuture (some s) dest h =
      ((none, s), h.set s { h.get s with cont := some (.attachC dest) }) := by
  unfold attachFuture
  dsimp only
  rw [if_neg (by simp [hr]), chain_pend _ _ _ hr]

theorem attachFuture_ready (s dest : Nat) (h : Heap) (hr : h.ready s = true) :
    attachFuture (some s) dest h =
      (((h.get dest).cont, dest), h.set dest ⟨(h.get s).val, none⟩) := by
  unfold attachFuture
  dsimp only
  rw [if_pos hr, settleNext_eq]
  rfl

/-! ## Claim C1: monadic unwrapping of a returned inner future -/

/-- **C1**: for a chain `f.then(g)` where the user function `g` returns
a `future<X>` (here: the captured future over inner state `b`), the
downstream future produced by `then` settles with the inner future's
eventual outcome `w` (value or error), and only after both the outer
producer (state `a`) and the inner producer (state `b`) have settled,
in either order.  `h.size` is the id of the downstream state `D`
allocated by `then`; after only the first settlement — in either order —
`D`'s cell is still `Empty`, and after the second it holds exactly `w`. -/
theorem claim_c1_inner_future_unwrap (h : Heap) (a b l va : Nat) (w : FVal)
    (ha : h.get a = ⟨.empty, none⟩) (hb : h.get b = ⟨.empty, none⟩)
    (hasz : a < h.size) (hbsz : b < h.size) (hab : a ≠ b) (hw : w ≠ .empty) :
    ∃ h₂ : Heap,
      Fut.thenF h ⟨some a⟩ l (.fnFut (some b)) =
        (⟨none⟩, .ok (⟨some h.size⟩, h₂, [])) ∧
      (∃ h₃ h₄ : Heap,
        promiseSatisfy h₂ a (.value va) = some (h₃, [.invokeThen l va]) ∧
        (h₃.get h.size).val = .empty ∧
        promiseSatisfy h₃ b w = some (h₄, []) ∧
        (h₄.get h.size).val = w) ∧
      (∃ h₃ h₄ : Heap,
        promiseSatisfy h₂ b w = some (h₃, []) ∧
        (h₃.get h.size).val = .empty ∧
        promiseSatisfy h₃ a (.value va) = some (h₄, [.invokeThen l va]) ∧
        (h₄.get h.size).val = w) := by
  have hwr : ((w.idx ≠ 0 : Prop) : Bool) = true := by
    cases w with
    | empty => exact absurd rfl hw
    | value v => rfl
    | error e => rfl
  set d := h.size with hd
  have hda : d ≠ a := by omega
  have hdb : d ≠ b := by omega
  set cont := FutureCont.thenC l (.fnFut (some b)) d with hcont
  set h₂ := (h.set d FutureState.init).set a ⟨.empty, some cont⟩ with hh2
  have hth : futureThen h a l (.fnFut (some b)) = some (h₂, d, []) := by
    rw [futureThen_pend h a l _ ha hasz]
  refine ⟨h₂, ?_, ?_, ?_⟩
  · simp only [Fut.thenF, hth]
  · -- outer first, then inner
    set h₃ := (h₂.set a ⟨.value va, none⟩).set b ⟨.empty, some (.attachC d)⟩ with hh3
    set h₄ := (h₃.set b ⟨w, none⟩).set d ⟨w, none⟩ with hh4
    have hs1 : promiseSatisfy h₂ a (.value va) = some (h₃, [.invokeThen l va]) := by
      rw [promiseSatisfy_attached h₂ a _ cont (by simp [hh2])]
      have hcw : continueWith cont a (h₂.set a ⟨.value va, none⟩) =
          some ((none, b), h₃, [.invokeThen l va]) := by
        have hget : (h₂.set a ⟨.value va, none⟩).get a = ⟨.value va, none⟩ := by simp
        have hrb : (h₂.set a ⟨.value va, none⟩).ready b = false := by
          rw [Heap.ready_of_val _ b .empty (by simp [hh2, hab.symm, hdb.symm, hb])]
          rfl
        simp only [hcont, continueWith, Heap.moveValue, hget,
          attachFuture_pend b d _ hrb]
        have : (h₂.set a ⟨.value va, none⟩).get b = ⟨.empty, none⟩ := by
          simp [hh2, hab.symm, hdb.symm, hb]
        rw [this]
      rw [executeFuture_stop _ _ _ b h₃ _ hcw]
    have hs2 : promiseSatisfy h₃ b w = some (h₄, []) := by
      rw [promiseSatisfy_attached h₃ b w (.attachC d) (by simp [hh3])]
      have hcw : continueWith (.attachC d) b (h₃.set b ⟨w, none⟩) =
          some ((none, d), h₄, []) := by
        have hget : (h₃.set b ⟨w, none⟩).get b = ⟨w, none⟩ := by simp
        have hgd : ((h₃.set b ⟨w, none⟩).get d).cont = none := by
          simp [hh3, hh2, hdb, hda]
        simp only [continueWith, Heap.moveValue, hget, settleNext_eq, hgd, hh4]
      rw [executeFuture_stop _ _ _ d h₄ _ hcw]
    exact ⟨h₃, h₄, hs1, by simp [hh3, hh2, hdb, hda], hs2, by simp [hh4]⟩
  · -- inner first, then outer
    set h₃ := h₂.set b ⟨w, none⟩ with hh3
    set h₄ := (h₃.set a ⟨.value va, none⟩).set d ⟨w, none⟩ with hh4
    have hs1 : promiseSatisfy h₂ b w = some (h₃, []) := by
      rw [promiseSatisfy_unattached h₂ b w (by simp [hh2, hab.symm, hdb.symm, hb])]
    have hs2 : promiseSatisfy h₃ a (.value va) = some (h₄, [.invokeThen l va]) := by
      rw [promiseSatisfy_attached h₃ a _ cont (by simp [hh3, hh2, hab])]
      have hcw : continueWith cont a (h₃.set a ⟨.value va, none⟩) =
          some ((none, d), h₄, [.invokeThen l va]) := by
        have hget : (h₃.set a ⟨.value va, none⟩).get a = ⟨.value va, none⟩ := by simp
        have hrb : (h₃.set a ⟨.value va, none⟩).ready b = true := by
          rw [Heap.ready_of_val _ b w (by simp [hh3, hab.symm])]
          exact hwr
        have hvb : ((h₃.set a ⟨.value va, none⟩).get b).val = w := by
          simp [hh3, hab.symm]
        have hgd : ((h₃.set a ⟨.value va, none⟩).get d).cont = none := by
          simp [hh3, hh2, hda, hdb]
        simp only [hcont, continueWith, Heap.moveValue, hget,
          attachFuture_ready b d _ hrb, hvb, hgd, hh4]
      rw [executeFuture_stop _ _ _ d h₄ _ hcw]
    exact ⟨h₃, h₄, hs1, by simp [hh3, hh2, hdb, hda], hs2, by simp [hh4]⟩

/-- The concrete two-promise heap used to witness C1: states 0 and 1
pending and unattached. -/
def c1WitnessHeap : Heap := (Heap.empty.set 0 FutureState.init).set 1 FutureState.init

theorem claim_c1_witness :
    c1WitnessHeap.get 0 = ⟨.empty, none⟩ ∧ c1WitnessHeap.get 1 = ⟨.empty, none⟩ ∧
    0 < c1WitnessHeap.size ∧ 1 < c1WitnessHeap.size ∧ (0 : Nat) ≠ 1 ∧
    FVal.value 3 ≠ FVal.empty ∧
    (∃ h₂ : Heap,
      Fut.thenF c1WitnessHeap ⟨some 0⟩ 7 (.fnFut (some 1)) =
        (⟨none⟩, .ok (⟨some c1WitnessHeap.size⟩, h₂, [])) ∧
      (∃ h₃ h₄ : Heap,
        promiseSatisfy h₂ 0 (.value 5) = some (h₃, [.invokeThen 7 5]) ∧
        (h₃.get c1WitnessHeap.size).val = .empty ∧
        promiseSatisfy h₃ 1 (.value 3) = some (h₄, []) ∧
        (h₄.get c1WitnessHeap.size).val = .value 3) ∧
      (∃ h₃ h₄ : Heap,
        promiseSatisfy h₂ 1 (.value 3) = some (h₃, []) ∧
        (h₃.get c1WitnessHeap.size).val = .empty ∧
        promiseSatisfy h₃ 0 (.value 5) = some (h₄, [.invokeThen 7 5]) ∧
        (h₄.get c1WitnessHeap.size).val = .value 3)) :=
  ⟨rfl, rfl, by decide, by decide, by decide, by decide,
    claim_c1_inner_future_unwrap c1WitnessHeap 0 1 7 5 (.value 3) rfl rfl
      (by decide) (by decide) (by decide) (by decide)⟩

/-! ## Linear continuation chains

A continuation chain hangs off a source state: each dispatched
continuation settles its destination, whose slot may hold the next
continuation.  `ThenLinked h d ps t` describes a chain of plain
then-continuations: the slot of `d` holds a then-continuation with user
function `g` and destination `d'` for each `((l, g), d')` in `ps`,
ending at state `t` (`t = d` for the empty chain). -/
inductive ThenLinked : Heap → Nat → List ((Nat × (Nat → Except Err Nat)) × Nat) → Nat → Prop where
  | nil (h : Heap) (d : Nat) : ThenLinked h d [] d
  | cons (h : Heap) (d l : Nat) (g : Nat → Except Err Nat) (d' : Nat)
      (rest : List ((Nat × (Nat → Except Err Nat)) × Nat)) (t : Nat)
      (hc : (h.get d).cont = some (.thenC l (.fnPlain g) d'))
      (htail : ThenLinked h d' rest t) :
      ThenLinked h d (((l, g), d') :: rest) t

theorem ThenLinked.mem_last : ∀ {ps : List ((Nat × (Nat → Except Err Nat)) × Nat)}
    {h : Heap} {d t : Nat}, ThenLinked h d ps t → t ∈ d :: ps.map (·.2) := by
  intro ps
  induction ps with
  | nil =>
    intro h d t hl
    have ht : t = d := by cases hl; rfl
    subst ht
    simp
  | cons p rest ih =>
    intro h d t hl
    rcases p with ⟨⟨l, g⟩, d'⟩
    cases hl
    rename_i hc htail
    have := ih htail
    simp only [List.map_cons, List.mem_cons] at this ⊢
    tauto

/-- Writing to a state outside the chain leaves the chain intact. -/
theorem ThenLinked.set_outside : ∀ {ps : List ((Nat × (Nat → Except Err Nat)) × Nat)}
    {h : Heap} {d t : Nat}, ThenLinked h d ps t → ∀ (y : Nat) (st : FutureState),
    y ≠ d → y ∉ ps.map (·.2) → ThenLinked (h.set y st) d ps t := by
  intro ps
  induction ps with
  | nil =>
    intro h d t hl y st hy hys
    have ht : t = d := by cases hl; rfl
    subst ht
    exact .nil _ _
  | cons p rest ih =>
    intro h d t hl y st hy hys
    rcases p with ⟨⟨l, g⟩, d'⟩
    cases hl
    rename_i hc htail
    simp only [List.map_cons, List.mem_cons] at hys
    push_neg at hys
    refine .cons _ _ _ _ _ _ _ ?_ (ih htail y st hys.1 hys.2)
    simp only [Heap.get_set, if_neg (Ne.symm hy)]
    exact hc

/-- Write a broken chain's worth of error cells: every state in `ds`
ends with cell `Error e` and an emptied slot. -/
def Heap.drainError (h : Heap) (e : Err) (ds : List Nat) : Heap :=
  ds.foldl (fun hh x => hh.set x ⟨.error e, none⟩) h

@[simp] theorem Heap.drainError_nil (h : Heap) (e : Err) : h.drainError e [] = h := rfl

theorem Heap.drainError_cons (h : Heap) (e : Err) (x : Nat) (ds : List Nat) :
    h.drainError e (x :: ds) = (h.set x ⟨.error e, none⟩).drainError e ds := rfl

theorem Heap.get_drainError_outside (h : Heap) (e : Err) (ds : List Nat) (x : Nat)
    (hx : x ∉ ds) : (h.drainError e ds).get x = h.get x := by
  induction ds generalizing h with
  | nil => rfl
  | cons y ys ih =>
    simp only [List.mem_cons] at hx
    push_neg at hx
    rw [Heap.drainError_cons, ih _ hx.2]
    simp only [Heap.get_set, if_neg hx.1]

theorem Heap.get_drainError_mem (h : Heap) (e : Err) (ds : List Nat) (x : Nat)
    (hx : x ∈ ds) : (h.drainError e ds).get x = ⟨.error e, none⟩ := by
  induction ds generalizing h with
  | nil => simp at hx
  | cons y ys ih =>
    rw [Heap.drainError_cons]
    by_cases hxy : x ∈ ys
    · exact ih _ hxy
    · have : x = y := by
        simp only [List.mem_cons] at hx
        tauto
      subst this
      rw [Heap.get_drainError_outside _ _ _ _ hxy]
      simp

/-- **Error forwarding along a then-chain** (the heart of C2 and C4):
dispatching a then-continuation whose source holds `Error e` writes
`Error e` verbatim into its destination without invoking the user
function, and the trampoline walks the whole chain this way.  The
result is the dispatch of whatever continuation waits at the end `t` of
the chain, over the heap in which every chain state holds `Error e`. -/
theorem thenChain_error_eq (ps : List ((Nat × (Nat → Except Err Nat)) × Nat)) (h : Heap)
    (s d t l : Nat) (g : Nat → Except Err Nat) (e : Err)
    (hs : (h.get s).val = .error e)
    (hd : (h.get d).val = .empty)
    (hl : ThenLinked h d ps t)
    (hnd : (d :: ps.map (·.2)).Nodup)
    (hes : ∀ x ∈ ps.map (·.2), (h.get x).val = .empty) :
    executeFuture h (.thenC l (.fnPlain g) d) s =
      executeWork (h.drainError e (d :: ps.map (·.2))) ((h.get t).cont, t) := by
  induction ps generalizing h s d l g with
  | nil =>
    have ht : t = d := by cases hl; rfl
    rw [ht]
    have hcw : continueWith (.thenC l (.fnPlain g) d) s h =
        some (((h.get d).cont, d), h.set d ⟨.error e, none⟩, []) := by
      simp only [continueWith, Heap.moveValue, hs, settleNext_eq]
    rcases hc : (h.get d).cont with - | c
    · rw [executeFuture_stop _ _ _ d _ _ (by rw [hcw, hc])]
      simp [executeWork, Heap.drainError_cons, hc]
    · rw [executeFuture_step _ _ _ c d _ _ (by rw [hcw, hc])]
      simp only [executeWork, Heap.drainError_cons, Heap.drainError_nil]
      rcases hef : executeFuture (h.set d ⟨.error e, none⟩) c d with - | ⟨h2, tr2⟩ <;>
        simp [hef]
  | cons p rest ih =>
    rcases p with ⟨⟨l', g'⟩, d'⟩
    cases hl
    rename_i hc htail
    · 
      have hcw : continueWith (.thenC l (.fnPlain g) d) s h =
          some ((some (.thenC l' (.fnPlain g') d'), d), h.set d ⟨.error e, none⟩, []) := by
        simp only [continueWith, Heap.moveValue, hs, settleNext_eq, hc]
      rw [executeFuture_step _ _ _ _ d _ _ hcw]
      simp only [List.map_cons, List.nodup_cons, List.mem_cons] at hnd hes
      have hdd' : d ≠ d' := by
        intro hdd
        exact hnd.1 (by simp [hdd])
      have hdrest : d ∉ rest.map (·.2) := fun hmem => hnd.1 (by simp [hmem])
      set h₁ := h.set d ⟨.error e, none⟩ with hh1
      have hs1 : (h₁.get d).val = .error e := by simp [hh1]
      have hd1 : (h₁.get d').val = .empty := by
        rw [hh1]
        simp only [Heap.get_set, if_neg (show d' ≠ d by omega)]
        exact hes _ (Or.inl rfl)
      have hl1 : ThenLinked h₁ d' rest t := htail.set_outside d _ (show d ≠ d' by omega) hdrest
      have ht1 : (h₁.get t).cont = (h.get t).cont := by
        have hmem := htail.mem_last
        rcases List.mem_cons.mp hmem with hte | hte
        · subst hte
          rw [hh1]
          simp only [Heap.get_set, if_neg (show t ≠ d by omega)]
        · rw [hh1]
          have : t ≠ d := by
            intro htd
            subst htd
            exact hdrest hte
          simp only [Heap.get_set, if_neg this]
      have hes1 : ∀ x ∈ rest.map (·.2), (h₁.get x).val = .empty := by
        intro x hx
        rw [hh1]
        have hxd : x ≠ d := by
          intro hxd
          subst hxd
          exact hdrest hx
        simp only [Heap.get_set, if_neg hxd]
        exact hes _ (Or.inr hx)
      rw [ih h₁ d d' l' g' hs1 hd1 hl1 (by simp [List.nodup_cons, hnd.2]) hes1, ht1]
      have hdrain : h₁.drainError e (d' :: rest.map (·.2)) =
          h.drainError e (d :: d' :: rest.map (·.2)) := by
        simp only [Heap.drainError_cons, hh1]
      rw [hdrain]
      rcases hef : executeWork (h.drainError e (d :: d' :: rest.map (·.2))) ((h.get t).cont, t)
        with - | ⟨h2, tr2⟩ <;> simp [hef]

/-! ## Claim C2: errors bypass then-continuations verbatim -/

/-- **C2**: a future settled with `Error e` propagates `e` verbatim
through an arbitrary chain of then-continuations — none of their user
functions is invoked (the produced trace contains no `invokeThen`
event), every then-destination receives exactly `Error e` — and the
earliest subsequent catch-continuation's handler receives exactly `e`
(the sole trace event is `invokeCatch lc e`).  The final conjunct is the
settle-before-attach form: `then` on an already-errored source forwards
the token verbatim into the fresh destination without invoking the user
function. -/
theorem claim_c2_error_bypass (h : Heap) (s d t dt l lc : Nat)
    (g : Nat → Except Err Nat) (gc : Err → Except Err Nat)
    (ps : List ((Nat × (Nat → Except Err Nat)) × Nat)) (e : Err)
    (hsc : (h.get s).cont = some (.thenC l (.fnPlain g) d))
    (hl : ThenLinked h d ps t)
    (hnd : (s :: d :: ps.map (·.2)).Nodup)
    (hde : (h.get d).val = .empty)
    (hes : ∀ x ∈ ps.map (·.2), (h.get x).val = .empty)
    (hct : (h.get t).cont = some (.catchC lc (.cPlain gc) dt))
    (hdtc : (h.get dt).cont = none)
    (hdts : dt ∉ s :: d :: ps.map (·.2)) :
    (∃ h' : Heap,
      promiseSatisfy h s (.error e) = some (h', [.invokeCatch lc e]) ∧
      (∀ x ∈ d :: ps.map (·.2), (h'.get x).val = .error e) ∧
      (h'.get dt).val = invokeResult (gc e)) ∧
    (∀ (h₀ : Heap) (s₀ l₀ : Nat) (g₀ : Nat → Except Err Nat),
      (h₀.get s₀).val = .error e →
      ∃ h₁, futureThen h₀ s₀ l₀ (.fnPlain g₀) = some (h₁, h₀.size, []) ∧
        (h₁.get h₀.size).val = .error e) := by
  simp only [List.nodup_cons, List.mem_cons] at hnd
  push_neg at hnd
  simp only [List.mem_cons] at hdts
  push_neg at hdts
  have htmem := hl.mem_last
  have hts : t ≠ s := by
    rcases List.mem_cons.mp htmem with hte | hte
    · omega
    · intro hts; exact hnd.1.2 (hts ▸ hte)
  constructor
  · set h₁ := h.set s ⟨.error e, none⟩ with hh1
    set hD := h₁.drainError e (d :: ps.map (·.2)) with hhD
    set h' := hD.set dt ⟨invokeResult (gc e), none⟩ with hh'
    have hchain : executeFuture h₁ (.thenC l (.fnPlain g) d) s =
        executeWork (h₁.drainError e (d :: ps.map (·.2))) ((h₁.get t).cont, t) := by
      refine thenChain_error_eq ps h₁ s d t l g e (by simp [hh1]) ?_ ?_ ?_ ?_
      · rw [hh1]; simp only [Heap.get_set, if_neg (show d ≠ s by omega)]; exact hde
      · exact hl.set_outside s _ (by omega) (fun hmem => hnd.1.2 hmem)
      · simp only [List.nodup_cons]
        exact ⟨hnd.2.1, hnd.2.2⟩
      · intro x hx
        rw [hh1]
        have hxs : x ≠ s := fun hxs => hnd.1.2 (hxs ▸ hx)
        simp only [Heap.get_set, if_neg hxs]
        exact hes x hx
    have ht1 : (h₁.get t).cont = some (.catchC lc (.cPlain gc) dt) := by
      rw [hh1]
      simp only [Heap.get_set, if_neg hts]
      exact hct
    have hDt : (hD.get t).val = .error e := by
      rw [hhD, Heap.get_drainError_mem _ _ _ _ htmem]
    have hDdt : (hD.get dt).cont = none := by
      rw [hhD, Heap.get_drainError_outside _ _ _ _ (by
        intro hmem
        rcases List.mem_cons.mp hmem with hx | hx
        · omega
        · exact hdts.2.2 hx), hh1]
      simp only [Heap.get_set, if_neg (show dt ≠ s by omega)]
      exact hdtc
    have hcatch : executeFuture hD (.catchC lc (.cPlain gc) dt) t =
        some (h', [.invokeCatch lc e]) := by
      have hcw : continueWith (.catchC lc (.cPlain gc) dt) t hD =
          some ((none, dt), h', [.invokeCatch lc e]) := by
        simp only [continueWith, Heap.moveValue, hDt, settleNext_eq, hDdt, hh']
      rw [executeFuture_stop _ _ _ dt _ _ hcw]
    refine ⟨h', ?_, ?_, ?_⟩
    · rw [promiseSatisfy_attached h s _ _ hsc, ← hh1, hchain, ht1]
      simp only [executeWork, ← hhD]
      exact hcatch
    · intro x hx
      rw [hh']
      have hxdt : x ≠ dt := by
        rcases List.mem_cons.mp hx with hx' | hx'
        · omega
        · intro hxdt; exact hdts.2.2 (hxdt ▸ hx')
      simp only [Heap.get_set, if_neg hxdt, hhD]
      rw [Heap.get_drainError_mem _ _ _ _ hx]
    · rw [hh']
      simp
  · intro h₀ s₀ l₀ g₀ hv
    have hr : h₀.ready s₀ = true := by rw [Heap.ready_of_val _ _ _ hv]; rfl
    have hsz := h₀.lt_size_of_ready s₀ hr
    refine ⟨(h₀.set h₀.size FutureState.init).set h₀.size ⟨.error e, none⟩, ?_, by simp⟩
    rw [futureThen_ready h₀ s₀ l₀ _ hr]
    have hget : ((h₀.set h₀.size FutureState.init).get s₀).val = .error e := by
      simp only [Heap.get_set, if_neg (show s₀ ≠ h₀.size by omega)]
      exact hv
    have hgd : ((h₀.set h₀.size FutureState.init).get h₀.size).cont = none := by simp
    have hcw : continueWith (.thenC l₀ (.fnPlain g₀) h₀.size) s₀
        (h₀.set h₀.size FutureState.init) =
        some ((none, h₀.size),
          (h₀.set h₀.size FutureState.init).set h₀.size ⟨.error e, none⟩, []) := by
      simp only [continueWith, Heap.moveValue, hget, settleNext_eq, hgd]
    rw [executeFuture_stop _ _ _ _ _ _ hcw]

/-- Then-chain user functions of the C2 witness. -/
def c2G1 : Nat → Except Err Nat := fun x => .ok (x + 1)
def c2G2 : Nat → Except Err Nat := fun x => .ok (2 * x)
def c2Gc : Err → Except Err Nat := fun _ => .ok 5

/-- The C2 witness heap: state 0 (the promise's state) carries a
then-continuation into 1, state 1 a then-continuation into 2, state 2 a
catch-continuation into 3. -/
def c2WitnessHeap : Heap :=
  ((((Heap.empty.set 0 ⟨.empty, some (.thenC 10 (.fnPlain c2G1) 1)⟩).set 1
    ⟨.empty, some (.thenC 11 (.fnPlain c2G2) 2)⟩).set 2
    ⟨.empty, some (.catchC 12 (.cPlain c2Gc) 3)⟩).set 3 FutureState.init)

theorem claim_c2_witness :
    (∃ h' : Heap,
      promiseSatisfy c2WitnessHeap 0 (.error (.user 9)) =
        some (h', [.invokeCatch 12 (.user 9)]) ∧
      (∀ x ∈ (1 : Nat) :: [((11, c2G2), 2)].map (·.2), (h'.get x).val = .error (.user 9)) ∧
      (h'.get 3).val = invokeResult (c2Gc (.user 9))) ∧
    (∀ (h₀ : Heap) (s₀ l₀ : Nat) (g₀ : Nat → Except Err Nat),
      (h₀.get s₀).val = .error (.user 9) →
      ∃ h₁, futureThen h₀ s₀ l₀ (.fnPlain g₀) = some (h₁, h₀.size, []) ∧
        (h₁.get h₀.size).val = .error (.user 9)) :=
  claim_c2_error_bypass c2WitnessHeap 0 1 2 3 10 12 c2G1 c2Gc
    [((11, c2G2), 2)] (.user 9) rfl
    (ThenLinked.cons _ _ _ _ _ _ _ rfl (ThenLinked.nil _ _))
    (by decide) rfl
    (by intro x hx; simp only [List.map_cons, List.map_nil, List.mem_cons,
          List.not_mem_nil, or_false] at hx; subst hx; rfl)
    rfl rfl (by decide)

/-! ## Claim C4: a dropped promise injects a broken-promise error -/

/-- **C4**: destroying a promise handle that is still non-null fulfills
the shared state with `future_error("broken promise")`; the error is
delivered through the whole attached then-continuation chain (every
destination ends holding exactly that token) and no then-handler is
invoked (the trace is empty). -/
theorem claim_c4_broken_promise (h : Heap) (s d t l : Nat)
    (g : Nat → Except Err Nat)
    (ps : List ((Nat × (Nat → Except Err Nat)) × Nat))
    (hsc : (h.get s).cont = some (.thenC l (.fnPlain g) d))
    (hl : ThenLinked h d ps t)
    (hnd : (s :: d :: ps.map (·.2)).Nodup)
    (hde : (h.get d).val = .empty)
    (hes : ∀ x ∈ ps.map (·.2), (h.get x).val = .empty)
    (hct : (h.get t).cont = none) :
    ∃ h' : Heap,
      Prom.drop h ⟨some s⟩ = .ok (h', []) ∧
      (∀ x ∈ d :: ps.map (·.2),
        (h'.get x).val = .error (.futureError "broken promise")) ∧
      (h'.get s).val = .error (.futureError "broken promise") := by
  simp only [List.nodup_cons, List.mem_cons] at hnd
  push_neg at hnd
  have htmem := hl.mem_last
  have hts : t ≠ s := by
    rcases List.mem_cons.mp htmem with hte | hte
    · omega
    · intro hts; exact hnd.1.2 (hts ▸ hte)
  set e := Err.futureError "broken promise" with he
  set h₁ := h.set s ⟨.error e, none⟩ with hh1
  set hD := h₁.drainError e (d :: ps.map (·.2)) with hhD
  have hchain : executeFuture h₁ (.thenC l (.fnPlain g) d) s =
      executeWork (h₁.drainError e (d :: ps.map (·.2))) ((h₁.get t).cont, t) := by
    refine thenChain_error_eq ps h₁ s d t l g e (by simp [hh1]) ?_ ?_ ?_ ?_
    · rw [hh1]; simp only [Heap.get_set, if_neg (show d ≠ s by omega)]; exact hde
    · exact hl.set_outside s _ (by omega) (fun hmem => hnd.1.2 hmem)
    · simp only [List.nodup_cons]
      exact ⟨hnd.2.1, hnd.2.2⟩
    · intro x hx
      rw [hh1]
      have hxs : x ≠ s := fun hxs => hnd.1.2 (hxs ▸ hx)
      simp only [Heap.get_set, if_neg hxs]
      exact hes x hx
  have ht1 : (h₁.get t).cont = none := by
    rw [hh1]
    simp only [Heap.get_set, if_neg hts]
    exact hct
  refine ⟨hD, ?_, ?_, ?_⟩
  · simp only [Prom.drop]
    rw [promiseSatisfy_attached h s _ _ hsc, ← hh1, hchain, ht1]
    simp only [executeWork, ← hhD]
  · intro x hx
    rw [hhD, Heap.get_drainError_mem _ _ _ _ hx]
  · rw [hhD, Heap.get_drainError_outside _ _ _ _ (by
      intro hmem
      rcases List.mem_cons.mp hmem with hx | hx
      · omega
      · exact hnd.1.2 hx), hh1]
    simp

/-- The C4 witness heap: a promise state 0 with the chain
`f.then(record)` attached (destination 1). -/
def c4WitnessHeap : Heap :=
  (Heap.empty.set 0 ⟨.empty, some (.thenC 10 (.fnPlain c2G1) 1)⟩).set 1 FutureState.init

theorem claim_c4_witness :
    ∃ h' : Heap,
      Prom.drop c4WitnessHeap ⟨some 0⟩ = .ok (h', []) ∧
      (∀ x ∈ (1 : Nat) :: ([] : List ((Nat × (Nat → Except Err Nat)) × Nat)).map (·.2),
        (h'.get x).val = .error (.futureError "broken promise")) ∧
      (h'.get 0).val = .error (.futureError "broken promise") :=
  claim_c4_broken_promise c4WitnessHeap 0 1 1 10 c2G1 [] rfl
    (ThenLinked.nil _ _) (by decide) rfl (by intro x hx; simp at hx) rfl

/-! ## Claim C6: synchronous drain ordering -/

/-- Mixed chains of plain then- and catch-continuations: the slot of `d`
holds a plain continuation with destination `d'` for each `d'` in the
list, ending at `t`. -/
inductive ContLinked : Heap → Nat → List Nat → Nat → Prop where
  | nil (h : Heap) (d : Nat) : ContLinked h d [] d
  | consThen (h : Heap) (d l : Nat) (g : Nat → Except Err Nat) (d' : Nat) (ds : List Nat)
      (t : Nat) (hc : (h.get d).cont = some (.thenC l (.fnPlain g) d'))
      (htail : ContLinked h d' ds t) : ContLinked h d (d' :: ds) t
  | consCatch (h : Heap) (d l : Nat) (g : Err → Except Err Nat) (d' : Nat) (ds : List Nat)
      (t : Nat) (hc : (h.get d).cont = some (.catchC l (.cPlain g) d'))
      (htail : ContLinked h d' ds t) : ContLinked h d (d' :: ds) t

theorem ContLinked.mem_last_cont : ∀ {ds : List Nat} {h : Heap} {d t : Nat},
    ContLinked h d ds t → t ∈ d :: ds := by
  intro ds
  induction ds with
  | nil =>
    intro h d t hl
    have ht : t = d := by cases hl; rfl
    subst ht
    simp
  | cons d' rest ih =>
    intro h d t hl
    have : t ∈ d' :: rest := by
      cases hl
      · rename_i hc htail
        exact ih htail
      · rename_i hc htail
        exact ih htail
    simp only [List.mem_cons] at this ⊢
    tauto

theorem ContLinked.set_outside_cont : ∀ {ds : List Nat} {h : Heap} {d t : Nat},
    ContLinked h d ds t → ∀ (y : Nat) (st : FutureState),
    y ≠ d → y ∉ ds → ContLinked (h.set y st) d ds t := by
  intro ds
  induction ds with
  | nil =>
    intro h d t hl y st hy hys
    have ht : t = d := by cases hl; rfl
    subst ht
    exact .nil _ _
  | cons d' rest ih =>
    intro h d t hl y st hy hys
    simp only [List.mem_cons] at hys
    push_neg at hys
    cases hl
    · rename_i l g hc htail
      refine .consThen _ _ l g _ _ _ ?_ (ih htail y st hys.1 hys.2)
      simp only [Heap.get_set, if_neg (Ne.symm hy)]
      exact hc
    · rename_i l g hc htail
      refine .consCatch _ _ l g _ _ _ ?_ (ih htail y st hys.1 hys.2)
      simp only [Heap.get_set, if_neg (Ne.symm hy)]
      exact hc

/-- The destination of a plain (non-future-returning) then- or
catch-continuation. -/
def plainDest : FutureCont → Option Nat
  | .thenC _ (.fnPlain _) d => some d
  | .catchC _ (.cPlain _) d => some d
  | _ => none

theorem invokeResult_ne_empty (r : Except Err Nat) : invokeResult r ≠ .empty := by
  cases r <;> simp [invokeResult]

/-- Dispatching a plain continuation over a settled source always
settles its destination with a non-`Empty` cell, and hands the
destination's stored continuation to the trampoline. -/
theorem continueWith_plain (c : FutureCont) (d s : Nat) (h : Heap)
    (hc : plainDest c = some d) (hv : (h.get s).val ≠ .empty) :
    ∃ (v : FVal) (tr : Trace), v ≠ .empty ∧
      continueWith c s h = some (((h.get d).cont, d), h.set d ⟨v, none⟩, tr) := by
  match c with
  | .thenC l (.fnPlain g) d₀ =>
    have hd : d₀ = d := by simpa [plainDest] using hc
    subst hd
    match hval : (h.get s).val with
    | .empty => exact absurd hval hv
    | .value x =>
      exact ⟨invokeResult (g x), [.invokeThen l x], invokeResult_ne_empty _, by
        simp only [continueWith, Heap.moveValue, hval, settleNext_eq]⟩
    | .error e =>
      exact ⟨.error e, [], by simp, by
        simp only [continueWith, Heap.moveValue, hval, settleNext_eq]⟩
  | .thenC l (.fnFut st) d₀ => simp [plainDest] at hc
  | .catchC l (.cPlain g) d₀ =>
    have hd : d₀ = d := by simpa [plainDest] using hc
    subst hd
    match hval : (h.get s).val with
    | .empty => exact absurd hval hv
    | .value x =>
      exact ⟨.value x, [], by simp, by
        simp only [continueWith, Heap.moveValue, hval, settleNext_eq]⟩
    | .error e =>
      exact ⟨invokeResult (g e), [.invokeCatch l e], invokeResult_ne_empty _, by
        simp only [continueWith, Heap.moveValue, hval, settleNext_eq]⟩
  | .catchC l (.cFut st) d₀ => simp [plainDest] at hc
  | .attachC d₀ => simp [plainDest] at hc

/-- **Chain drain**: the trampoline settles every state of an attached
chain of plain continuations in one call. -/
theorem executeFuture_settles : ∀ (ds : List Nat) (h : Heap) (c : FutureCont) (s d t : Nat),
    plainDest c = some d →
    (h.get s).val ≠ .empty →
    ContLinked h d ds t →
    (d :: ds).Nodup →
    (h.get t).cont = none →
    ∃ (h' : Heap) (tr : Trace), executeFuture h c s = some (h', tr) ∧
      (∀ x ∈ d :: ds, (h'.get x).val ≠ .empty) ∧
      (∀ x, x ∉ d :: ds → h'.get x = h.get x) := by
  intro ds
  induction ds with
  | nil =>
    intro h c s d t hc hv hl hnd hct
    have ht : t = d := by cases hl; rfl
    subst ht
    obtain ⟨v, tr, hvne, hcw⟩ := continueWith_plain c t s h hc hv
    rw [hct] at hcw
    refine ⟨h.set t ⟨v, none⟩, tr, executeFuture_stop _ _ _ t _ _ hcw, ?_, ?_⟩
    · intro x hx
      simp only [List.mem_cons, List.not_mem_nil, or_false] at hx
      subst hx
      simpa using hvne
    · intro x hx
      simp only [List.mem_cons, List.not_mem_nil, or_false] at hx
      simp only [Heap.get_set, if_neg hx]
  | cons d' rest ih =>
    intro h c s d t hc hv hl hnd hct
    simp only [List.nodup_cons, List.mem_cons] at hnd
    push_neg at hnd
    have hstep : ∃ c' : FutureCont, (h.get d).cont = some c' ∧ plainDest c' = some d' ∧
        ContLinked h d' rest t := by
      cases hl
      · rename_i hcd htail
        exact ⟨_, hcd, rfl, htail⟩
      · rename_i hcd htail
        exact ⟨_, hcd, rfl, htail⟩
    obtain ⟨c', hcd, hpd, htail⟩ := hstep
    obtain ⟨v, tr, hvne, hcw⟩ := continueWith_plain c d s h hc hv
    rw [hcd] at hcw
    set h₁ := h.set d ⟨v, none⟩ with hh1
    have htd : t ≠ d := by
      have := htail.mem_last_cont
      intro htd
      subst htd
      rcases List.mem_cons.mp this with hte | hte
      · exact hnd.1.1 hte
      · exact hnd.1.2 hte
    obtain ⟨h', tr', hef, hne, hout⟩ := ih h₁ c' d d' t hpd
      (by simp [hh1]; exact hvne)
      (htail.set_outside_cont d _ (fun hdd => hnd.1.1 hdd) hnd.1.2)
      (by simp only [List.nodup_cons]; exact hnd.2)
      (by rw [hh1]; simp only [Heap.get_set, if_neg htd]; exact hct)
    rw [executeFuture_step _ _ _ _ _ _ _ hcw, hef]
    refine ⟨h', tr ++ tr', rfl, ?_, ?_⟩
    · intro x hx
      rcases List.mem_cons.mp hx with hx' | hx'
      · subst hx'
        rw [hout x (by simpa using hnd.1), hh1]
        simpa using hvne
      · exact hne x hx'
    · intro x hx
      simp only [List.mem_cons] at hx
      push_neg at hx
      rw [hout x (by simp only [List.mem_cons]; push_neg; exact hx.2), hh1]
      simp only [Heap.get_set, if_neg hx.1]

/-- **C6**: synchronous dispatch ordering.  First conjunct: if the
source is already settled with a value when `then(g)` runs, `g` is
invoked during that very call — the call returns the trace
`[invokeThen l x]` and the downstream state is already settled with
`g`'s outcome, so for a chain `F.then(g).then(h)` the invocation of `g`
happens before `then(h)` even starts.  Second conjunct: a satisfaction
call (`set_value`/`set_exception`, both of which funnel through
`promise_base::satisfy`) drains the entire already-attached chain of
ready continuations before returning: every destination in the chain is
settled in the heap the call hands back. -/
theorem claim_c6_settled_then_runs_user_fn_and_satisfy_drains :
    (∀ (h : Heap) (s l x : Nat) (g : Nat → Except Err Nat),
      (h.get s).val = .value x →
      ∃ h' : Heap, futureThen h s l (.fnPlain g) =
        some (h', h.size, [.invokeThen l x]) ∧
        (h'.get h.size).val = invokeResult (g x)) ∧
    (∀ (h : Heap) (s d t : Nat) (c : FutureCont) (ds : List Nat) (arg : FVal),
      (h.get s).cont = some c → plainDest c = some d → arg ≠ .empty →
      ContLinked h d ds t → (s :: d :: ds).Nodup → (h.get t).cont = none →
      ∃ (h' : Heap) (tr : Trace), promiseSatisfy h s arg = some (h', tr) ∧
        ∀ x ∈ d :: ds, (h'.get x).val ≠ .empty) := by
  constructor
  · intro h s l x g hv
    have hr : h.ready s = true := by rw [Heap.ready_of_val _ _ _ hv]; rfl
    have hsz := h.lt_size_of_ready s hr
    refine ⟨(h.set h.size FutureState.init).set h.size ⟨invokeResult (g x), none⟩, ?_, by simp⟩
    rw [futureThen_ready h s l _ hr]
    have hget : ((h.set h.size FutureState.init).get s).val = .value x := by
      simp only [Heap.get_set, if_neg (show s ≠ h.size by omega)]
      exact hv
    have hcw : continueWith (.thenC l (.fnPlain g) h.size) s
        (h.set h.size FutureState.init) =
        some ((none, h.size),
          (h.set h.size FutureState.init).set h.size ⟨invokeResult (g x), none⟩,
          [.invokeThen l x]) := by
      simp only [continueWith, Heap.moveValue, hget, settleNext_eq]
      simp
    rw [executeFuture_stop _ _ _ _ _ _ hcw]
  · intro h s d t c ds arg hsc hpd harg hl hnd hct
    simp only [List.nodup_cons, List.mem_cons] at hnd
    push_neg at hnd
    rw [promiseSatisfy_attached h s arg c hsc]
    set h₁ := h.set s ⟨arg, none⟩ with hh1
    obtain ⟨h', tr, hef, hne, -⟩ := executeFuture_settles ds h₁ c s d t hpd
      (by simp [hh1]; exact harg)
      (hl.set_outside_cont s _ (fun hsd => hnd.1.1 hsd) hnd.1.2)
      (by simp only [List.nodup_cons]; exact hnd.2)
      (by
        rw [hh1]
        have htmem := hl.mem_last_cont
        have hts : t ≠ s := by
          intro hts
          subst hts
          rcases List.mem_cons.mp htmem with hte | hte
          · exact hnd.1.1 hte
          · exact hnd.1.2 hte
        simp only [Heap.get_set, if_neg hts]
        exact hct)
    exact ⟨h', tr, hef, hne⟩

/-- The C6 witness heap: promise state 0 with the ready chain
`then(g₁)` into 1, `then(g₂)` into 2; plus a settled state 4 for the
first conjunct. -/
def c6WitnessHeap : Heap :=
  (((Heap.empty.set 0 ⟨.empty, some (.thenC 10 (.fnPlain c2G1) 1)⟩).set 1
    ⟨.empty, some (.thenC 11 (.fnPlain c2G2) 2)⟩).set 2 FutureState.init).set 4
    ⟨.value 9, none⟩

theorem claim_c6_witness :
    (∃ h' : Heap, futureThen c6WitnessHeap 4 20 (.fnPlain c2G1) =
      some (h', c6WitnessHeap.size, [.invokeThen 20 9]) ∧
      (h'.get c6WitnessHeap.size).val = invokeResult (c2G1 9)) ∧
    (∃ (h' : Heap) (tr : Trace),
      promiseSatisfy c6WitnessHeap 0 (.value 3) = some (h', tr) ∧
      ∀ x ∈ (1 : Nat) :: [2], (h'.get x).val ≠ .empty) :=
  ⟨claim_c6_settled_then_runs_user_fn_and_satisfy_drains.1 c6WitnessHeap 4 20 9 c2G1 rfl,
    claim_c6_settled_then_runs_user_fn_and_satisfy_drains.2 c6WitnessHeap 0 1 2
      (.thenC 10 (.fnPlain c2G1) 1) [2] (.value 3) rfl rfl (by decide)
      (ContLinked.consThen _ _ _ _ _ _ _ rfl (ContLinked.nil _ _)) (by decide) rfl⟩

/-! ## Claim C3: the trampoline

`execute_future` is a `while` loop whose entire state is one work unit
(plus the accumulated trace, added here for observation): one step of
the loop body is the non-recursive `loopStep`, and `executeFuture`
coincides with iterating `loopStep`.  The C++ call stack therefore does
not grow with the chain length.  For contrast, the superseded recursive
implementation of `src/Future.cpp` is modelled below (`dispatchR`) with
an explicit recursion-depth budget, and dispatching a chain of `N`
ready then-continuations provably fails whenever the budget is at most
`2N + 2` — its stack consumption is proportional to `N`. -/

/-- One iteration of the `execute_future` loop body (non-recursive).
An exited loop (null continuation) is a fixed point. -/
def loopStep (st : Heap × (Option FutureCont × Nat) × Trace) :
    Option (Heap × (Option FutureCont × Nat) × Trace) :=
  match st with
  | (h, (none, s), tr) => some (h, (none, s), tr)
  | (h, (some c, s), tr) =>
    match continueWith c s h with
    | none => none
    | some (w, h', tr') => some (h', w, tr ++ tr')

/-- Bounded iteration of `loopStep`. -/
def loopIter : Nat → (Heap × (Option FutureCont × Nat) × Trace) →
    Option (Heap × (Option FutureCont × Nat) × Trace)
  | 0, st => some st
  | n + 1, st =>
    match loopStep st with
    | none => none
    | some st' => loopIter n st'

theorem loopIter_succ (n : Nat) (st : Heap × (Option FutureCont × Nat) × Trace) :
    loopIter (n + 1) st =
      match loopStep st with
      | none => none
      | some st' => loopIter n st' := rfl

theorem loopIter_exit (n : Nat) (h : Heap) (s : Nat) (tr : Trace) :
    loopIter n (h, (none, s), tr) = some (h, (none, s), tr) := by
  induction n with
  | zero => rfl
  | succ n ih => rw [loopIter_succ]; simpa [loopStep] using ih

/-- The trampoline is iteration: whatever `execute_future` computes, so
does iterating the flat `loopStep` (with a budget of iterations, not of
stack frames, bounded by the number of stored continuations). -/
theorem executeFuture_as_iteration : ∀ (n : Nat) (h : Heap) (c : FutureCont) (s : Nat)
    (tr0 : Trace), h.storedCount < n →
    (executeFuture h c s = none → loopIter n (h, (some c, s), tr0) = none) ∧
    (∀ (h' : Heap) (tr : Trace), executeFuture h c s = some (h', tr) →
      ∃ sf : Nat, loopIter n (h, (some c, s), tr0) = some (h', (none, sf), tr0 ++ tr)) := by
  intro n
  induction n with
  | zero => intro h c s tr0 hn; omega
  | succ n ih =>
    intro h c s tr0 hn
    rcases hcw : continueWith c s h with - | ⟨⟨nx, s1⟩, h1, tr1⟩
    · constructor
      · intro _
        have hls : loopStep (h, (some c, s), tr0) = none := by
          simp [loopStep, hcw]
        rw [loopIter_succ, hls]
      · intro h' tr hef
        rw [executeFuture_fault _ _ _ hcw] at hef
        exact absurd hef (by simp)
    · have hstep : loopIter (n + 1) (h, (some c, s), tr0) =
          loopIter n (h1, (nx, s1), tr0 ++ tr1) := by
        simp [loopIter, loopStep, hcw]
      cases nx with
      | none =>
        constructor
        · intro hef
          rw [executeFuture_stop _ _ _ _ _ _ hcw] at hef
          exact absurd hef (by simp)
        · intro h' tr hef
          rw [executeFuture_stop _ _ _ _ _ _ hcw] at hef
          injection hef with hef
          injection hef with hef1 hef2
          subst hef1
          subst hef2
          exact ⟨s1, by rw [hstep, loopIter_exit]⟩
      | some c1 =>
        have hlt : h1.storedCount < n :=
          Nat.lt_of_lt_of_le (continueWith_progress _ _ _ _ _ _ _ hcw) (by omega)
        obtain ⟨ihn, ihs⟩ := ih h1 c1 s1 (tr0 ++ tr1) hlt
        constructor
        · intro hef
          rw [executeFuture_step _ _ _ _ _ _ _ hcw] at hef
          rw [hstep]
          rcases hef1 : executeFuture h1 c1 s1 with - | ⟨h2, tr2⟩
          · exact ihn hef1
          · rw [hef1] at hef
            simp at hef
        · intro h' tr hef
          rw [executeFuture_step _ _ _ _ _ _ _ hcw] at hef
          rw [hstep]
          rcases hef1 : executeFuture h1 c1 s1 with - | ⟨h2, tr2⟩
          · rw [hef1] at hef
            simp at hef
          · rw [hef1] at hef
            simp only [Option.some.injEq, Prod.mk.injEq] at hef
            obtain ⟨hh, htr⟩ := hef
            subst hh
            obtain ⟨sf, hsf⟩ := ihs h2 tr2 hef1
            refine ⟨sf, ?_⟩
            rw [hsf, ← htr]
            simp

/-! ## The superseded recursive implementation (`src/Future.cpp`)

In `Future.cpp` the continuation interface is
`continue_with(future_value<T>&& value)`: a continuation receives the
moved-out cell, and `future_state::satisfy` / `future_state::chain` call
it inline — dispatch recurses through
`continue_with → satisfy → continue_with → …`.  The four mutually
recursive routines are modelled by one dispatcher over a call
descriptor, with an explicit budget `fuel` that bounds the nesting
depth of these calls (the C++ stack depth); `none` means the budget is
exhausted (stack overflow) or `std::bad_variant_access` escaped. -/
inductive RCall where
  | cw (c : FutureCont) (v : FVal)
  | sat (sid : Nat)
  | chn (sid : Nat) (c : FutureCont)
  | att (src : Option Nat) (dest : Nat)

/-- The recursive dispatcher of `Future.cpp`:
`cw` is `future_then/future_catch/future_attach::continue_with`
(lines 300-329, 378-408, 209-214), `sat` is `future_state::satisfy`
(lines 175-184, resetting the slot after the inline call), `chn` is
`future_state::chain` (lines 186-194), `att` is `attach_future`
(lines 220-242). -/
def dispatchR : Nat → RCall → Heap → Option (Heap × Trace)
  | 0, _, _ => none
  | fuel + 1, .cw c v, h =>
    match c with
    | .thenC l k dest =>
      match v with
      | .value x =>
        match k with
        | .fnPlain g =>
          (dispatchR fuel (.sat dest) (h.setVal dest (invokeResult (g x)))).map
            (fun r => (r.1, .invokeThen l x :: r.2))
        | .fnFut st =>
          (dispatchR fuel (.att st dest) h).map
            (fun r => (r.1, .invokeThen l x :: r.2))
      | .error e => dispatchR fuel (.sat dest) (h.setVal dest (.error e))
      | .empty => none
    | .catchC l k dest =>
      match v with
      | .value x => dispatchR fuel (.sat dest) (h.setVal dest (.value x))
      | .error e =>
        match k with
        | .cPlain g =>
          (dispatchR fuel (.sat dest) (h.setVal dest (invokeResult (g e)))).map
            (fun r => (r.1, .invokeCatch l e :: r.2))
        | .cFut st =>
          (dispatchR fuel (.att st dest) h).map
            (fun r => (r.1, .invokeCatch l e :: r.2))
      | .empty => none
    | .attachC dest => dispatchR fuel (.sat dest) (h.setVal dest v)
  | fuel + 1, .sat sid, h =>
    match (h.get sid).cont with
    | none => some (h, [])
    | some c =>
      (dispatchR fuel (.cw c ((h.get sid).val)) h).map
        (fun r => (r.1.set sid { r.1.get sid with cont := none }, r.2))
  | fuel + 1, .chn sid c, h =>
    if h.ready sid then dispatchR fuel (.cw c ((h.get sid).val)) h
    else some (h.set sid { h.get sid with cont := some c }, [])
  | fuel + 1, .att src dest, h =>
    match src with
    | some s =>
      if h.ready s then dispatchR fuel (.sat dest) (h.setVal dest ((h.get s).val))
      else dispatchR fuel (.chn s (.attachC dest)) h
    | none =>
      dispatchR fuel (.sat dest)
        (h.setVal dest (.error (.futureError "invalid future")))

/-- `promise_base::satisfy` of `Future.cpp` (lines 522-530):
`_state->value = arg; _state->satisfy(); _state.reset();`. -/
def promiseSatisfyR (fuel : Nat) (h : Heap) (sid : Nat) (arg : FVal) :
    Option (Heap × Trace) :=
  dispatchR fuel (.sat sid) (h.setVal sid arg)

/-- `future::then` of `Future.cpp` (lines 442-457):
`_state->chain(cont); _state.reset();` — continuations on a ready
source run inline inside `chain`. -/
def futureThenR (fuel : Nat) (h : Heap) (src l : Nat) (k : FnK) :
    Option (Heap × Nat × Trace) :=
  let (dest, h1) := h.alloc
  (dispatchR fuel (.chn src (.thenC l k dest)) h1).map (fun r => (r.1, dest, r.2))

/-- `future::catch_exception` of `Future.cpp` (lines 459-474). -/
def futureCatchR (fuel : Nat) (h : Heap) (src l : Nat) (k : CatchK) :
    Option (Heap × Nat × Trace) :=
  let (dest, h1) := h.alloc
  (dispatchR fuel (.chn src (.catchC l k dest)) h1).map (fun r => (r.1, dest, r.2))

/-- `promise_base::~promise_base` of `Future.cpp` (lines 507-514). -/
def promDropR (fuel : Nat) (h : Heap) (p : Prom) : Option (Heap × Trace) :=
  match p.st with
  | none => some (h, [])
  | some s => dispatchR fuel (.sat s) (h.setVal s (.error (.futureError "broken promise")))

/-- Writing only a cell leaves every then-chain intact (chains only
mention continuation slots). -/
theorem ThenLinked.setVal : ∀ {ps : List ((Nat × (Nat → Except Err Nat)) × Nat)}
    {h : Heap} {d t : Nat}, ThenLinked h d ps t → ∀ (y : Nat) (v : FVal),
    ThenLinked (h.setVal y v) d ps t := by
  intro ps
  induction ps with
  | nil =>
    intro h d t hl y v
    have ht : t = d := by cases hl; rfl
    subst ht
    exact .nil _ _
  | cons p rest ih =>
    intro h d t hl y v
    rcases p with ⟨⟨l, g⟩, d'⟩
    cases hl
    rename_i hc htail
    refine .cons _ _ _ _ _ _ _ ?_ (ih htail y v)
    simp only [Heap.get_setVal]
    by_cases hdy : d = y
    · subst hdy
      simp only [if_pos rfl]
      exact hc
    · simp only [if_neg hdy]
      exact hc

/-- **Stack lower bound for the recursive implementation**: satisfying
a state that carries a chain of `N + 1` then-continuations
(`ps.length = N`) exhausts any recursion budget of at most `2N + 2`
frames — the inline dispatch of `Future.cpp` needs stack depth
proportional to the chain length. -/
theorem dispatchR_chain_needs_fuel :
    ∀ (ps : List ((Nat × (Nat → Except Err Nat)) × Nat)) (h : Heap) (s d t l : Nat)
    (g : Nat → Except Err Nat) (fuel : Nat),
    (h.get s).cont = some (.thenC l (.fnPlain g) d) →
    ThenLinked h d ps t →
    fuel ≤ 2 * ps.length + 2 →
    dispatchR fuel (.sat s) h = none := by
  intro ps
  induction ps with
  | nil =>
    intro h s d t l g fuel hsc hl hfuel
    match fuel, hfuel with
    | 0, _ => rfl
    | 1, _ =>
      simp only [dispatchR, hsc]
      rfl
    | 2, _ =>
      simp only [dispatchR, hsc]
      rcases hv : (h.get s).val with - | x | e
      · simp [dispatchR, hv]
      · rcases hg : g x with e' | r <;> simp [dispatchR, hv, hg, invokeResult]
      · simp [dispatchR, hv]
  | cons p rest ih =>
    intro h s d t l g fuel hsc hl hfuel
    rcases p with ⟨⟨l', g'⟩, d'⟩
    cases hl
    rename_i hc htail
    match fuel, hfuel with
    | 0, _ => rfl
    | 1, _ =>
      simp only [dispatchR, hsc]
      rfl
    | (n + 2), hf =>
      have hn : n ≤ 2 * rest.length + 2 := by
        simp only [List.length_cons] at hf
        omega
      have hsat : ∀ v : FVal,
          dispatchR n (.sat d) (h.setVal d v) = none := by
        intro v
        refine ih (h.setVal d v) d d' t l' g' n ?_ (htail.setVal d v) hn
        simpa using hc
      simp only [dispatchR, hsc]
      rcases hv : (h.get s).val with - | x | e
      · rfl
      · rcases hg : g x with e' | r <;>
          simp [dispatchR, hv, hg, invokeResult, hsat]
      · simp [dispatchR, hv, hsat]

theorem ThenLinked.toContLinked : ∀ {ps : List ((Nat × (Nat → Except Err Nat)) × Nat)}
    {h : Heap} {d t : Nat}, ThenLinked h d ps t → ContLinked h d (ps.map (·.2)) t := by
  intro ps
  induction ps with
  | nil =>
    intro h d t hl
    have ht : t = d := by cases hl; rfl
    subst ht
    exact .nil _ _
  | cons p rest ih =>
    intro h d t hl
    rcases p with ⟨⟨l, g⟩, d'⟩
    cases hl
    rename_i hc htail
    exact .consThen _ _ _ _ _ _ _ hc (ih htail)

/-- **C3**: the trampoline guarantee.  (i) Dispatch through
`execute_future` is iteration of the non-recursive `loopStep` — the
whole dispatch state is one work unit, so the stack depth is independent
of the chain length.  (ii) Satisfying a promise whose state carries an
attached chain of `N + 1` ready then-continuations completes under the
trampoline for every `N`.  (iii) In contrast, the superseded recursive
dispatch of `src/Future.cpp` exhausts any recursion budget of at most
`2N + 2` nested calls on the same chain: its stack grows linearly in
`N`.  (iv)-(vi) The loop is the sole dispatch path: promise
satisfaction, `then` and `catch_exception` all funnel their follow-up
work through `execute_future` (`executeWork`), definitionally —
attach-continuation completions run inside the same loop by (i). -/
theorem claim_c3_trampoline_flat_dispatch :
    (∀ (h : Heap) (c : FutureCont) (s : Nat) (h' : Heap) (tr : Trace),
      executeFuture h c s = some (h', tr) →
      ∃ sf : Nat, loopIter (h.storedCount + 1) (h, (some c, s), []) =
        some (h', (none, sf), tr)) ∧
    (∀ (ps : List ((Nat × (Nat → Except Err Nat)) × Nat)) (h : Heap) (s d t l : Nat)
      (g : Nat → Except Err Nat) (arg : FVal),
      (h.get s).cont = some (.thenC l (.fnPlain g) d) →
      arg ≠ .empty →
      ThenLinked h d ps t →
      (s :: d :: ps.map (·.2)).Nodup →
      (h.get t).cont = none →
      (promiseSatisfy h s arg).isSome) ∧
    (∀ (ps : List ((Nat × (Nat → Except Err Nat)) × Nat)) (h : Heap) (s d t l : Nat)
      (g : Nat → Except Err Nat) (arg : FVal) (fuel : Nat),
      (h.get s).cont = some (.thenC l (.fnPlain g) d) →
      ThenLinked h d ps t →
      fuel ≤ 2 * ps.length + 2 →
      promiseSatisfyR fuel h s arg = none) ∧
    (∀ (h : Heap) (s : Nat) (arg : FVal),
      promiseSatisfy h s arg =
        executeWork ((h.setVal s arg).next s).2 (((h.setVal s arg).next s).1, s)) ∧
    (∀ (h : Heap) (src l : Nat) (k : FnK),
      futureThen h src l k =
        match executeWork
          ((h.set h.size FutureState.init).chain src (.thenC l k h.size)).2
          (((h.set h.size FutureState.init).chain src (.thenC l k h.size)).1, src) with
        | none => none
        | some (h3, tr) => some (h3, h.size, tr)) ∧
    (∀ (h : Heap) (src l : Nat) (k : CatchK),
      futureCatch h src l k =
        match executeWork
          ((h.set h.size FutureState.init).chain src (.catchC l k h.size)).2
          (((h.set h.size FutureState.init).chain src (.catchC l k h.size)).1, src) with
        | none => none
        | some (h3, tr) => some (h3, h.size, tr)) := by
  refine ⟨?_, ?_, ?_, ?_, ?_, ?_⟩
  · intro h c s h' tr hef
    obtain ⟨sf, hsf⟩ := (executeFuture_as_iteration (h.storedCount + 1) h c s []
      (by omega)).2 h' tr hef
    exact ⟨sf, by simpa using hsf⟩
  · intro ps h s d t l g arg hsc harg hl hnd hct
    simp only [List.nodup_cons, List.mem_cons] at hnd
    push_neg at hnd
    rw [promiseSatisfy_attached h s arg _ hsc]
    obtain ⟨h', tr, hef, -, -⟩ := executeFuture_settles (ps.map (·.2))
      (h.set s ⟨arg, none⟩) (.thenC l (.fnPlain g) d) s d t rfl
      (by simp; exact harg)
      ((hl.toContLinked).set_outside_cont s _ (fun hsd => hnd.1.1 hsd) hnd.1.2)
      (by simp only [List.nodup_cons]; exact hnd.2)
      (by
        have htmem := hl.toContLinked.mem_last_cont
        have hts : t ≠ s := by
          intro hts
          subst hts
          rcases List.mem_cons.mp htmem with hte | hte
          · exact hnd.1.1 hte
          · exact hnd.1.2 hte
        simp only [Heap.get_set, if_neg hts]
        exact hct)
    simp [hef]
  · intro ps h s d t l g arg fuel hsc hl hfuel
    unfold promiseSatisfyR
    refine dispatchR_chain_needs_fuel ps (h.setVal s arg) s d t l g fuel ?_
      (hl.setVal s arg) hfuel
    simpa using hsc
  · intro h s arg
    rfl
  · intro h src l k
    rfl
  · intro h src l k
    rfl

/-- The one-step ready heap for the C3 witness's iteration conjunct. -/
def c3Heap : Heap := Heap.empty.set 0 ⟨.value 1, none⟩

theorem claim_c3_witness :
    (∃ sf : Nat, loopIter (c3Heap.storedCount + 1)
        (c3Heap, (some (.thenC 0 (.fnPlain c2G1) 1), 0), []) =
        some (c3Heap.set 1 ⟨.value 2, none⟩, (none, sf), [.invokeThen 0 1])) ∧
    (promiseSatisfy c6WitnessHeap 0 (.value 3)).isSome ∧
    promiseSatisfyR 4 c6WitnessHeap 0 (.value 3) = none :=
  ⟨claim_c3_trampoline_flat_dispatch.1 c3Heap (.thenC 0 (.fnPlain c2G1) 1) 0
      (c3Heap.set 1 ⟨.value 2, none⟩) [.invokeThen 0 1]
      (executeFuture_stop _ _ _ 1 _ _ (by
        rw [show continueWith (.thenC 0 (.fnPlain c2G1) 1) 0 c3Heap =
          some (((c3Heap.get 1).cont, 1), c3Heap.set 1 ⟨invokeResult (c2G1 1), none⟩,
            [.invokeThen 0 1]) from by
            simp only [continueWith, Heap.moveValue,
              show (c3Heap.get 0).val = .value 1 from rfl, settleNext_eq]]
        rfl)),
    claim_c3_trampoline_flat_dispatch.2.1 [((11, c2G2), 2)] c6WitnessHeap 0 1 2 10
      c2G1 (.value 3) rfl (by decide)
      (ThenLinked.cons _ _ _ _ _ _ _ rfl (ThenLinked.nil _ _)) (by decide) rfl,
    claim_c3_trampoline_flat_dispatch.2.2.1 [((11, c2G2), 2)] c6WitnessHeap 0 1 2 10
      c2G1 (.value 3) 4 rfl
      (ThenLinked.cons _ _ _ _ _ _ _ rfl (ThenLinked.nil _ _)) (by simp)⟩

/-! ## Claim C5: the catch value-forwarding path and its type requirements

`future_catch<T, Func>` computes
`result_type = std::common_type_t<T, future_unwrap_t<R_raw>>` and
static-asserts `is_void ∨ is_convertible<T, result_type>` plus
`is_valid_future_result<result_type>` (part_000, lines 404-418).  Its
value branch forwards the whole cell:
`_state->set_value(std::move(value))` (line 434), which instantiates the
assignment `future_value<result_type> = future_value<T>&&`.
`std::variant` has no converting assignment from a differently
instantiated variant — the converting `operator=`'s overload resolution
must select exactly one *alternative* constructible from the argument,
and a `std::variant<...>` argument converts to none of
`std::monostate`, the value type, or `std::exception_ptr` — so that
branch is well-formed iff `T = result_type`.  The error branch assigns
the handler's result (`invoke_future_catch`, line 397), which needs
`R_raw` convertible to `result_type`.  We model the relevant slice of
the C++ type system over a four-type universe and decide those rules. -/
inductive CppTy where
  | cint
  | clong
  | cmonostate
  | cexcptr
deriving DecidableEq, Repr

/-- C++ implicit convertibility on the modelled universe: the two
arithmetic types convert to each other; the two class types
(`std::monostate`, `std::exception_ptr`) convert only to themselves. -/
def cppConvertible : CppTy → CppTy → Bool
  | .cint, .cint => true
  | .cint, .clong => true
  | .clong, .cint => true
  | .clong, .clong => true
  | .cmonostate, .cmonostate => true
  | .cexcptr, .cexcptr => true
  | _, _ => false

/-- `std::common_type_t` on the modelled universe: arithmetic promotion
on the arithmetic types, the type itself on equal types, undefined
otherwise. -/
def cppCommonType : CppTy → CppTy → Option CppTy
  | .cint, .cint => some .cint
  | .cint, .clong => some .clong
  | .clong, .cint => some .clong
  | .clong, .clong => some .clong
  | .cmonostate, .cmonostate => some .cmonostate
  | .cexcptr, .cexcptr => some .cexcptr
  | _, _ => none

/-- `detail::is_valid_future_result` (part_000, lines 130-138): not
convertible to `std::monostate` nor to `std::exception_ptr`. -/
def isValidFutureResult (t : CppTy) : Bool :=
  !(cppConvertible t .cmonostate) && !(cppConvertible t .cexcptr)

/-- Assignability `future_value<r> = future_value<t>&&`: distinct
`std::variant` instantiations are not assignable to each other (no
alternative of the target is constructible from a variant), so this
holds iff the two variants are the same type. -/
def futureValueAssignable (t r : CppTy) : Bool := t == r

/-- Whether `future_catch<T, Func>` (with a plain, non-future,
non-void handler result type `rraw`) instantiates: the static asserts
hold and both branch bodies of `continue_with` are well-formed. -/
def futureCatchInstantiates (t rraw : CppTy) : Bool :=
  match cppCommonType t rraw with
  | none => false
  | some res =>
    cppConvertible t res && isValidFutureResult res &&
      futureValueAssignable t res && cppConvertible rraw res

/-- The requirement stated by the spec (§4.5) for `catch`: the source
type and the handler's (unwrapped) result type "must agree, or be
convertible via a common supertype". -/
def specCatchRequirement (t rraw : CppTy) : Bool :=
  match cppCommonType t rraw with
  | none => false
  | some res =>
    cppConvertible t res && cppConvertible rraw res && isValidFutureResult res

/-- **C5** (code bug): the dynamic half of the claim is true — when the
source settles with a value, a catch-continuation forwards the value
unchanged and never invokes its handler (first conjunct, over the
type-erased dispatch).  But the claim's universal range "for every T and
every handler return type satisfying the stated convertibility
requirement, not only when the common type equals T" fails on the code:
`T = int` with a handler returning `long` satisfies the spec's
requirement and the code's own static asserts, yet
`future_catch<int, …>` does not compile because the value-forwarding
assignment `future_value<long> = future_value<int>&&` is ill-formed;
indeed the whole construction instantiates only when
`common_type(T, R_raw) = T` (last conjunct). -/
theorem claim_c5_catch_value_forwarding (h : Heap) (s dt lc x : Nat)
    (gc : Err → Except Err Nat)
    (hv : (h.get s).val = .value x) (hdt : (h.get dt).cont = none) :
    (executeFuture h (.catchC lc (.cPlain gc) dt) s =
      some (h.set dt ⟨.value x, none⟩, [])) ∧
    specCatchRequirement .cint .clong = true ∧
    futureCatchInstantiates .cint .clong = false ∧
    futureCatchInstantiates .clong .cint = true ∧
    futureCatchInstantiates .cint .cint = true ∧
    (∀ t rraw : CppTy, futureCatchInstantiates t rraw = true →
      cppCommonType t rraw = some t) := by
  refine ⟨?_, by decide, by decide, by decide, by decide,
    by intro t rraw hinst; revert hinst; cases t <;> cases rraw <;> decide⟩
  have hcw : continueWith (.catchC lc (.cPlain gc) dt) s h =
      some (((h.get dt).cont, dt), h.set dt ⟨.value x, none⟩, []) := by
    simp only [continueWith, Heap.moveValue, hv, settleNext_eq]
  rw [hdt] at hcw
  exact executeFuture_stop _ _ _ dt _ _ hcw

theorem claim_c5_witness :
    (c3Heap.get 0).val = .value 1 ∧ (c3Heap.get 1).cont = none ∧
    ((executeFuture c3Heap (.catchC 3 (.cPlain c2Gc) 1) 0 =
      some (c3Heap.set 1 ⟨.value 1, none⟩, [])) ∧
    specCatchRequirement .cint .clong = true ∧
    futureCatchInstantiates .cint .clong = false ∧
    futureCatchInstantiates .clong .cint = true ∧
    futureCatchInstantiates .cint .cint = true ∧
    (∀ t rraw : CppTy, futureCatchInstantiates t rraw = true →
      cppCommonType t rraw = some t)) :=
  ⟨rfl, rfl, claim_c5_catch_value_forwarding c3Heap 0 1 3 1 c2Gc rfl rfl⟩

/-! ## Dispatch soundness for the trampoline

Over a settled source, one `continue_with` either settles the
continuation's destination with a non-`Empty` cell (taking whatever
continuation the destination stored), or parks an attach-continuation
onto a not-yet-ready inner future. -/
theorem continueWith_outcomes (c : FutureCont) (s : Nat) (h : Heap)
    (hv : (h.get s).val ≠ .empty) :
    (∃ (v : FVal) (tr : Trace), v ≠ .empty ∧
      continueWith c s h =
        some (((h.get c.dest).cont, c.dest), h.set c.dest ⟨v, none⟩, tr)) ∨
    (∃ (y : Nat) (tr : Trace), h.ready y = false ∧
      continueWith c s h =
        some ((none, y), h.set y { h.get y with cont := some (.attachC c.dest) }, tr)) := by
  have hattach : ∀ (st : Option Nat) (tr : Trace),
      continueWith c s h =
        some ((attachFuture st c.dest h).1, (attachFuture st c.dest h).2, tr) →
      (∃ (v : FVal) (tr' : Trace), v ≠ .empty ∧
        continueWith c s h =
          some (((h.get c.dest).cont, c.dest), h.set c.dest ⟨v, none⟩, tr')) ∨
      (∃ (y : Nat) (tr' : Trace), h.ready y = false ∧
        continueWith c s h =
          some ((none, y), h.set y { h.get y with cont := some (.attachC c.dest) }, tr')) := by
    intro st tr hcw
    match st with
    | none =>
      rw [attachFuture_null] at hcw
      exact Or.inl ⟨.error (.futureError "invalid future"), tr, by simp, hcw⟩
    | some y =>
      rcases hry : h.ready y with - | -
      · rw [attachFuture_pend y _ h hry] at hcw
        exact Or.inr ⟨y, tr, hry, hcw⟩
      · rw [attachFuture_ready y _ h hry] at hcw
        refine Or.inl ⟨(h.get y).val, tr, ?_, hcw⟩
        rw [Heap.ready_eq] at hry
        intro hemp
        rw [hemp] at hry
        simp at hry
  match c with
  | .thenC l k dest =>
    match hval : (h.get s).val with
    | .empty => exact absurd hval hv
    | .value x =>
      match k with
      | .fnPlain g =>
        refine Or.inl ⟨invokeResult (g x), [.invokeThen l x], invokeResult_ne_empty _, ?_⟩
        simp only [continueWith, Heap.moveValue, hval, settleNext_eq, FutureCont.dest_thenC]
      | .fnFut st =>
        refine hattach st [.invokeThen l x] ?_
        simp only [continueWith, Heap.moveValue, hval, FutureCont.dest_thenC]
    | .error e =>
      refine Or.inl ⟨.error e, [], by simp, ?_⟩
      simp only [continueWith, Heap.moveValue, hval, settleNext_eq, FutureCont.dest_thenC]
  | .catchC l k dest =>
    match hval : (h.get s).val with
    | .empty => exact absurd hval hv
    | .value x =>
      refine Or.inl ⟨.value x, [], by simp, ?_⟩
      simp only [continueWith, Heap.moveValue, hval, settleNext_eq, FutureCont.dest_catchC]
    | .error e =>
      match k with
      | .cPlain g =>
        refine Or.inl ⟨invokeResult (g e), [.invokeCatch l e], invokeResult_ne_empty _, ?_⟩
        simp only [continueWith, Heap.moveValue, hval, settleNext_eq, FutureCont.dest_catchC]
      | .cFut st =>
        refine hattach st [.invokeCatch l e] ?_
        simp only [continueWith, Heap.moveValue, hval, FutureCont.dest_catchC]
  | .attachC dest =>
    refine Or.inl ⟨(h.get s).val, [], hv, ?_⟩
    simp only [continueWith, Heap.moveValue, settleNext_eq, FutureCont.dest_attachC]

/-- Well-formedness of the stored continuations, relative to a set `P`
of protected states (the live promise states): every stored
continuation's destination is a pending cell, is not protected, is
allocated, and no two stored continuations share a destination. -/
def StoredOK (h : Heap) (P : Nat → Prop) : Prop :=
  (∀ s c, (h.get s).cont = some c →
    (h.get c.dest).val = .empty ∧ ¬ P c.dest ∧ c.dest < h.size) ∧
  (∀ s₁ s₂ c₁ c₂, s₁ ≠ s₂ → (h.get s₁).cont = some c₁ → (h.get s₂).cont = some c₂ →
    c₁.dest ≠ c₂.dest)

/-- **Trampoline dispatch soundness**: over a well-formed heap, a
dispatch starting from a settled source completes (no
`bad_variant_access` fault), only ever writes cells that were `Empty`
(so settled cells and protected cells keep their exact value), and
re-establishes well-formedness. -/
theorem executeFuture_sound : ∀ (n : Nat) (h : Heap) (c : FutureCont) (s : Nat)
    (P : Nat → Prop), h.storedCount ≤ n →
    StoredOK h P →
    (h.get c.dest).val = .empty → ¬ P c.dest → c.dest < h.size →
    (∀ s' c', (h.get s').cont = some c' → c'.dest ≠ c.dest) →
    (h.get s).val ≠ .empty →
    ∃ (h' : Heap) (tr : Trace), executeFuture h c s = some (h', tr) ∧
      (∀ x, (h.get x).val ≠ .empty → (h'.get x).val = (h.get x).val) ∧
      (∀ x, P x → (h'.get x).val = (h.get x).val) ∧
      StoredOK h' P ∧
      h.size ≤ h'.size := by
  intro n
  induction n with
  | zero =>
    intro h c s P hn hok hde hdp hdsz hdu hv
    -- a zero bound still allows one settle step that takes no stored continuation
    rcases continueWith_outcomes c s h hv with ⟨v, tr, hvne, hcw⟩ | ⟨y, tr, hry, hcw⟩
    · rcases hnx : (h.get c.dest).cont with - | c₁
      · rw [hnx] at hcw
        refine ⟨h.set c.dest ⟨v, none⟩, tr, executeFuture_stop _ _ _ _ _ _ hcw, ?_, ?_, ?_, ?_⟩
        · intro x hx
          simp only [Heap.get_set]
          by_cases hxd : x = c.dest
          · subst hxd; exact absurd hde hx
          · simp [hxd]
        · intro x hx
          simp only [Heap.get_set]
          by_cases hxd : x = c.dest
          · subst hxd; exact absurd hx hdp
          · simp [hxd]
        · constructor
          · intro s' c' hc'
            simp only [Heap.get_set] at hc'
            by_cases hsd : s' = c.dest
            · rw [if_pos hsd] at hc'; simp at hc'
            · rw [if_neg hsd] at hc'
              obtain ⟨he, hp, hb⟩ := hok.1 s' c' hc'
              have hne : c'.dest ≠ c.dest := hdu s' c' hc'
              refine ⟨?_, hp, ?_⟩
              · simp only [Heap.get_set, if_neg hne]; exact he
              · calc c'.dest < h.size := hb
                  _ ≤ _ := Nat.le_max_left _ _
          · intro s₁ s₂ c₁ c₂ hss hc₁ hc₂
            simp only [Heap.get_set] at hc₁ hc₂
            by_cases h₁ : s₁ = c.dest
            · rw [if_pos h₁] at hc₁; simp at hc₁
            · by_cases h₂ : s₂ = c.dest
              · rw [if_pos h₂] at hc₂; simp at hc₂
              · rw [if_neg h₁] at hc₁
                rw [if_neg h₂] at hc₂
                exact hok.2 s₁ s₂ c₁ c₂ hss hc₁ hc₂
        · exact Nat.le_max_left _ _
      · exfalso
        have := h.storedCount_clear_lt c.dest c₁ hnx ⟨v, none⟩ rfl
        omega
    · refine ⟨h.set y { h.get y with cont := some (.attachC c.dest) }, tr,
        executeFuture_stop _ _ _ _ _ _ hcw, ?_, ?_, ?_, ?_⟩
      · intro x hx
        simp only [Heap.get_set]
        by_cases hxy : x = y
        · subst hxy; simp
        · simp [hxy]
      · intro x hx
        simp only [Heap.get_set]
        by_cases hxy : x = y
        · subst hxy; simp
        · simp [hxy]
      · constructor
        · intro s' c' hc'
          simp only [Heap.get_set] at hc'
          by_cases hsy : s' = y
          · rw [if_pos hsy] at hc'
            simp only [Option.some.injEq] at hc'
            subst hc'
            refine ⟨?_, ?_, ?_⟩
            · simp only [FutureCont.dest_attachC, Heap.get_set]
              by_cases hdy : c.dest = y
              · rw [if_pos hdy]; simpa [hdy] using hde
              · rw [if_neg hdy]; exact hde
            · simpa using hdp
            · simp only [FutureCont.dest_attachC, Heap.size_set]
              calc c.dest < h.size := hdsz
                _ ≤ _ := Nat.le_max_left _ _
          · rw [if_neg hsy] at hc'
            obtain ⟨he, hp, hb⟩ := hok.1 s' c' hc'
            refine ⟨?_, hp, ?_⟩
            · simp only [Heap.get_set]
              by_cases hdy : c'.dest = y
              · rw [if_pos hdy, ← hdy]; simpa using he
              · rw [if_neg hdy]; exact he
            · calc c'.dest < h.size := hb
                _ ≤ _ := Nat.le_max_left _ _
        · intro s₁ s₂ c₁ c₂ hss hc₁ hc₂
          simp only [Heap.get_set] at hc₁ hc₂
          by_cases h₁ : s₁ = y
          · rw [if_pos h₁] at hc₁
            simp only [Option.some.injEq] at hc₁
            subst hc₁
            rw [if_neg (by rw [← h₁]; exact (Ne.symm hss))] at hc₂
            simp only [FutureCont.dest_attachC]
            exact fun heq => hdu s₂ c₂ hc₂ heq.symm
          · rw [if_neg h₁] at hc₁
            by_cases h₂ : s₂ = y
            · rw [if_pos h₂] at hc₂
              simp only [Option.some.injEq] at hc₂
              subst hc₂
              simp only [FutureCont.dest_attachC]
              exact hdu s₁ c₁ hc₁
            · rw [if_neg h₂] at hc₂
              exact hok.2 s₁ s₂ c₁ c₂ hss hc₁ hc₂
      · exact Nat.le_max_left _ _
  | succ n ih =>
    intro h c s P hn hok hde hdp hdsz hdu hv
    rcases continueWith_outcomes c s h hv with ⟨v, tr, hvne, hcw⟩ | ⟨y, tr, hry, hcw⟩
    · rcases hnx : (h.get c.dest).cont with - | c₁
      · -- same as the base case: take it by re-running with bound zero?  No:
        -- repeat the settle-stop argument via an auxiliary application.
        rw [hnx] at hcw
        refine ⟨h.set c.dest ⟨v, none⟩, tr, executeFuture_stop _ _ _ _ _ _ hcw, ?_, ?_, ?_, ?_⟩
        · intro x hx
          simp only [Heap.get_set]
          by_cases hxd : x = c.dest
          · subst hxd; exact absurd hde hx
          · simp [hxd]
        · intro x hx
          simp only [Heap.get_set]
          by_cases hxd : x = c.dest
          · subst hxd; exact absurd hx hdp
          · simp [hxd]
        · constructor
          · intro s' c' hc'
            simp only [Heap.get_set] at hc'
            by_cases hsd : s' = c.dest
            · rw [if_pos hsd] at hc'; simp at hc'
            · rw [if_neg hsd] at hc'
              obtain ⟨he, hp, hb⟩ := hok.1 s' c' hc'
              have hne : c'.dest ≠ c.dest := hdu s' c' hc'
              refine ⟨?_, hp, ?_⟩
              · simp only [Heap.get_set, if_neg hne]; exact he
              · calc c'.dest < h.size := hb
                  _ ≤ _ := Nat.le_max_left _ _
          · intro s₁ s₂ c₁ c₂ hss hc₁ hc₂
            simp only [Heap.get_set] at hc₁ hc₂
            by_cases h₁ : s₁ = c.dest
            · rw [if_pos h₁] at hc₁; simp at hc₁
            · by_cases h₂ : s₂ = c.dest
              · rw [if_pos h₂] at hc₂; simp at hc₂
              · rw [if_neg h₁] at hc₁
                rw [if_neg h₂] at hc₂
                exact hok.2 s₁ s₂ c₁ c₂ hss hc₁ hc₂
        · exact Nat.le_max_left _ _
      · -- a stored continuation continues the loop
        rw [hnx] at hcw
        set h₁ := h.set c.dest ⟨v, none⟩ with hh1
        have hcnt : h₁.storedCount ≤ n := by
          have hlt := h.storedCount_clear_lt c.dest c₁ hnx ⟨v, none⟩ rfl
          rw [hh1]
          omega
        have hd1ne : c₁.dest ≠ c.dest := hdu c.dest c₁ hnx
        have hok1 : StoredOK h₁ P := by
          constructor
          · intro s' c' hc'
            rw [hh1] at hc'
            simp only [Heap.get_set] at hc'
            by_cases hsd : s' = c.dest
            · rw [if_pos hsd] at hc'; simp at hc'
            · rw [if_neg hsd] at hc'
              obtain ⟨he, hp, hb⟩ := hok.1 s' c' hc'
              have hne : c'.dest ≠ c.dest := hdu s' c' hc'
              refine ⟨?_, hp, ?_⟩
              · rw [hh1]; simp only [Heap.get_set, if_neg hne]; exact he
              · rw [hh1]
                calc c'.dest < h.size := hb
                  _ ≤ _ := Nat.le_max_left _ _
          · intro s₁ s₂ c₁' c₂' hss hc₁ hc₂
            rw [hh1] at hc₁ hc₂
            simp only [Heap.get_set] at hc₁ hc₂
            by_cases h₁ : s₁ = c.dest
            · rw [if_pos h₁] at hc₁; simp at hc₁
            · by_cases h₂ : s₂ = c.dest
              · rw [if_pos h₂] at hc₂; simp at hc₂
              · rw [if_neg h₁] at hc₁
                rw [if_neg h₂] at hc₂
                exact hok.2 s₁ s₂ c₁' c₂' hss hc₁ hc₂
        obtain ⟨hd1e, hd1p, hd1b⟩ := hok.1 c.dest c₁ hnx
        obtain ⟨h', tr', hef, hpre, hppre, hok', hsz⟩ := ih h₁ c₁ c.dest P hcnt hok1
          (by rw [hh1]; simp only [Heap.get_set, if_neg hd1ne]; exact hd1e)
          hd1p
          (by rw [hh1]; simp only [Heap.size_set]
              calc c₁.dest < h.size := hd1b
                _ ≤ _ := Nat.le_max_left _ _)
          (by
            intro s' c' hc'
            rw [hh1] at hc'
            simp only [Heap.get_set] at hc'
            by_cases hsd : s' = c.dest
            · rw [if_pos hsd] at hc'; simp at hc'
            · rw [if_neg hsd] at hc'
              exact hok.2 s' c.dest c' c₁ hsd hc' hnx)
          (by rw [hh1]; simp only [Heap.get_set, if_pos rfl]; exact hvne)
        refine ⟨h', tr ++ tr', ?_, ?_, ?_, hok', ?_⟩
        · rw [executeFuture_step _ _ _ _ _ _ _ hcw, hef]
        · intro x hx
          have hxd : x ≠ c.dest := fun hxd => hx (hxd ▸ hde)
          have : (h₁.get x).val = (h.get x).val := by
            rw [hh1]; simp only [Heap.get_set, if_neg hxd]
          rw [← this]
          exact Eq.trans (hpre x (by rw [this]; exact hx)) rfl
        · intro x hx
          have hxd : x ≠ c.dest := fun hxd => hdp (hxd ▸ hx)
          have : (h₁.get x).val = (h.get x).val := by
            rw [hh1]; simp only [Heap.get_set, if_neg hxd]
          rw [← this]
          exact hppre x hx
        · rw [hh1] at hsz
          simp only [Heap.size_set] at hsz
          calc h.size ≤ Nat.max h.size (c.dest + 1) := Nat.le_max_left _ _
            _ ≤ h'.size := hsz
    · -- attach parked on a pending inner future: the loop stops
      refine ⟨h.set y { h.get y with cont := some (.attachC c.dest) }, tr,
        executeFuture_stop _ _ _ _ _ _ hcw, ?_, ?_, ?_, ?_⟩
      · intro x hx
        simp only [Heap.get_set]
        by_cases hxy : x = y
        · subst hxy; simp
        · simp [hxy]
      · intro x hx
        simp only [Heap.get_set]
        by_cases hxy : x = y
        · subst hxy; simp
        · simp [hxy]
      · constructor
        · intro s' c' hc'
          simp only [Heap.get_set] at hc'
          by_cases hsy : s' = y
          · rw [if_pos hsy] at hc'
            simp only [Option.some.injEq] at hc'
            subst hc'
            refine ⟨?_, ?_, ?_⟩
            · simp only [FutureCont.dest_attachC, Heap.get_set]
              by_cases hdy : c.dest = y
              · rw [if_pos hdy]; simpa [hdy] using hde
              · rw [if_neg hdy]; exact hde
            · simpa using hdp
            · simp only [FutureCont.dest_attachC, Heap.size_set]
              calc c.dest < h.size := hdsz
                _ ≤ _ := Nat.le_max_left _ _
          · rw [if_neg hsy] at hc'
            obtain ⟨he, hp, hb⟩ := hok.1 s' c' hc'
            refine ⟨?_, hp, ?_⟩
            · simp only [Heap.get_set]
              by_cases hdy : c'.dest = y
              · rw [if_pos hdy, ← hdy]; simpa using he
              · rw [if_neg hdy]; exact he
            · calc c'.dest < h.size := hb
                _ ≤ _ := Nat.le_max_left _ _
        · intro s₁ s₂ c₁ c₂ hss hc₁ hc₂
          simp only [Heap.get_set] at hc₁ hc₂
          by_cases h₁ : s₁ = y
          · rw [if_pos h₁] at hc₁
            simp only [Option.some.injEq] at hc₁
            subst hc₁
            rw [if_neg (by rw [← h₁]; exact (Ne.symm hss))] at hc₂
            simp only [FutureCont.dest_attachC]
            exact fun heq => hdu s₂ c₂ hc₂ heq.symm
          · rw [if_neg h₁] at hc₁
            by_cases h₂ : s₂ = y
            · rw [if_pos h₂] at hc₂
              simp only [Option.some.injEq] at hc₂
              subst hc₂
              simp only [FutureCont.dest_attachC]
              exact hdu s₁ c₁ hc₁
            · rw [if_neg h₂] at hc₂
              exact hok.2 s₁ s₂ c₁ c₂ hss hc₁ hc₂
      · exact Nat.le_max_left _ _

/-! ## Whole programs over the public API -/

/-- One public API call, naming handles by index into the environment.
User functions passed to `then` either are pure (`thenS`) or return a
future handle captured by move when the closure is built (`thenFutS`
consumes handle `cfid` at that point), matching C++ lambda capture. -/
inductive ApiStep where
  | mkProm
  | mkReady (v : Nat)
  | mkExc (e : Err)
  | thenS (fid l : Nat) (g : Nat → Except Err Nat)
  | thenFutS (fid l cfid : Nat)
  | catchS (fid l : Nat) (g : Err → Except Err Nat)
  | catchFutS (fid l cfid : Nat)
  | setVal (pid v : Nat)
  | setExc (pid : Nat) (e : Err)
  | dropProm (pid : Nat)

/-- The program's handles: every future and promise ever created, in
creation order.  A consumed or moved-from handle is the null handle. -/
structure Env where
  futs : List Fut
  prms : List Prom

def Env.getFut (env : Env) (i : Nat) : Fut := env.futs.getD i ⟨none⟩

def Env.getProm (env : Env) (i : Nat) : Prom := env.prms.getD i ⟨none⟩

/-- A machine configuration: the heap of shared states plus the
handles. -/
structure Config where
  heap : Heap
  env : Env

def Config.init : Config := ⟨Heap.empty, ⟨[], []⟩⟩

/-- Run one API call against the trampoline implementation.  A
`future_error` thrown at the call site is caught by the program
(recorded as an `apiRaise` event); `none` is a machine fault
(`bad_variant_access` escaping the dispatch). -/
def runStepT (cfg : Config) : ApiStep → Option (Config × Trace)
  | .mkProm =>
    let ((p, f), h') := makePromise cfg.heap
    some (⟨h', ⟨cfg.env.futs ++ [f], cfg.env.prms ++ [p]⟩⟩, [])
  | .mkReady v =>
    let (f, h') := makeReadyFuture cfg.heap v
    some (⟨h', ⟨cfg.env.futs ++ [f], cfg.env.prms⟩⟩, [])
  | .mkExc e =>
    let (f, h') := makeExceptionalFuture cfg.heap e
    some (⟨h', ⟨cfg.env.futs ++ [f], cfg.env.prms⟩⟩, [])
  | .thenS fid l g =>
    match Fut.thenF cfg.heap (cfg.env.getFut fid) l (.fnPlain g) with
    | (f', .raised w) =>
      some (⟨cfg.heap, ⟨(cfg.env.futs.set fid f') ++ [⟨none⟩], cfg.env.prms⟩⟩, [.apiRaise w])
    | (_, .fault) => none
    | (f', .ok (fd, h', tr)) =>
      some (⟨h', ⟨(cfg.env.futs.set fid f') ++ [fd], cfg.env.prms⟩⟩, tr)
  | .thenFutS fid l cfid =>
    let inner := cfg.env.getFut cfid
    let env1 : Env := ⟨cfg.env.futs.set cfid ⟨none⟩, cfg.env.prms⟩
    match Fut.thenF cfg.heap (env1.getFut fid) l (.fnFut inner.st) with
    | (f', .raised w) =>
      some (⟨cfg.heap, ⟨(env1.futs.set fid f') ++ [⟨none⟩], cfg.env.prms⟩⟩, [.apiRaise w])
    | (_, .fault) => none
    | (f', .ok (fd, h', tr)) =>
      some (⟨h', ⟨(env1.futs.set fid f') ++ [fd], cfg.env.prms⟩⟩, tr)
  | .catchS fid l g =>
    match Fut.catchF cfg.heap (cfg.env.getFut fid) l (.cPlain g) with
    | (f', .raised w) =>
      some (⟨cfg.heap, ⟨(cfg.env.futs.set fid f') ++ [⟨none⟩], cfg.env.prms⟩⟩, [.apiRaise w])
    | (_, .fault) => none
    | (f', .ok (fd, h', tr)) =>
      some (⟨h', ⟨(cfg.env.futs.set fid f') ++ [fd], cfg.env.prms⟩⟩, tr)
  | .catchFutS fid l cfid =>
    let inner := cfg.env.getFut cfid
    let env1 : Env := ⟨cfg.env.futs.set cfid ⟨none⟩, cfg.env.prms⟩
    match Fut.catchF cfg.heap (env1.getFut fid) l (.cFut inner.st) with
    | (f', .raised w) =>
      some (⟨cfg.heap, ⟨(env1.futs.set fid f') ++ [⟨none⟩], cfg.env.prms⟩⟩, [.apiRaise w])
    | (_, .fault) => none
    | (f', .ok (fd, h', tr)) =>
      some (⟨h', ⟨(env1.futs.set fid f') ++ [fd], cfg.env.prms⟩⟩, tr)
  | .setVal pid v =>
    match Prom.setValue cfg.heap (cfg.env.getProm pid) v with
    | (p', .raised w) =>
      some (⟨cfg.heap, ⟨cfg.env.futs, cfg.env.prms.set pid p'⟩⟩, [.apiRaise w])
    | (_, .fault) => none
    | (p', .ok (h', tr)) =>
      some (⟨h', ⟨cfg.env.futs, cfg.env.prms.set pid p'⟩⟩, tr)
  | .setExc pid e =>
    match Prom.setException cfg.heap (cfg.env.getProm pid) e with
    | (p', .raised w) =>
      some (⟨cfg.heap, ⟨cfg.env.futs, cfg.env.prms.set pid p'⟩⟩, [.apiRaise w])
    | (_, .fault) => none
    | (p', .ok (h', tr)) =>
      some (⟨h', ⟨cfg.env.futs, cfg.env.prms.set pid p'⟩⟩, tr)
  | .dropProm pid =>
    match Prom.drop cfg.heap (cfg.env.getProm pid) with
    | .raised _ => none
    | .fault => none
    | .ok (h', tr) =>
      some (⟨h', ⟨cfg.env.futs, cfg.env.prms.set pid ⟨none⟩⟩⟩, tr)

/-- Run a whole program, concatenating the event traces. -/
def runProgT : Config → List ApiStep → Option (Config × Trace)
  | cfg, [] => some (cfg, [])
  | cfg, st :: rest =>
    match runStepT cfg st with
    | none => none
    | some (cfg1, tr1) =>
      match runProgT cfg1 rest with
      | none => none
      | some (cfg2, tr2) => some (cfg2, tr1 ++ tr2)

theorem runProgT_append (p q : List ApiStep) : ∀ (cfg : Config),
    runProgT cfg (p ++ q) =
      match runProgT cfg p with
      | none => none
      | some (c1, tr1) =>
        match runProgT c1 q with
        | none => none
        | some (c2, tr2) => some (c2, tr1 ++ tr2) := by
  induction p with
  | nil =>
    intro cfg
    simp only [List.nil_append, runProgT]
    rcases runProgT cfg q with - | ⟨c2, tr2⟩
    · rfl
    · simp
  | cons st rest ih =>
    intro cfg
    have hl : (st :: rest) ++ q = st :: (rest ++ q) := rfl
    rw [hl]
    simp only [runProgT]
    rcases hstep : runStepT cfg st with - | ⟨cfg1, tr1⟩
    · rfl
    · dsimp only
      rw [ih cfg1]
      rcases hrest : runProgT cfg1 rest with - | ⟨c2, tr2⟩
      · rfl
      · dsimp only
        rcases hq : runProgT c2 q with - | ⟨c3, tr3⟩
        · rfl
        · dsimp only
          rw [List.append_assoc]

/-- The state owned by promise handle `pid`, if it is live. -/
def PromAt (env : Env) (pid : Nat) : Option Nat := (env.getProm pid).st

/-- The global invariant of a run: the stored continuations are
well-formed relative to the set of live promise states, every live
promise state is a still-empty allocated cell, and no two live promise
handles share a state. -/
def GInv (cfg : Config) : Prop :=
  StoredOK cfg.heap (fun s => ∃ pid, PromAt cfg.env pid = some s) ∧
  (∀ pid s, PromAt cfg.env pid = some s →
    (cfg.heap.get s).val = .empty ∧ s < cfg.heap.size) ∧
  (∀ pid₁ pid₂ s, PromAt cfg.env pid₁ = some s → PromAt cfg.env pid₂ = some s →
    pid₁ = pid₂)

theorem StoredOK_mono (h : Heap) (P P' : Nat → Prop) (hPP : ∀ x, P' x → P x)
    (hok : StoredOK h P) : StoredOK h P' :=
  ⟨fun s c hc =>
    ⟨(hok.1 s c hc).1, fun hp => (hok.1 s c hc).2.1 (hPP _ hp), (hok.1 s c hc).2.2⟩,
   hok.2⟩

/-- Allocating a fresh state does not change any cell (the cell at
`h.size` was already the default state by `closed`). -/
theorem Heap.get_allocFresh (h : Heap) (j : Nat) :
    (h.set h.size FutureState.init).get j = h.get j := by
  simp only [Heap.get_set]
  by_cases hj : j = h.size
  · subst hj
    rw [if_pos rfl, h.get_of_size_le _ (Nat.le_refl _)]
  · rw [if_neg hj]

theorem Heap.size_allocFresh (h : Heap) :
    (h.set h.size FutureState.init).size = h.size + 1 := by
  simp only [Heap.size_set]
  exact Nat.max_eq_right (by omega)

theorem Heap.val_ne_empty_of_ready (h : Heap) (i : Nat) (hr : h.ready i = true) :
    (h.get i).val ≠ .empty := by
  intro hv
  rw [Heap.ready_eq, hv] at hr
  simp at hr

theorem Heap.val_empty_of_not_ready (h : Heap) (i : Nat) (hr : h.ready i = false) :
    (h.get i).val = .empty := by
  rw [Heap.ready_eq] at hr
  rcases hv : (h.get i).val with - | v | e
  · rfl
  · rw [hv] at hr; simp at hr
  · rw [hv] at hr; simp at hr

/-- Chaining a continuation with a fresh, unprotected, allocated
destination onto any source, then running the trampoline on the result,
completes and preserves every settled cell and every protected cell. -/
theorem chainDispatch_sound (h1 : Heap) (src : Nat) (c : FutureCont) (P : Nat → Prop)
    (hok : StoredOK h1 P) (hde : (h1.get c.dest).val = .empty) (hdp : ¬ P c.dest)
    (hdsz : c.dest < h1.size)
    (hdu : ∀ s' c', (h1.get s').cont = some c' → c'.dest ≠ c.dest) :
    ∃ (h' : Heap) (tr : Trace),
      (let (nx, h2) := h1.chain src c
       executeWork h2 (nx, src)) = some (h', tr) ∧
      (∀ x, (h1.get x).val ≠ .empty → (h'.get x).val = (h1.get x).val) ∧
      (∀ x, P x → (h'.get x).val = (h1.get x).val) ∧
      StoredOK h' P ∧ h1.size ≤ h'.size := by
  rcases hr : h1.ready src with - | -
  · -- pending source: the continuation is stored, nothing runs
    refine ⟨h1.set src { h1.get src with cont := some c }, [], ?_, ?_, ?_, ?_, ?_⟩
    · simp only [Heap.chain, hr, Bool.false_eq_true, if_false, executeWork]
    · intro x hx
      simp only [Heap.get_set]
      by_cases hxs : x = src
      · subst hxs; simp
      · simp [hxs]
    · intro x hx
      simp only [Heap.get_set]
      by_cases hxs : x = src
      · subst hxs; simp
      · simp [hxs]
    · constructor
      · intro s' c' hc'
        simp only [Heap.get_set] at hc'
        by_cases hss : s' = src
        · rw [if_pos hss] at hc'
          simp only [Option.some.injEq] at hc'
          subst hc'
          refine ⟨?_, hdp, ?_⟩
          · simp only [Heap.get_set]
            by_cases hds : c.dest = src
            · rw [if_pos hds, ← hds]; simpa using hde
            · rw [if_neg hds]; exact hde
          · simp only [Heap.size_set]
            calc c.dest < h1.size := hdsz
              _ ≤ _ := Nat.le_max_left _ _
        · rw [if_neg hss] at hc'
          obtain ⟨he, hp, hb⟩ := hok.1 s' c' hc'
          refine ⟨?_, hp, ?_⟩
          · simp only [Heap.get_set]
            by_cases hds : c'.dest = src
            · rw [if_pos hds, ← hds]; simpa using he
            · rw [if_neg hds]; exact he
          · simp only [Heap.size_set]
            calc c'.dest < h1.size := hb
              _ ≤ _ := Nat.le_max_left _ _
      · intro s₁ s₂ c₁ c₂ hss hc₁ hc₂
        simp only [Heap.get_set] at hc₁ hc₂
        by_cases hs1 : s₁ = src
        · rw [if_pos hs1] at hc₁
          simp only [Option.some.injEq] at hc₁
          subst hc₁
          rw [if_neg (fun hy => hss (hs1.trans hy.symm))] at hc₂
          exact fun heq => hdu s₂ c₂ hc₂ heq.symm
        · rw [if_neg hs1] at hc₁
          by_cases hs2 : s₂ = src
          · rw [if_pos hs2] at hc₂
            simp only [Option.some.injEq] at hc₂
            subst hc₂
            exact hdu s₁ c₁ hc₁
          · rw [if_neg hs2] at hc₂
            exact hok.2 s₁ s₂ c₁ c₂ hss hc₁ hc₂
    · simp only [Heap.size_set]
      exact Nat.le_max_left _ _
  · -- ready source: `chain` hands the continuation back and the
    -- trampoline runs it
    obtain ⟨h', tr, hef, hpre, hppre, hok', hsz⟩ :=
      executeFuture_sound h1.storedCount h1 c src P (Nat.le_refl _) hok hde hdp hdsz hdu
        (h1.val_ne_empty_of_ready src hr)
    refine ⟨h', tr, ?_, hpre, hppre, hok', hsz⟩
    simp only [Heap.chain, hr, if_true, executeWork]
    exact hef

/-- `promise_base::satisfy` in canonical settle-then-take form: write
the cell, clear and take the slot, run the trampoline. -/
theorem promiseSatisfy_as_settle (h : Heap) (s : Nat) (arg : FVal) :
    promiseSatisfy h s arg = executeWork (h.set s ⟨arg, none⟩) ((h.get s).cont, s) := by
  unfold promiseSatisfy Heap.setVal Heap.next
  dsimp only
  rw [Heap.set_set]
  simp

/-- Satisfying a live promise state completes (no fault), settles only
previously empty cells, keeps the other protected cells empty, and
re-establishes the stored-continuation invariant for the remaining
protected set. -/
theorem promiseSatisfy_sound (h : Heap) (s : Nat) (arg : FVal) (P P' : Nat → Prop)
    (hPP : ∀ x, P' x → P x)
    (hok : StoredOK h P) (hsP : P s) (hsP' : ¬ P' s)
    (hse : (h.get s).val = .empty) (harg : arg ≠ .empty) :
    ∃ (h' : Heap) (tr : Trace), promiseSatisfy h s arg = some (h', tr) ∧
      (∀ x, (h.get x).val ≠ .empty → (h'.get x).val = (h.get x).val) ∧
      (∀ x, P' x → (h'.get x).val = (h.get x).val) ∧
      StoredOK h' P' ∧ h.size ≤ h'.size := by
  rw [promiseSatisfy_as_settle]
  have hdnots : ∀ s' c', (h.get s').cont = some c' → c'.dest ≠ s :=
    fun s' c' hc' hds => (hok.1 s' c' hc').2.1 (hds ▸ hsP)
  rcases hnx : (h.get s).cont with - | c₁
  · -- nothing chained on the promise state: just the cell write
    refine ⟨h.set s ⟨arg, none⟩, [], rfl, ?_, ?_, ?_, ?_⟩
    · intro x hx
      simp only [Heap.get_set]
      by_cases hxs : x = s
      · subst hxs; exact absurd hse hx
      · simp [hxs]
    · intro x hx
      simp only [Heap.get_set]
      by_cases hxs : x = s
      · subst hxs; exact absurd hx hsP'
      · simp [hxs]
    · constructor
      · intro s' c' hc'
        simp only [Heap.get_set] at hc'
        by_cases hss : s' = s
        · rw [if_pos hss] at hc'; simp at hc'
        · rw [if_neg hss] at hc'
          obtain ⟨he, hp, hb⟩ := hok.1 s' c' hc'
          refine ⟨?_, fun hp' => hp (hPP _ hp'), ?_⟩
          · simp only [Heap.get_set, if_neg (hdnots s' c' hc')]
            exact he
          · simp only [Heap.size_set]
            calc c'.dest < h.size := hb
              _ ≤ _ := Nat.le_max_left _ _
      · intro s₁ s₂ c₁' c₂' hss hc₁ hc₂
        simp only [Heap.get_set] at hc₁ hc₂
        by_cases h₁ : s₁ = s
        · rw [if_pos h₁] at hc₁; simp at hc₁
        · by_cases h₂ : s₂ = s
          · rw [if_pos h₂] at hc₂; simp at hc₂
          · rw [if_neg h₁] at hc₁
            rw [if_neg h₂] at hc₂
            exact hok.2 s₁ s₂ c₁' c₂' hss hc₁ hc₂
    · simp only [Heap.size_set]
      exact Nat.le_max_left _ _
  · -- a chained continuation drains through the trampoline
    have hok2 : StoredOK (h.set s ⟨arg, none⟩) P' := by
      constructor
      · intro s' c' hc'
        simp only [Heap.get_set] at hc'
        by_cases hss : s' = s
        · rw [if_pos hss] at hc'; simp at hc'
        · rw [if_neg hss] at hc'
          obtain ⟨he, hp, hb⟩ := hok.1 s' c' hc'
          refine ⟨?_, fun hp' => hp (hPP _ hp'), ?_⟩
          · simp only [Heap.get_set, if_neg (hdnots s' c' hc')]
            exact he
          · simp only [Heap.size_set]
            calc c'.dest < h.size := hb
              _ ≤ _ := Nat.le_max_left _ _
      · intro s₁ s₂ c₁' c₂' hss hc₁ hc₂
        simp only [Heap.get_set] at hc₁ hc₂
        by_cases h₁ : s₁ = s
        · rw [if_pos h₁] at hc₁; simp at hc₁
        · by_cases h₂ : s₂ = s
          · rw [if_pos h₂] at hc₂; simp at hc₂
          · rw [if_neg h₁] at hc₁
            rw [if_neg h₂] at hc₂
            exact hok.2 s₁ s₂ c₁' c₂' hss hc₁ hc₂
    obtain ⟨hd1e, hd1p, hd1b⟩ := hok.1 s c₁ hnx
    have hd1s : c₁.dest ≠ s := hdnots s c₁ hnx
    obtain ⟨h', tr, hef, hpre, hppre, hok', hsz⟩ :=
      executeFuture_sound ((h.set s ⟨arg, none⟩).storedCount) (h.set s ⟨arg, none⟩)
        c₁ s P' (Nat.le_refl _) hok2
        (by simp only [Heap.get_set, if_neg hd1s]; exact hd1e)
        (fun hp' => hd1p (hPP _ hp'))
        (by simp only [Heap.size_set]
            calc c₁.dest < h.size := hd1b
              _ ≤ _ := Nat.le_max_left _ _)
        (by
          intro s' c' hc'
          simp only [Heap.get_set] at hc'
          by_cases hss : s' = s
          · rw [if_pos hss] at hc'; simp at hc'
          · rw [if_neg hss] at hc'
            exact hok.2 s' s c' c₁ hss hc' hnx)
        (by simp only [Heap.get_set, if_pos rfl]; exact harg)
    refine ⟨h', tr, ?_, ?_, ?_, hok', ?_⟩
    · simpa only [executeWork] using hef
    · intro x hx
      have hxs : x ≠ s := fun hxs => hx (hxs ▸ hse)
      have hgx : ((h.set s ⟨arg, none⟩).get x).val = (h.get x).val := by
        simp only [Heap.get_set, if_neg hxs]
      rw [← hgx]
      exact hpre x (by rw [hgx]; exact hx)
    · intro x hx
      have hxs : x ≠ s := fun hxs => hsP' (hxs ▸ hx)
      have hgx : ((h.set s ⟨arg, none⟩).get x).val = (h.get x).val := by
        simp only [Heap.get_set, if_neg hxs]
      rw [← hgx]
      exact hppre x hx
    · simp only [Heap.size_set] at hsz
      calc h.size ≤ Nat.max h.size (s + 1) := Nat.le_max_left _ _
        _ ≤ h'.size := hsz

/-- `future::then` on any live handle completes without fault and
preserves all settled and protected cells. -/
theorem futureThen_sound (h : Heap) (src l : Nat) (k : FnK) (P : Nat → Prop)
    (hok : StoredOK h P) (hPlt : ∀ x, P x → x < h.size) :
    ∃ (h' : Heap) (tr : Trace), futureThen h src l k = some (h', h.size, tr) ∧
      (∀ x, (h.get x).val ≠ .empty → (h'.get x).val = (h.get x).val) ∧
      (∀ x, P x → (h'.get x).val = (h.get x).val) ∧
      StoredOK h' P ∧ h.size < h'.size := by
  have hok1 : StoredOK (h.set h.size FutureState.init) P := by
    constructor
    · intro s' c' hc'
      rw [Heap.get_allocFresh] at hc'
      obtain ⟨he, hp, hb⟩ := hok.1 s' c' hc'
      refine ⟨?_, hp, ?_⟩
      · rw [Heap.get_allocFresh]; exact he
      · rw [Heap.size_allocFresh]; omega
    · intro s₁ s₂ c₁ c₂ hss hc₁ hc₂
      rw [Heap.get_allocFresh] at hc₁ hc₂
      exact hok.2 s₁ s₂ c₁ c₂ hss hc₁ hc₂
  obtain ⟨h', tr, hrun, hpre, hppre, hok', hsz⟩ :=
    chainDispatch_sound (h.set h.size FutureState.init) src (.thenC l k h.size) P hok1
      (by simp only [FutureCont.dest_thenC]
          rw [Heap.get_allocFresh, h.get_of_size_le _ (Nat.le_refl _)]
          rfl)
      (by simp only [FutureCont.dest_thenC]
          intro hp
          exact absurd (hPlt _ hp) (by omega))
      (by simp only [FutureCont.dest_thenC]; rw [Heap.size_allocFresh]; omega)
      (by
        intro s' c' hc'
        rw [Heap.get_allocFresh] at hc'
        simp only [FutureCont.dest_thenC]
        have := (hok.1 s' c' hc').2.2
        omega)
  refine ⟨h', tr, ?_, ?_, ?_, hok', ?_⟩
  · unfold futureThen Heap.alloc
    dsimp only
    rcases hch : (h.set h.size FutureState.init).chain src (.thenC l k h.size)
      with ⟨nx, h2⟩
    rw [hch] at hrun
    dsimp only at hrun ⊢
    rw [hrun]
  · intro x hx
    rw [← Heap.get_allocFresh h x]
    exact hpre x (by rw [Heap.get_allocFresh]; exact hx)
  · intro x hx
    rw [← Heap.get_allocFresh h x]
    exact hppre x hx
  · rw [Heap.size_allocFresh] at hsz
    omega

/-- `future::catch_exception` on any live handle completes without
fault and preserves all settled and protected cells. -/
theorem futureCatch_sound (h : Heap) (src l : Nat) (k : CatchK) (P : Nat → Prop)
    (hok : StoredOK h P) (hPlt : ∀ x, P x → x < h.size) :
    ∃ (h' : Heap) (tr : Trace), futureCatch h src l k = some (h', h.size, tr) ∧
      (∀ x, (h.get x).val ≠ .empty → (h'.get x).val = (h.get x).val) ∧
      (∀ x, P x → (h'.get x).val = (h.get x).val) ∧
      StoredOK h' P ∧ h.size < h'.size := by
  have hok1 : StoredOK (h.set h.size FutureState.init) P := by
    constructor
    · intro s' c' hc'
      rw [Heap.get_allocFresh] at hc'
      obtain ⟨he, hp, hb⟩ := hok.1 s' c' hc'
      refine ⟨?_, hp, ?_⟩
      · rw [Heap.get_allocFresh]; exact he
      · rw [Heap.size_allocFresh]; omega
    · intro s₁ s₂ c₁ c₂ hss hc₁ hc₂
      rw [Heap.get_allocFresh] at hc₁ hc₂
      exact hok.2 s₁ s₂ c₁ c₂ hss hc₁ hc₂
  obtain ⟨h', tr, hrun, hpre, hppre, hok', hsz⟩ :=
    chainDispatch_sound (h.set h.size FutureState.init) src (.catchC l k h.size) P hok1
      (by simp only [FutureCont.dest_catchC]
          rw [Heap.get_allocFresh, h.get_of_size_le _ (Nat.le_refl _)]
          rfl)
      (by simp only [FutureCont.dest_catchC]
          intro hp
          exact absurd (hPlt _ hp) (by omega))
      (by simp only [FutureCont.dest_catchC]; rw [Heap.size_allocFresh]; omega)
      (by
        intro s' c' hc'
        rw [Heap.get_allocFresh] at hc'
        simp only [FutureCont.dest_catchC]
        have := (hok.1 s' c' hc').2.2
        omega)
  refine ⟨h', tr, ?_, ?_, ?_, hok', ?_⟩
  · unfold futureCatch Heap.alloc
    dsimp only
    rcases hch : (h.set h.size FutureState.init).chain src (.catchC l k h.size)
      with ⟨nx, h2⟩
    rw [hch] at hrun
    dsimp only at hrun ⊢
    rw [hrun]
  · intro x hx
    rw [← Heap.get_allocFresh h x]
    exact hpre x (by rw [Heap.get_allocFresh]; exact hx)
  · intro x hx
    rw [← Heap.get_allocFresh h x]
    exact hppre x hx
  · rw [Heap.size_allocFresh] at hsz
    omega

theorem Prom.eq_mk_of_st (p : Prom) (s : Option Nat) (hs : p.st = s) : p = ⟨s⟩ := by
  cases p
  simpa using hs

theorem List.getD_set_self_prom (l : List Prom) (i : Nat) (p : Prom) (hi : i < l.length) :
    (l.set i p).getD i ⟨none⟩ = p := by
  simp [List.getD_eq_getElem?_getD, List.getElem?_set_self, hi]

theorem List.getD_set_ne_prom (l : List Prom) (i j : Nat) (p : Prom) (hij : j ≠ i) :
    (l.set i p).getD j ⟨none⟩ = l.getD j ⟨none⟩ := by
  simp [List.getD_eq_getElem?_getD, List.getElem?_set_ne (fun h => hij h.symm)]

theorem List.getD_append_lt_prom (l l' : List Prom) (i : Nat) (hi : i < l.length) :
    (l ++ l').getD i ⟨none⟩ = l.getD i ⟨none⟩ := by
  simp [List.getD_eq_getElem?_getD, List.getElem?_append_left hi]

theorem List.getD_append_ge_prom (l l' : List Prom) (i : Nat) (hi : l.length ≤ i) :
    (l ++ l').getD i ⟨none⟩ = l'.getD (i - l.length) ⟨none⟩ := by
  simp [List.getD_eq_getElem?_getD, List.getElem?_append_right hi]

theorem List.getD_ge_none_prom (l : List Prom) (i : Nat) (hi : l.length ≤ i) :
    l.getD i ⟨none⟩ = ⟨none⟩ := by
  simp [List.getD_eq_getElem?_getD, List.getElem?_eq_none hi]

/-- A live promise handle is in range of the handle list. -/
theorem PromAt_lt_length (f : List Fut) (p : List Prom) (pid s : Nat)
    (hp : PromAt ⟨f, p⟩ pid = some s) : pid < p.length := by
  by_contra hge
  rw [PromAt, Env.getProm] at hp
  dsimp only at hp
  rw [List.getD_ge_none_prom p pid (by omega)] at hp
  simp at hp

/-- Consuming a promise handle only shrinks the live-promise map. -/
theorem PromAt_consume_sub (f f' : List Fut) (p : List Prom) (pid q t : Nat)
    (hq : PromAt ⟨f', p.set pid ⟨none⟩⟩ q = some t) : PromAt ⟨f, p⟩ q = some t := by
  rw [PromAt, Env.getProm] at hq ⊢
  dsimp only at hq ⊢
  by_cases hqp : q = pid
  · subst hqp
    by_cases hlt : q < p.length
    · rw [List.getD_set_self_prom p q ⟨none⟩ hlt] at hq
      simp at hq
    · rw [List.getD_ge_none_prom (p.set q ⟨none⟩) q (by simp; omega)] at hq
      simp at hq
  · rw [List.getD_set_ne_prom p pid q ⟨none⟩ hqp] at hq
    exact hq

/-- The consumed handle itself is dead afterwards. -/
theorem PromAt_consume_self (f : List Fut) (p : List Prom) (pid t : Nat) :
    PromAt ⟨f, p.set pid ⟨none⟩⟩ pid ≠ some t := by
  intro hq
  rw [PromAt, Env.getProm] at hq
  dsimp only at hq
  by_cases hlt : pid < p.length
  · rw [List.getD_set_self_prom p pid ⟨none⟩ hlt] at hq
    simp at hq
  · rw [List.getD_ge_none_prom (p.set pid ⟨none⟩) pid (by simp; omega)] at hq
    simp at hq

/-- The invariant does not constrain the future handles. -/
theorem GInv_futs (h : Heap) (f f' : List Fut) (p : List Prom)
    (hg : GInv ⟨h, ⟨f, p⟩⟩) : GInv ⟨h, ⟨f', p⟩⟩ := hg

/-- The invariant survives consuming a promise handle (without touching
the heap). -/
theorem GInv_consume (h : Heap) (f f' : List Fut) (p : List Prom) (pid : Nat)
    (hg : GInv ⟨h, ⟨f, p⟩⟩) : GInv ⟨h, ⟨f', p.set pid ⟨none⟩⟩⟩ := by
  obtain ⟨hok, hlive, hdup⟩ := hg
  refine ⟨StoredOK_mono h _ _ ?_ hok, ?_, ?_⟩
  · rintro x ⟨q, hq⟩
    exact ⟨q, PromAt_consume_sub f f p pid q x hq⟩
  · intro q t hq
    exact hlive q t (PromAt_consume_sub f f p pid q t hq)
  · intro q₁ q₂ t h₁ h₂
    exact hdup q₁ q₂ t (PromAt_consume_sub f f p pid q₁ t h₁)
      (PromAt_consume_sub f f p pid q₂ t h₂)

/-- One satisfaction step (`set_value`, `set_exception` or the broken-
promise destructor) on a live promise handle, with the invariant carried
to the post-state environment. -/
theorem satisfyStep_sound (h : Heap) (f f' : List Fut) (p : List Prom) (pid s : Nat)
    (arg : FVal) (hg : GInv ⟨h, ⟨f, p⟩⟩) (hp : PromAt ⟨f, p⟩ pid = some s)
    (harg : arg ≠ .empty) :
    ∃ (h' : Heap) (tr : Trace), promiseSatisfy h s arg = some (h', tr) ∧
      GInv ⟨h', ⟨f', p.set pid ⟨none⟩⟩⟩ ∧
      h.size ≤ h'.size ∧
      (∀ x, (h.get x).val ≠ .empty → (h'.get x).val = (h.get x).val) := by
  obtain ⟨hok, hlive, hdup⟩ := hg
  obtain ⟨h', tr, hrun, hpre, hppre, hok', hsz⟩ :=
    promiseSatisfy_sound h s arg
      (fun x => ∃ q, PromAt (⟨f, p⟩ : Env) q = some x)
      (fun x => ∃ q, PromAt (⟨f', p.set pid ⟨none⟩⟩ : Env) q = some x)
      (by rintro x ⟨q, hq⟩; exact ⟨q, PromAt_consume_sub f f' p pid q x hq⟩)
      hok ⟨pid, hp⟩
      (by
        rintro ⟨q, hq⟩
        have hqp : q ≠ pid := by
          intro hqp
          exact PromAt_consume_self f' p pid s (hqp ▸ hq)
        exact hqp (hdup q pid s (PromAt_consume_sub f f' p pid q s hq) hp))
      (hlive pid s hp).1 harg
  refine ⟨h', tr, hrun, ⟨hok', ?_, ?_⟩, hsz, hpre⟩
  · intro q t hq
    have hold := PromAt_consume_sub f f' p pid q t hq
    refine ⟨?_, ?_⟩
    · rw [hppre t ⟨q, hq⟩]
      exact (hlive q t hold).1
    · calc t < h.size := (hlive q t hold).2
        _ ≤ h'.size := hsz
  · intro q₁ q₂ t h₁ h₂
    exact hdup q₁ q₂ t (PromAt_consume_sub f f' p pid q₁ t h₁)
      (PromAt_consume_sub f f' p pid q₂ t h₂)

/-- A `then` call on a live source handle, with the invariant carried to
the post-state environment (the promise handles are untouched). -/
theorem chainStepThen_sound (h : Heap) (f f' : List Fut) (p : List Prom) (src l : Nat)
    (k : FnK) (hg : GInv ⟨h, ⟨f, p⟩⟩) :
    ∃ (h' : Heap) (tr : Trace), futureThen h src l k = some (h', h.size, tr) ∧
      GInv ⟨h', ⟨f', p⟩⟩ ∧ h.size ≤ h'.size ∧
      (∀ x, (h.get x).val ≠ .empty → (h'.get x).val = (h.get x).val) := by
  obtain ⟨hok, hlive, hdup⟩ := hg
  obtain ⟨h', tr, hrun, hpre, hppre, hok', hsz⟩ :=
    futureThen_sound h src l k (fun x => ∃ q, PromAt (⟨f, p⟩ : Env) q = some x) hok
      (by rintro x ⟨q, hq⟩; exact (hlive q x hq).2)
  refine ⟨h', tr, hrun, ⟨hok', ?_, hdup⟩, by omega, hpre⟩
  intro q t hq
  refine ⟨?_, ?_⟩
  · rw [hppre t ⟨q, hq⟩]
    exact (hlive q t hq).1
  · calc t < h.size := (hlive q t hq).2
      _ ≤ h'.size := by omega

/-- A `catch_exception` call on a live source handle. -/
theorem chainStepCatch_sound (h : Heap) (f f' : List Fut) (p : List Prom) (src l : Nat)
    (k : CatchK) (hg : GInv ⟨h, ⟨f, p⟩⟩) :
    ∃ (h' : Heap) (tr : Trace), futureCatch h src l k = some (h', h.size, tr) ∧
      GInv ⟨h', ⟨f', p⟩⟩ ∧ h.size ≤ h'.size ∧
      (∀ x, (h.get x).val ≠ .empty → (h'.get x).val = (h.get x).val) := by
  obtain ⟨hok, hlive, hdup⟩ := hg
  obtain ⟨h', tr, hrun, hpre, hppre, hok', hsz⟩ :=
    futureCatch_sound h src l k (fun x => ∃ q, PromAt (⟨f, p⟩ : Env) q = some x) hok
      (by rintro x ⟨q, hq⟩; exact (hlive q x hq).2)
  refine ⟨h', tr, hrun, ⟨hok', ?_, hdup⟩, by omega, hpre⟩
  intro q t hq
  refine ⟨?_, ?_⟩
  · rw [hppre t ⟨q, hq⟩]
    exact (hlive q t hq).1
  · calc t < h.size := (hlive q t hq).2
      _ ≤ h'.size := by omega

/-- Allocating a fresh (possibly pre-fulfilled) state preserves the
invariant: the fresh state is beyond every live promise state and every
stored destination. -/
theorem GInv_fresh (h : Heap) (f f' : List Fut) (p : List Prom) (w : FVal)
    (hg : GInv ⟨h, ⟨f, p⟩⟩) :
    GInv ⟨(h.set h.size FutureState.init).setVal h.size w, ⟨f', p⟩⟩ := by
  obtain ⟨hok, hlive, hdup⟩ := hg
  dsimp only at hok hlive hdup
  have hget : ∀ j, ((h.set h.size FutureState.init).setVal h.size w).get j =
      if j = h.size then ⟨w, none⟩ else h.get j := by
    intro j
    simp only [Heap.get_setVal]
    by_cases hj : j = h.size
    · subst hj
      rw [if_pos rfl, if_pos rfl, Heap.get_allocFresh, h.get_of_size_le _ (Nat.le_refl _)]
      rfl
    · rw [if_neg hj, if_neg hj, Heap.get_allocFresh]
  have hsize : ((h.set h.size FutureState.init).setVal h.size w).size = h.size + 1 := by
    rw [Heap.setVal, Heap.size_set, Heap.size_allocFresh]
    exact Nat.max_eq_left (by omega)
  refine ⟨⟨?_, ?_⟩, ?_, hdup⟩ <;> dsimp only
  · intro s' c' hc'
    rw [hget] at hc'
    by_cases hs : s' = h.size
    · rw [if_pos hs] at hc'; simp at hc'
    · rw [if_neg hs] at hc'
      obtain ⟨he, hp, hb⟩ := hok.1 s' c' hc'
      refine ⟨?_, hp, ?_⟩
      · rw [hget, if_neg (by omega)]
        exact he
      · omega
  · intro s₁ s₂ c₁ c₂ hss hc₁ hc₂
    rw [hget] at hc₁ hc₂
    by_cases h₁ : s₁ = h.size
    · rw [if_pos h₁] at hc₁; simp at hc₁
    · by_cases h₂ : s₂ = h.size
      · rw [if_pos h₂] at hc₂; simp at hc₂
      · rw [if_neg h₁] at hc₁
        rw [if_neg h₂] at hc₂
        exact hok.2 s₁ s₂ c₁ c₂ hss hc₁ hc₂
  · intro q t hq
    obtain ⟨he, hb⟩ := hlive q t hq
    refine ⟨?_, by omega⟩
    rw [hget, if_neg (by omega)]
    exact he

theorem Heap.le_size_set (h : Heap) (i : Nat) (s : FutureState) :
    h.size ≤ (h.set i s).size := Nat.le_max_left _ _

theorem Heap.le_size_setVal (h : Heap) (i : Nat) (v : FVal) :
    h.size ≤ (h.setVal i v).size := Nat.le_max_left _ _

/-- A live handle in the extended promise list is either an old live
handle or the appended one. -/
theorem PromAt_append_cases (f : List Fut) (p : List Prom) (pr : Prom) (q t : Nat)
    (hq : PromAt ⟨f, p ++ [pr]⟩ q = some t) :
    PromAt ⟨f, p⟩ q = some t ∨ (q = p.length ∧ pr = ⟨some t⟩) := by
  rw [PromAt, Env.getProm] at hq
  dsimp only at hq
  by_cases hlt : q < p.length
  · rw [List.getD_append_lt_prom p [pr] q hlt] at hq
    left
    exact hq
  · rw [List.getD_append_ge_prom p [pr] q (by omega)] at hq
    by_cases hq0 : q - p.length = 0
    · rw [hq0] at hq
      right
      exact ⟨by omega, Prom.eq_mk_of_st pr _ hq⟩
    · rw [List.getD_ge_none_prom [pr] _ (by simp; omega)] at hq
      simp at hq

/-- `make_promise` preserves the invariant: both fresh handles point at
the fresh state. -/
theorem GInv_mkProm (h : Heap) (f f' : List Fut) (p : List Prom)
    (hg : GInv ⟨h, ⟨f, p⟩⟩) :
    GInv ⟨h.set h.size FutureState.init, ⟨f', p ++ [⟨some h.size⟩]⟩⟩ := by
  obtain ⟨hok, hlive, hdup⟩ := hg
  dsimp only at hok hlive hdup
  have hnew : PromAt (⟨f', p ++ [⟨some h.size⟩]⟩ : Env) p.length = some h.size := by
    rw [PromAt, Env.getProm]
    dsimp only
    rw [List.getD_append_ge_prom p _ p.length (Nat.le_refl _), Nat.sub_self]
    rfl
  refine ⟨⟨?_, ?_⟩, ?_, ?_⟩ <;> dsimp only
  · intro s' c' hc'
    rw [Heap.get_allocFresh] at hc'
    obtain ⟨he, hpp, hb⟩ := hok.1 s' c' hc'
    refine ⟨?_, ?_, ?_⟩
    · rw [Heap.get_allocFresh]
      exact he
    · rintro ⟨q, hq⟩
      rcases PromAt_append_cases f' p _ q c'.dest hq with hold | ⟨-, hpr⟩
      · exact hpp ⟨q, hold⟩
      · have : c'.dest = h.size := by
          have := congrArg Prom.st hpr
          simpa using this.symm
        omega
    · rw [Heap.size_allocFresh]
      omega
  · intro s₁ s₂ c₁ c₂ hss hc₁ hc₂
    rw [Heap.get_allocFresh] at hc₁ hc₂
    exact hok.2 s₁ s₂ c₁ c₂ hss hc₁ hc₂
  · intro q t hq
    rcases PromAt_append_cases f' p _ q t hq with hold | ⟨-, hpr⟩
    · obtain ⟨he, hb⟩ := hlive q t hold
      refine ⟨?_, ?_⟩
      · rw [Heap.get_allocFresh]
        exact he
      · rw [Heap.size_allocFresh]
        omega
    · have ht : t = h.size := by
        have := congrArg Prom.st hpr
        simpa using this.symm
      subst ht
      refine ⟨?_, ?_⟩
      · rw [Heap.get_allocFresh, h.get_of_size_le _ (Nat.le_refl _)]
        rfl
      · rw [Heap.size_allocFresh]
        omega
  · intro q₁ q₂ t h₁ h₂
    rcases PromAt_append_cases f' p _ q₁ t h₁ with hold₁ | ⟨hq₁, hpr₁⟩
    · rcases PromAt_append_cases f' p _ q₂ t h₂ with hold₂ | ⟨hq₂, hpr₂⟩
      · exact hdup q₁ q₂ t hold₁ hold₂
      · exfalso
        have ht : t = h.size := by
          have := congrArg Prom.st hpr₂
          simpa using this.symm
        have := (hlive q₁ t hold₁).2
        omega
    · rcases PromAt_append_cases f' p _ q₂ t h₂ with hold₂ | ⟨hq₂, hpr₂⟩
      · exfalso
        have ht : t = h.size := by
          have := congrArg Prom.st hpr₁
          simpa using this.symm
        have := (hlive q₂ t hold₂).2
        omega
      · omega

/-- **Per-step soundness**: under the global invariant every public API
call completes without machine fault, re-establishes the invariant,
grows the heap monotonically, and never changes a settled cell. -/
theorem runStepT_sound (cfg : Config) (st : ApiStep) (hg : GInv cfg) :
    ∃ (cfg' : Config) (tr : Trace), runStepT cfg st = some (cfg', tr) ∧ GInv cfg' ∧
      cfg.heap.size ≤ cfg'.heap.size ∧
      (∀ x, (cfg.heap.get x).val ≠ .empty →
        (cfg'.heap.get x).val = (cfg.heap.get x).val) := by
  obtain ⟨h, f, p⟩ := cfg
  dsimp only at hg ⊢
  have hfreshpre : ∀ (w : FVal) (x : Nat), (h.get x).val ≠ .empty →
      (((h.set h.size FutureState.init).setVal h.size w).get x).val = (h.get x).val := by
    intro w x hx
    have hxs : x ≠ h.size := by
      intro hxs
      rw [hxs, h.get_of_size_le _ (Nat.le_refl _)] at hx
      exact hx rfl
    simp only [Heap.get_setVal, if_neg hxs]
    rw [Heap.get_allocFresh]
  cases st with
  | mkProm =>
    refine ⟨⟨h.set h.size FutureState.init, ⟨f ++ [⟨some h.size⟩], p ++ [⟨some h.size⟩]⟩⟩,
      [], by rfl, GInv_mkProm h f _ p hg, h.le_size_set _ _, ?_⟩
    intro x hx
    rw [Heap.get_allocFresh]
  | mkReady v =>
    refine ⟨⟨(h.set h.size FutureState.init).setVal h.size (.value v),
      ⟨f ++ [⟨some h.size⟩], p⟩⟩, [], by rfl, GInv_fresh h f _ p _ hg, ?_, hfreshpre _⟩
    calc h.size ≤ (h.set h.size FutureState.init).size := h.le_size_set _ _
      _ ≤ _ := Heap.le_size_setVal _ _ _
  | mkExc e =>
    refine ⟨⟨(h.set h.size FutureState.init).setVal h.size (.error e),
      ⟨f ++ [⟨some h.size⟩], p⟩⟩, [], by rfl, GInv_fresh h f _ p _ hg, ?_, hfreshpre _⟩
    calc h.size ≤ (h.set h.size FutureState.init).size := h.le_size_set _ _
      _ ≤ _ := Heap.le_size_setVal _ _ _
  | thenS fid l g =>
    rcases hf : ((⟨f, p⟩ : Env).getFut fid).st with - | s
    · refine ⟨⟨h, ⟨(f.set fid ⟨none⟩) ++ [⟨none⟩], p⟩⟩, [.apiRaise "invalid future"],
        ?_, GInv_futs h f _ p hg, Nat.le_refl _, fun x hx => rfl⟩
      simp only [runStepT, Fut.thenF, hf]
    · obtain ⟨h', tr, hrun, hginv, hsz, hpre⟩ :=
        chainStepThen_sound h f ((f.set fid ⟨none⟩) ++ [⟨some h.size⟩]) p s l
          (.fnPlain g) hg
      refine ⟨⟨h', ⟨(f.set fid ⟨none⟩) ++ [⟨some h.size⟩], p⟩⟩, tr, ?_, hginv, hsz, hpre⟩
      simp only [runStepT, Fut.thenF, hf, hrun]
  | thenFutS fid l cfid =>
    rcases hf : ((⟨(f.set cfid ⟨none⟩ : List Fut), p⟩ : Env).getFut fid).st with - | s
    · refine ⟨⟨h, ⟨((f.set cfid ⟨none⟩).set fid ⟨none⟩) ++ [⟨none⟩], p⟩⟩,
        [.apiRaise "invalid future"], ?_, GInv_futs h f _ p hg, Nat.le_refl _,
        fun x hx => rfl⟩
      simp only [runStepT, Fut.thenF, hf]
    · obtain ⟨h', tr, hrun, hginv, hsz, hpre⟩ :=
        chainStepThen_sound h f (((f.set cfid ⟨none⟩).set fid ⟨none⟩) ++ [⟨some h.size⟩])
          p s l (.fnFut ((⟨f, p⟩ : Env).getFut cfid).st) hg
      refine ⟨⟨h', ⟨((f.set cfid ⟨none⟩).set fid ⟨none⟩) ++ [⟨some h.size⟩], p⟩⟩, tr,
        ?_, hginv, hsz, hpre⟩
      simp only [runStepT, Fut.thenF, hf, hrun]
  | catchS fid l g =>
    rcases hf : ((⟨f, p⟩ : Env).getFut fid).st with - | s
    · refine ⟨⟨h, ⟨(f.set fid ⟨none⟩) ++ [⟨none⟩], p⟩⟩, [.apiRaise "invalid future"],
        ?_, GInv_futs h f _ p hg, Nat.le_refl _, fun x hx => rfl⟩
      simp only [runStepT, Fut.catchF, hf]
    · obtain ⟨h', tr, hrun, hginv, hsz, hpre⟩ :=
        chainStepCatch_sound h f ((f.set fid ⟨none⟩) ++ [⟨some h.size⟩]) p s l
          (.cPlain g) hg
      refine ⟨⟨h', ⟨(f.set fid ⟨none⟩) ++ [⟨some h.size⟩], p⟩⟩, tr, ?_, hginv, hsz, hpre⟩
      simp only [runStepT, Fut.catchF, hf, hrun]
  | catchFutS fid l cfid =>
    rcases hf : ((⟨(f.set cfid ⟨none⟩ : List Fut), p⟩ : Env).getFut fid).st with - | s
    · refine ⟨⟨h, ⟨((f.set cfid ⟨none⟩).set fid ⟨none⟩) ++ [⟨none⟩], p⟩⟩,
        [.apiRaise "invalid future"], ?_, GInv_futs h f _ p hg, Nat.le_refl _,
        fun x hx => rfl⟩
      simp only [runStepT, Fut.catchF, hf]
    · obtain ⟨h', tr, hrun, hginv, hsz, hpre⟩ :=
        chainStepCatch_sound h f (((f.set cfid ⟨none⟩).set fid ⟨none⟩) ++ [⟨some h.size⟩])
          p s l (.cFut ((⟨f, p⟩ : Env).getFut cfid).st) hg
      refine ⟨⟨h', ⟨((f.set cfid ⟨none⟩).set fid ⟨none⟩) ++ [⟨some h.size⟩], p⟩⟩, tr,
        ?_, hginv, hsz, hpre⟩
      simp only [runStepT, Fut.catchF, hf, hrun]
  | setVal pid v =>
    rcases hp : ((⟨f, p⟩ : Env).getProm pid).st with - | s
    · have hnull : (⟨f, p⟩ : Env).getProm pid = ⟨none⟩ := Prom.eq_mk_of_st _ _ hp
      refine ⟨⟨h, ⟨f, p.set pid ⟨none⟩⟩⟩, [.apiRaise "promise already satisfied"],
        ?_, GInv_consume h f f p pid hg, Nat.le_refl _, fun x hx => rfl⟩
      simp only [runStepT, Prom.setValue, hp, hnull]
    · obtain ⟨h', tr, hrun, hginv, hsz, hpre⟩ :=
        satisfyStep_sound h f f p pid s (.value v) hg hp (by intro hc; cases hc)
      refine ⟨⟨h', ⟨f, p.set pid ⟨none⟩⟩⟩, tr, ?_, hginv, hsz, hpre⟩
      simp only [runStepT, Prom.setValue, hp, hrun]
  | setExc pid e =>
    rcases hp : ((⟨f, p⟩ : Env).getProm pid).st with - | s
    · have hnull : (⟨f, p⟩ : Env).getProm pid = ⟨none⟩ := Prom.eq_mk_of_st _ _ hp
      refine ⟨⟨h, ⟨f, p.set pid ⟨none⟩⟩⟩, [.apiRaise "promise already satisfied"],
        ?_, GInv_consume h f f p pid hg, Nat.le_refl _, fun x hx => rfl⟩
      simp only [runStepT, Prom.setException, hp, hnull]
    · obtain ⟨h', tr, hrun, hginv, hsz, hpre⟩ :=
        satisfyStep_sound h f f p pid s (.error e) hg hp (by intro hc; cases hc)
      refine ⟨⟨h', ⟨f, p.set pid ⟨none⟩⟩⟩, tr, ?_, hginv, hsz, hpre⟩
      simp only [runStepT, Prom.setException, hp, hrun]
  | dropProm pid =>
    rcases hp : ((⟨f, p⟩ : Env).getProm pid).st with - | s
    · refine ⟨⟨h, ⟨f, p.set pid ⟨none⟩⟩⟩, [], ?_, GInv_consume h f f p pid hg,
        Nat.le_refl _, fun x hx => rfl⟩
      simp only [runStepT, Prom.drop, hp]
    · obtain ⟨h', tr, hrun, hginv, hsz, hpre⟩ :=
        satisfyStep_sound h f f p pid s (.error (.futureError "broken promise")) hg hp
          (by intro hc; cases hc)
      refine ⟨⟨h', ⟨f, p.set pid ⟨none⟩⟩⟩, tr, ?_, hginv, hsz, hpre⟩
      simp only [runStepT, Prom.drop, hp, hrun]

theorem GInv_init : GInv Config.init := by
  refine ⟨⟨?_, ?_⟩, ?_, ?_⟩
  · intro s c hc
    simp [Config.init, Heap.get_empty] at hc
  · intro s₁ s₂ c₁ c₂ hss hc₁ hc₂
    simp [Config.init, Heap.get_empty] at hc₁
  · intro q t hq
    rw [PromAt, Env.getProm] at hq
    simp [Config.init] at hq
  · intro q₁ q₂ t h₁ h₂
    rw [PromAt, Env.getProm] at h₁
    simp [Config.init] at h₁

/-- **Program soundness**: under the invariant, a whole program
completes, re-establishes the invariant, and never changes a settled
cell. -/
theorem runProgT_sound (p : List ApiStep) : ∀ (cfg : Config), GInv cfg →
    ∃ (cfg' : Config) (tr : Trace), runProgT cfg p = some (cfg', tr) ∧ GInv cfg' ∧
      cfg.heap.size ≤ cfg'.heap.size ∧
      (∀ x, (cfg.heap.get x).val ≠ .empty →
        (cfg'.heap.get x).val = (cfg.heap.get x).val) := by
  induction p with
  | nil =>
    intro cfg hcfg
    exact ⟨cfg, [], rfl, hcfg, Nat.le_refl _, fun x hx => rfl⟩
  | cons st rest ih =>
    intro cfg hcfg
    obtain ⟨cfg1, tr1, hstep, hg1, hsz1, hpre1⟩ := runStepT_sound cfg st hcfg
    obtain ⟨cfg2, tr2, hrest, hg2, hsz2, hpre2⟩ := ih cfg1 hg1
    refine ⟨cfg2, tr1 ++ tr2, ?_, hg2, by omega, ?_⟩
    · simp only [runProgT, hstep, hrest]
    · intro x hx
      rw [hpre2 x (by rw [hpre1 x hx]; exact hx), hpre1 x hx]

theorem FVal.ready_true_of_ne_empty (v : FVal) (hv : v ≠ .empty) :
    (v.idx ≠ 0 : Bool) = true := by
  cases v with
  | empty => exact absurd rfl hv
  | value x => rfl
  | error e => rfl

/-- **C7**: for every result cell and every sequence of public
operations, once the cell's tag leaves `Empty` it never returns to
`Empty`: any extension of the run still shows exactly the same settled
value in that cell (so `Empty → Value` and `Empty → Error` each happen
at most once per cell), and `ready()` remains `true`. -/
theorem claim_c7_settled_cell_never_reempties (p q : List ApiStep) (s : Nat) (v : FVal)
    (hv : v ≠ .empty)
    (h₁ : (runProgT Config.init p).map (fun r => (r.1.heap.get s).val) = some v) :
    (runProgT Config.init (p ++ q)).map (fun r => (r.1.heap.get s).val) = some v ∧
    (runProgT Config.init (p ++ q)).map (fun r => r.1.heap.ready s) = some true := by
  obtain ⟨c₁, tr₁, hp, hg1, hsz1, hpre1⟩ := runProgT_sound p Config.init GInv_init
  rw [hp] at h₁
  simp only [Option.map_some'] at h₁
  replace h₁ : (c₁.heap.get s).val = v := by
    exact Option.some.inj h₁
  obtain ⟨c₂, tr₂, hq, hg2, hsz2, hpre2⟩ := runProgT_sound q c₁ hg1
  have hall : runProgT Config.init (p ++ q) = some (c₂, tr₁ ++ tr₂) := by
    rw [runProgT_append, hp]
    dsimp only
    rw [hq]
  have hv₂ : (c₂.heap.get s).val = v := by
    rw [hpre2 s (by rw [h₁]; exact hv), h₁]
  constructor
  · rw [hall]
    simp only [Option.map_some', hv₂]
  · rw [hall]
    simp only [Option.map_some', Option.some.injEq]
    rw [Heap.ready_eq, hv₂]
    exact FVal.ready_true_of_ne_empty v hv

theorem claim_c7_witness :
    (runProgT Config.init ([.mkReady 7] ++ [.thenS 0 5 (fun x => .ok (x + 1))])).map
        (fun r => (r.1.heap.get 0).val) = some (.value 7) ∧
    (runProgT Config.init ([.mkReady 7] ++ [.thenS 0 5 (fun x => .ok (x + 1))])).map
        (fun r => r.1.heap.ready 0) = some true :=
  claim_c7_settled_cell_never_reempties [.mkReady 7] [.thenS 0 5 (fun x => .ok (x + 1))]
    0 (.value 7) (by intro hc; cases hc) (by rfl)

/-! ## Coupling the recursive implementation to the trampoline -/

/-- More recursion budget never hurts the recursive implementation. -/
theorem dispatchR_mono : ∀ (fuel : Nat) (k : RCall) (h : Heap) (r : Heap × Trace),
    dispatchR fuel k h = some r → dispatchR (fuel + 1) k h = some r := by
  intro fuel
  induction fuel with
  | zero =>
    intro k h r hr
    simp [dispatchR] at hr
  | succ n ih =>
    intro k h r hr
    match k with
    | .cw c v =>
      match c with
      | .thenC l k dest =>
        match v with
        | .value x =>
          match k with
          | .fnPlain g =>
            rw [dispatchR] at hr
            rcases hsub : dispatchR n (.sat dest) (h.setVal dest (invokeResult (g x)))
              with - | r₁
            · rw [hsub] at hr; simp at hr
            · rw [hsub] at hr
              rw [dispatchR, ih _ _ _ hsub]
              exact hr
          | .fnFut st =>
            rw [dispatchR] at hr
            rcases hsub : dispatchR n (.att st dest) h with - | r₁
            · rw [hsub] at hr; simp at hr
            · rw [hsub] at hr
              rw [dispatchR, ih _ _ _ hsub]
              exact hr
        | .error e =>
          rw [dispatchR] at hr
          rw [dispatchR, ih _ _ _ hr]
        | .empty => rw [dispatchR] at hr; exact absurd hr (by simp)
      | .catchC l k dest =>
        match v with
        | .value x =>
          rw [dispatchR] at hr
          rw [dispatchR, ih _ _ _ hr]
        | .error e =>
          match k with
          | .cPlain g =>
            rw [dispatchR] at hr
            rcases hsub : dispatchR n (.sat dest) (h.setVal dest (invokeResult (g e)))
              with - | r₁
            · rw [hsub] at hr; simp at hr
            · rw [hsub] at hr
              rw [dispatchR, ih _ _ _ hsub]
              exact hr
          | .cFut st =>
            rw [dispatchR] at hr
            rcases hsub : dispatchR n (.att st dest) h with - | r₁
            · rw [hsub] at hr; simp at hr
            · rw [hsub] at hr
              rw [dispatchR, ih _ _ _ hsub]
              exact hr
        | .empty => rw [dispatchR] at hr; exact absurd hr (by simp)
      | .attachC dest =>
        rw [dispatchR] at hr
        rw [dispatchR, ih _ _ _ hr]
    | .sat sid =>
      rw [dispatchR] at hr
      rcases hc : (h.get sid).cont with - | c
      · rw [hc] at hr
        rw [dispatchR, hc]
        exact hr
      · rw [hc] at hr
        dsimp only at hr
        rcases hsub : dispatchR n (.cw c ((h.get sid).val)) h with - | r₁
        · rw [hsub] at hr; simp at hr
        · rw [hsub] at hr
          rw [dispatchR, hc]
          dsimp only
          rw [ih _ _ _ hsub]
          exact hr
    | .chn sid c =>
      rw [dispatchR] at hr
      rcases hrd : h.ready sid with - | -
      · rw [hrd] at hr
        rw [dispatchR, hrd]
        simpa using hr
      · rw [hrd] at hr
        rw [dispatchR, hrd]
        simp only [if_true] at hr ⊢
        exact ih _ _ _ hr
    | .att src dest =>
      match src with
      | some s =>
        rw [dispatchR] at hr
        rcases hrd : h.ready s with - | -
        · rw [hrd] at hr
          rw [dispatchR, hrd]
          simp only [Bool.false_eq_true, if_false] at hr ⊢
          exact ih _ _ _ hr
        · rw [hrd] at hr
          rw [dispatchR, hrd]
          simp only [if_true] at hr ⊢
          exact ih _ _ _ hr
      | none =>
        rw [dispatchR] at hr
        rw [dispatchR]
        exact ih _ _ _ hr

theorem dispatchR_mono_le (f f' : Nat) (k : RCall) (h : Heap) (r : Heap × Trace)
    (hle : f ≤ f') (hr : dispatchR f k h = some r) : dispatchR f' k h = some r := by
  induction f' with
  | zero =>
    have : f = 0 := by omega
    subst this
    exact hr
  | succ n ih =>
    by_cases heq : f = n + 1
    · subst heq
      exact hr
    · exact dispatchR_mono n k h r (ih (by omega))

/-- No two stored continuations share a destination. -/
def DistinctDests (h : Heap) : Prop :=
  ∀ x₁ x₂ c₁ c₂, x₁ ≠ x₂ → (h.get x₁).cont = some c₁ → (h.get x₂).cont = some c₂ →
    c₁.dest ≠ c₂.dest

/-- Mid-drain relation between the recursive heap `hR` and the
trampoline heap `hT`: `S` is the set of states whose settled
continuation the recursive implementation still holds on its call stack
(it clears those slots only on the way back up, whereas the trampoline
cleared them up front).  Cells agree everywhere; slots agree outside
`S`; the trampoline slots on `S` are already cleared. -/
def RelS (S : List Nat) (hR hT : Heap) : Prop :=
  (∀ x, (hR.get x).val = (hT.get x).val) ∧
  (∀ x, x ∉ S → (hR.get x).cont = (hT.get x).cont) ∧
  (∀ x, x ∈ S → (hT.get x).cont = none) ∧
  hR.size = hT.size

theorem FutureState.eq_of (s t : FutureState) (hv : s.val = t.val)
    (hc : s.cont = t.cont) : s = t := by
  cases s
  cases t
  simp only [FutureState.mk.injEq]
  exact ⟨hv, hc⟩

theorem RelS.ready_congr {S : List Nat} {hR hT : Heap} (hrel : RelS S hR hT) (y : Nat) :
    hR.ready y = hT.ready y := by
  rw [Heap.ready_eq, Heap.ready_eq, hrel.1 y]

/-- With an empty stack the two heaps are literally equal. -/
theorem RelS.nil_eq {hR hT : Heap} (hrel : RelS [] hR hT) : hR = hT := by
  apply Heap.ext
  · intro i
    exact FutureState.eq_of _ _ (hrel.1 i) (hrel.2.1 i (List.not_mem_nil i))
  · exact hrel.2.2.2

/-- One unfolding of the trampoline as one `continue_with` call plus a
recursion on the remaining work unit. -/
theorem executeFuture_cw (h h1 : Heap) (c : FutureCont) (s : Nat)
    (w : Option FutureCont × Nat) (tr0 : Trace)
    (hcw : continueWith c s h = some (w, h1, tr0)) :
    executeFuture h c s = (executeWork h1 w).map (fun r => (r.1, tr0 ++ r.2)) := by
  rcases w with ⟨nx, s1⟩
  rcases nx with - | c1
  · rw [executeFuture_stop h c s s1 h1 tr0 hcw]
    simp [executeWork]
  · rw [executeFuture_step h c s c1 s1 h1 tr0 hcw]
    simp only [executeWork]
    rcases executeFuture h1 c1 s1 with - | ⟨h2, tr2⟩
    · rfl
    · rfl

/-- The coupling statement at one settle call (`future_state::satisfy`
level): settle destination `d` with result `r` over related heaps and
both implementations produce the same trace and related heaps. -/
def SatStmt (n : Nat) : Prop :=
  ∀ (hT hR : Heap) (S : List Nat) (d : Nat) (r : FVal),
    hT.storedCount ≤ n → RelS S hR hT →
    (∀ x, x ∈ S → (hT.get x).val ≠ .empty) →
    r ≠ .empty → d ∉ S →
    (∀ x c', (hT.get x).cont = some c' → c'.dest ∉ S ∧ c'.dest ≠ d) →
    DistinctDests hT →
    ∃ (hT' hR' : Heap) (tr : Trace) (f : Nat),
      executeWork (hT.set d ⟨r, none⟩) ((hT.get d).cont, d) = some (hT', tr) ∧
      dispatchR f (.sat d) (hR.setVal d r) = some (hR', tr) ∧
      RelS S hR' hT' ∧
      (∀ x, x ∈ S → (hT'.get x).val = (hT.get x).val) ∧
      Nat.max hT.size (d + 1) ≤ hT'.size

/-- The coupling statement at one `continue_with` call. -/
def CwStmt (n : Nat) : Prop :=
  ∀ (hT hR : Heap) (S : List Nat) (c : FutureCont) (s : Nat) (v : FVal),
    hT.storedCount ≤ n → RelS S hR hT →
    (∀ x, x ∈ S → (hT.get x).val ≠ .empty) →
    (hT.get s).val = v → v ≠ .empty → c.dest ∉ S →
    (∀ x c', (hT.get x).cont = some c' → c'.dest ∉ S ∧ c'.dest ≠ c.dest) →
    DistinctDests hT →
    ∃ (hT' hR' : Heap) (tr : Trace) (f : Nat),
      executeFuture hT c s = some (hT', tr) ∧
      dispatchR f (.cw c v) hR = some (hR', tr) ∧
      RelS S hR' hT' ∧
      (∀ x, x ∈ S → (hT'.get x).val = (hT.get x).val) ∧
      hT.size ≤ hT'.size

theorem dispatchR_cw_plain (f l dest x : Nat) (g : Nat → Except Err Nat) (h : Heap) :
    dispatchR (f + 1) (.cw (.thenC l (.fnPlain g) dest) (.value x)) h =
      (dispatchR f (.sat dest) (h.setVal dest (invokeResult (g x)))).map
        (fun r => (r.1, .invokeThen l x :: r.2)) := by
  rw [dispatchR]

theorem dispatchR_cw_fnFut (f l : Nat) (st : Option Nat) (dest x : Nat) (h : Heap) :
    dispatchR (f + 1) (.cw (.thenC l (.fnFut st) dest) (.value x)) h =
      (dispatchR f (.att st dest) h).map (fun r => (r.1, .invokeThen l x :: r.2)) := by
  rw [dispatchR]

theorem dispatchR_cw_thenErr (f l dest : Nat) (k : FnK) (e : Err) (h : Heap) :
    dispatchR (f + 1) (.cw (.thenC l k dest) (.error e)) h =
      dispatchR f (.sat dest) (h.setVal dest (.error e)) := by
  cases k <;> rw [dispatchR]

theorem dispatchR_cw_catchVal (f l dest x : Nat) (k : CatchK) (h : Heap) :
    dispatchR (f + 1) (.cw (.catchC l k dest) (.value x)) h =
      dispatchR f (.sat dest) (h.setVal dest (.value x)) := by
  cases k <;> rw [dispatchR]

theorem dispatchR_cw_catchPlain (f l dest : Nat) (g : Err → Except Err Nat) (e : Err)
    (h : Heap) :
    dispatchR (f + 1) (.cw (.catchC l (.cPlain g) dest) (.error e)) h =
      (dispatchR f (.sat dest) (h.setVal dest (invokeResult (g e)))).map
        (fun r => (r.1, .invokeCatch l e :: r.2)) := by
  rw [dispatchR]

theorem dispatchR_cw_cFut (f l : Nat) (st : Option Nat) (dest : Nat) (e : Err) (h : Heap) :
    dispatchR (f + 1) (.cw (.catchC l (.cFut st) dest) (.error e)) h =
      (dispatchR f (.att st dest) h).map (fun r => (r.1, .invokeCatch l e :: r.2)) := by
  rw [dispatchR]

theorem dispatchR_cw_attach (f dest : Nat) (v : FVal) (h : Heap) :
    dispatchR (f + 1) (.cw (.attachC dest) v) h =
      dispatchR f (.sat dest) (h.setVal dest v) := by
  rw [dispatchR]

theorem dispatchR_att_none (f dest : Nat) (h : Heap) :
    dispatchR (f + 1) (.att none dest) h =
      dispatchR f (.sat dest) (h.setVal dest (.error (.futureError "invalid future"))) := by
  rw [dispatchR]

theorem dispatchR_att_ready (f y dest : Nat) (h : Heap) (hr : h.ready y = true) :
    dispatchR (f + 1) (.att (some y) dest) h =
      dispatchR f (.sat dest) (h.setVal dest ((h.get y).val)) := by
  rw [dispatchR]
  simp [hr]

theorem dispatchR_att_pend (f y dest : Nat) (h : Heap) (hr : h.ready y = false) :
    dispatchR (f + 1) (.att (some y) dest) h = dispatchR f (.chn y (.attachC dest)) h := by
  rw [dispatchR]
  simp [hr]

theorem dispatchR_chn_pend (f y : Nat) (c : FutureCont) (h : Heap) (hr : h.ready y = false) :
    dispatchR (f + 1) (.chn y c) h = some (h.set y { h.get y with cont := some c }, []) := by
  rw [dispatchR]
  simp [hr]

theorem dispatchR_chn_ready (f y : Nat) (c : FutureCont) (h : Heap) (hr : h.ready y = true) :
    dispatchR (f + 1) (.chn y c) h = dispatchR f (.cw c ((h.get y).val)) h := by
  rw [dispatchR]
  simp [hr]

theorem dispatchR_sat_none (f d : Nat) (h : Heap) (hc : (h.get d).cont = none) :
    dispatchR (f + 1) (.sat d) h = some (h, []) := by
  rw [dispatchR, hc]

theorem dispatchR_sat_some (f d : Nat) (c : FutureCont) (h : Heap)
    (hc : (h.get d).cont = some c) :
    dispatchR (f + 1) (.sat d) h =
      (dispatchR f (.cw c ((h.get d).val)) h).map
        (fun r => (r.1.set d { r.1.get d with cont := none }, r.2)) := by
  rw [dispatchR, hc]


/-- The `continue_with` coupling follows from the settle coupling at
the same bound: every branch of the merged virtual dispatch either
funnels into one settle call (with the same user event prefix on both
sides) or parks an attach continuation identically on both sides. -/
theorem cw_of_sat (n : Nat) (hsat : SatStmt n) : CwStmt n := by
  intro hT hR S c s v hcnt hrel hS hval hv hdS hnr hdist
  have hglue : ∀ (r : FVal) (ev : Trace), r ≠ .empty →
      continueWith c s hT =
        some (((hT.get c.dest).cont, c.dest), hT.set c.dest ⟨r, none⟩, ev) →
      (∀ (f₀ : Nat) (out : Heap × Trace),
        dispatchR f₀ (.sat c.dest) (hR.setVal c.dest r) = some out →
        ∃ f, dispatchR f (.cw c v) hR = some (out.1, ev ++ out.2)) →
      ∃ (hT' hR' : Heap) (tr : Trace) (f : Nat),
        executeFuture hT c s = some (hT', tr) ∧
        dispatchR f (.cw c v) hR = some (hR', tr) ∧ RelS S hR' hT' ∧
        (∀ x, x ∈ S → (hT'.get x).val = (hT.get x).val) ∧ hT.size ≤ hT'.size := by
    intro r ev hre hcw hcb
    obtain ⟨hT', hR', tr, f₀, hTw, hRw, hrel', hpres, hsz⟩ :=
      hsat hT hR S c.dest r hcnt hrel hS hre hdS hnr hdist
    obtain ⟨f, hRf⟩ := hcb f₀ (hR', tr) hRw
    refine ⟨hT', hR', ev ++ tr, f, ?_, hRf, hrel', hpres, ?_⟩
    · rw [executeFuture_cw hT _ c s _ ev hcw, hTw]
      rfl
    · calc hT.size ≤ Nat.max hT.size (c.dest + 1) := Nat.le_max_left _ _
        _ ≤ hT'.size := hsz
  match c with
  | .thenC l k dest =>
    match v with
    | .empty => exact absurd rfl hv
    | .value x =>
      match k with
      | .fnPlain g =>
        refine hglue (invokeResult (g x)) [.invokeThen l x] (invokeResult_ne_empty _)
          ?_ ?_
        · simp only [continueWith, Heap.moveValue, hval, settleNext_eq,
            FutureCont.dest_thenC]
        · intro f₀ out hout
          dsimp only [FutureCont.dest_thenC] at hout
          refine ⟨f₀ + 1, ?_⟩
          rw [dispatchR_cw_plain, hout]
          rfl
      | .fnFut st =>
        match st with
        | none =>
          refine hglue (.error (.futureError "invalid future")) [.invokeThen l x]
            (by intro hc; cases hc) ?_ ?_
          · simp only [continueWith, Heap.moveValue, hval, attachFuture_null,
              FutureCont.dest_thenC]
          · intro f₀ out hout
            dsimp only [FutureCont.dest_thenC] at hout
            refine ⟨f₀ + 1 + 1, ?_⟩
            rw [dispatchR_cw_fnFut, dispatchR_att_none, hout]
            rfl
        | some y =>
          rcases hTready : hT.ready y with - | -
          · -- pending inner future: both sides park the attach and stop
            have hRready : hR.ready y = false := by
              rw [hrel.ready_congr y]
              exact hTready
            have hyS : y ∉ S := by
              intro hyS
              exact hS y hyS (hT.val_empty_of_not_ready y hTready)
            have hcw : continueWith (.thenC l (.fnFut (some y)) dest) s hT =
                some ((none, y),
                  hT.set y { hT.get y with cont := some (.attachC dest) },
                  [.invokeThen l x]) := by
              simp only [continueWith, Heap.moveValue, hval,
                attachFuture_pend y dest hT hTready]
            refine ⟨hT.set y { hT.get y with cont := some (.attachC dest) },
              hR.set y { hR.get y with cont := some (.attachC dest) },
              [.invokeThen l x], 1 + 1 + 1, ?_, ?_, ?_, ?_, ?_⟩
            · rw [executeFuture_cw hT _ _ s _ _ hcw]
              rfl
            · rw [dispatchR_cw_fnFut, dispatchR_att_pend _ _ _ _ hRready,
                dispatchR_chn_pend _ _ _ _ hRready]
              rfl
            · refine ⟨?_, ?_, ?_, ?_⟩
              · intro z
                simp only [Heap.get_set]
                by_cases hzy : z = y
                · rw [if_pos hzy, if_pos hzy]
                  exact hrel.1 y
                · rw [if_neg hzy, if_neg hzy]
                  exact hrel.1 z
              · intro z hz
                simp only [Heap.get_set]
                by_cases hzy : z = y
                · rw [if_pos hzy, if_pos hzy]
                · rw [if_neg hzy, if_neg hzy]
                  exact hrel.2.1 z hz
              · intro z hz
                have hzy : z ≠ y := fun hzy => hyS (hzy ▸ hz)
                simp only [Heap.get_set, if_neg hzy]
                exact hrel.2.2.1 z hz
              · simp only [Heap.size_set, hrel.2.2.2]
            · intro z hz
              have hzy : z ≠ y := fun hzy => hyS (hzy ▸ hz)
              simp only [Heap.get_set, if_neg hzy]
            · simp only [Heap.size_set]
              exact Nat.le_max_left _ _
          · -- ready inner future: both settle with the inner value
            have hRready : hR.ready y = true := by
              rw [hrel.ready_congr y]
              exact hTready
            refine hglue ((hT.get y).val) [.invokeThen l x]
              (hT.val_ne_empty_of_ready y hTready) ?_ ?_
            · simp only [continueWith, Heap.moveValue, hval,
                attachFuture_ready y dest hT hTready, FutureCont.dest_thenC]
            · intro f₀ out hout
              dsimp only [FutureCont.dest_thenC] at hout
              refine ⟨f₀ + 1 + 1, ?_⟩
              rw [dispatchR_cw_fnFut, dispatchR_att_ready _ _ _ _ hRready,
                hrel.1 y, hout]
              rfl
    | .error e =>
      refine hglue (.error e) [] (by intro hc; cases hc) ?_ ?_
      · simp only [continueWith, Heap.moveValue, hval, settleNext_eq,
          FutureCont.dest_thenC]
      · intro f₀ out hout
        dsimp only [FutureCont.dest_thenC] at hout
        refine ⟨f₀ + 1, ?_⟩
        rw [dispatchR_cw_thenErr, hout]
        rfl
  | .catchC l k dest =>
    match v with
    | .empty => exact absurd rfl hv
    | .value x =>
      refine hglue (.value x) [] (by intro hc; cases hc) ?_ ?_
      · simp only [continueWith, Heap.moveValue, hval, settleNext_eq,
          FutureCont.dest_catchC]
      · intro f₀ out hout
        dsimp only [FutureCont.dest_catchC] at hout
        refine ⟨f₀ + 1, ?_⟩
        rw [dispatchR_cw_catchVal, hout]
        rfl
    | .error e =>
      match k with
      | .cPlain g =>
        refine hglue (invokeResult (g e)) [.invokeCatch l e] (invokeResult_ne_empty _)
          ?_ ?_
        · simp only [continueWith, Heap.moveValue, hval, settleNext_eq,
            FutureCont.dest_catchC]
        · intro f₀ out hout
          dsimp only [FutureCont.dest_catchC] at hout
          refine ⟨f₀ + 1, ?_⟩
          rw [dispatchR_cw_catchPlain, hout]
          rfl
      | .cFut st =>
        match st with
        | none =>
          refine hglue (.error (.futureError "invalid future")) [.invokeCatch l e]
            (by intro hc; cases hc) ?_ ?_
          · simp only [continueWith, Heap.moveValue, hval, attachFuture_null,
              FutureCont.dest_catchC]
          · intro f₀ out hout
            dsimp only [FutureCont.dest_catchC] at hout
            refine ⟨f₀ + 1 + 1, ?_⟩
            rw [dispatchR_cw_cFut, dispatchR_att_none, hout]
            rfl
        | some y =>
          rcases hTready : hT.ready y with - | -
          · have hRready : hR.ready y = false := by
              rw [hrel.ready_congr y]
              exact hTready
            have hyS : y ∉ S := by
              intro hyS
              exact hS y hyS (hT.val_empty_of_not_ready y hTready)
            have hcw : continueWith (.catchC l (.cFut (some y)) dest) s hT =
                some ((none, y),
                  hT.set y { hT.get y with cont := some (.attachC dest) },
                  [.invokeCatch l e]) := by
              simp only [continueWith, Heap.moveValue, hval,
                attachFuture_pend y dest hT hTready]
            refine ⟨hT.set y { hT.get y with cont := some (.attachC dest) },
              hR.set y { hR.get y with cont := some (.attachC dest) },
              [.invokeCatch l e], 1 + 1 + 1, ?_, ?_, ?_, ?_, ?_⟩
            · rw [executeFuture_cw hT _ _ s _ _ hcw]
              rfl
            · rw [dispatchR_cw_cFut, dispatchR_att_pend _ _ _ _ hRready,
                dispatchR_chn_pend _ _ _ _ hRready]
              rfl
            · refine ⟨?_, ?_, ?_, ?_⟩
              · intro z
                simp only [Heap.get_set]
                by_cases hzy : z = y
                · rw [if_pos hzy, if_pos hzy]
                  exact hrel.1 y
                · rw [if_neg hzy, if_neg hzy]
                  exact hrel.1 z
              · intro z hz
                simp only [Heap.get_set]
                by_cases hzy : z = y
                · rw [if_pos hzy, if_pos hzy]
                · rw [if_neg hzy, if_neg hzy]
                  exact hrel.2.1 z hz
              · intro z hz
                have hzy : z ≠ y := fun hzy => hyS (hzy ▸ hz)
                simp only [Heap.get_set, if_neg hzy]
                exact hrel.2.2.1 z hz
              · simp only [Heap.size_set, hrel.2.2.2]
            · intro z hz
              have hzy : z ≠ y := fun hzy => hyS (hzy ▸ hz)
              simp only [Heap.get_set, if_neg hzy]
            · simp only [Heap.size_set]
              exact Nat.le_max_left _ _
          · have hRready : hR.ready y = true := by
              rw [hrel.ready_congr y]
              exact hTready
            refine hglue ((hT.get y).val) [.invokeCatch l e]
              (hT.val_ne_empty_of_ready y hTready) ?_ ?_
            · simp only [continueWith, Heap.moveValue, hval,
                attachFuture_ready y dest hT hTready, FutureCont.dest_catchC]
            · intro f₀ out hout
              dsimp only [FutureCont.dest_catchC] at hout
              refine ⟨f₀ + 1 + 1, ?_⟩
              rw [dispatchR_cw_cFut, dispatchR_att_ready _ _ _ _ hRready,
                hrel.1 y, hout]
              rfl
  | .attachC dest =>
    refine hglue v [] hv ?_ ?_
    · simp only [continueWith, Heap.moveValue, hval, settleNext_eq,
        FutureCont.dest_attachC]
    · intro f₀ out hout
      dsimp only [FutureCont.dest_attachC] at hout
      refine ⟨f₀ + 1, ?_⟩
      rw [dispatchR_cw_attach, hout]
      rfl

theorem Heap.get_set_self (h : Heap) (i : Nat) (s : FutureState) : (h.set i s).get i = s := by
  simp

theorem Heap.get_set_ne (h : Heap) (i j : Nat) (s : FutureState) (hij : j ≠ i) :
    (h.set i s).get j = h.get j := by
  simp [hij]

theorem Heap.get_setVal_self (h : Heap) (i : Nat) (v : FVal) :
    (h.setVal i v).get i = { h.get i with val := v } := by
  simp

theorem Heap.get_setVal_ne (h : Heap) (i j : Nat) (v : FVal) (hij : j ≠ i) :
    (h.setVal i v).get j = h.get j := by
  simp [hij]

/-- **The settle coupling**, by strong induction on the number of
stored continuations: the recursive `satisfy` of `Future.cpp` and the
trampolined settle-then-take of `part_000` produce identical traces and
related heaps. -/
theorem couple : ∀ n, SatStmt n := by
  intro n
  induction n using Nat.strong_induction_on with
  | _ n ih =>
    intro hT hR S d r hcnt hrel hS hre hdS hnr hdist
    have hcontd : (hR.get d).cont = (hT.get d).cont := hrel.2.1 d hdS
    rcases hc : (hT.get d).cont with - | c₁
    · -- no continuation chained on `d`: both sides just write the cell
      refine ⟨hT.set d ⟨r, none⟩, hR.setVal d r, [], 1, ?_, ?_, ?_, ?_, ?_⟩
      · rfl
      · refine dispatchR_sat_none 0 d (hR.setVal d r) ?_
        have : ((hR.setVal d r).get d).cont = (hR.get d).cont := by
          rw [Heap.get_setVal_self]
        rw [this, hcontd, hc]
      · refine ⟨?_, ?_, ?_, ?_⟩
        · intro z
          by_cases hzd : z = d
          · subst hzd
            rw [Heap.get_setVal_self, Heap.get_set_self]
          · rw [Heap.get_setVal_ne _ _ _ _ hzd, Heap.get_set_ne _ _ _ _ hzd]
            exact hrel.1 z
        · intro z hz
          by_cases hzd : z = d
          · rw [hzd, Heap.get_setVal_self, Heap.get_set_self]
            show (hR.get d).cont = none
            rw [hcontd, hc]
          · rw [Heap.get_setVal_ne _ _ _ _ hzd, Heap.get_set_ne _ _ _ _ hzd]
            exact hrel.2.1 z hz
        · intro z hz
          have hzd : z ≠ d := fun hzd => hdS (hzd ▸ hz)
          rw [Heap.get_set_ne _ _ _ _ hzd]
          exact hrel.2.2.1 z hz
        · simp only [Heap.setVal, Heap.size_set, hrel.2.2.2]
      · intro z hz
        have hzd : z ≠ d := fun hzd => hdS (hzd ▸ hz)
        rw [Heap.get_set_ne _ _ _ _ hzd]
      · exact Nat.le_refl _
    · -- a continuation was chained on `d`: the recursive side runs it
      -- with `d` still on its stack, the trampoline first clears `d`
      have hlt : (hT.set d ⟨r, none⟩).storedCount < hT.storedCount :=
        hT.storedCount_clear_lt d c₁ hc _ rfl
      have hcwm : CwStmt ((hT.set d ⟨r, none⟩).storedCount) :=
        cw_of_sat _ (ih _ (by omega))
      obtain ⟨hdS', hdd⟩ := hnr d c₁ hc
      obtain ⟨hT2, hR2, tr, f, hTef, hRd, hrel2, hpres2, hsz2⟩ :=
        hcwm (hT.set d ⟨r, none⟩) (hR.setVal d r) (d :: S) c₁ d r (Nat.le_refl _)
          (by
            refine ⟨?_, ?_, ?_, ?_⟩
            · intro z
              by_cases hzd : z = d
              · subst hzd
                rw [Heap.get_setVal_self, Heap.get_set_self]
              · rw [Heap.get_setVal_ne _ _ _ _ hzd, Heap.get_set_ne _ _ _ _ hzd]
                exact hrel.1 z
            · intro z hz
              simp only [List.mem_cons, not_or] at hz
              rw [Heap.get_setVal_ne _ _ _ _ hz.1, Heap.get_set_ne _ _ _ _ hz.1]
              exact hrel.2.1 z hz.2
            · intro z hz
              simp only [List.mem_cons] at hz
              rcases hz with hzd | hz
              · subst hzd
                rw [Heap.get_set_self]
              · have hzd : z ≠ d := fun hzd => hdS (hzd ▸ hz)
                rw [Heap.get_set_ne _ _ _ _ hzd]
                exact hrel.2.2.1 z hz
            · simp only [Heap.setVal, Heap.size_set, hrel.2.2.2])
          (by
            intro z hz
            simp only [List.mem_cons] at hz
            rcases hz with hzd | hz
            · subst hzd
              rw [Heap.get_set_self]
              exact hre
            · have hzd : z ≠ d := fun hzd => hdS (hzd ▸ hz)
              rw [Heap.get_set_ne _ _ _ _ hzd]
              exact hS z hz)
          (by rw [Heap.get_set_self])
          hre
          (by
            simp only [List.mem_cons, not_or]
            exact ⟨hdd, hdS'⟩)
          (by
            intro z c' hc'
            by_cases hzd : z = d
            · subst hzd
              rw [Heap.get_set_self] at hc'
              simp at hc'
            · rw [Heap.get_set_ne _ _ _ _ hzd] at hc'
              obtain ⟨h1, h2⟩ := hnr z c' hc'
              refine ⟨?_, hdist z d c' c₁ hzd hc' hc⟩
              simp only [List.mem_cons, not_or]
              exact ⟨h2, h1⟩)
          (by
            intro z₁ z₂ c₁' c₂' hzz hc₁' hc₂'
            by_cases h₁ : z₁ = d
            · subst h₁
              rw [Heap.get_set_self] at hc₁'
              simp at hc₁'
            · by_cases h₂ : z₂ = d
              · subst h₂
                rw [Heap.get_set_self] at hc₂'
                simp at hc₂'
              · rw [Heap.get_set_ne _ _ _ _ h₁] at hc₁'
                rw [Heap.get_set_ne _ _ _ _ h₂] at hc₂'
                exact hdist z₁ z₂ c₁' c₂' hzz hc₁' hc₂')
      have hd1 : d + 1 ≤ hR2.size := by
        have h1 : d + 1 ≤ (hT.set d ⟨r, none⟩).size := by
          simp only [Heap.size_set]
          exact Nat.le_max_right _ _
        calc d + 1 ≤ (hT.set d ⟨r, none⟩).size := h1
          _ ≤ hT2.size := hsz2
          _ = hR2.size := hrel2.2.2.2.symm
      refine ⟨hT2, hR2.set d { hR2.get d with cont := none }, tr, f + 1, ?_, ?_, ?_, ?_, ?_⟩
      · exact hTef
      · rw [dispatchR_sat_some f d c₁ (hR.setVal d r)
          (by
            have : ((hR.setVal d r).get d).cont = (hR.get d).cont := by
              rw [Heap.get_setVal_self]
            rw [this, hcontd, hc])]
        have hval1 : (((hR.setVal d r).get d).val) = r := by
          rw [Heap.get_setVal_self]
        rw [hval1, hRd]
        rfl
      · refine ⟨?_, ?_, ?_, ?_⟩
        · intro z
          by_cases hzd : z = d
          · rw [hzd, Heap.get_set_self]
            exact hrel2.1 d
          · rw [Heap.get_set_ne _ _ _ _ hzd]
            exact hrel2.1 z
        · intro z hz
          by_cases hzd : z = d
          · rw [hzd, Heap.get_set_self]
            exact (hrel2.2.2.1 d (List.mem_cons_self d S)).symm
          · rw [Heap.get_set_ne _ _ _ _ hzd]
            exact hrel2.2.1 z (by
              simp only [List.mem_cons, not_or]
              exact ⟨hzd, hz⟩)
        · intro z hz
          exact hrel2.2.2.1 z (List.mem_cons_of_mem d hz)
        · simp only [Heap.size_set]
          exact (Nat.max_eq_left hd1).trans hrel2.2.2.2
      · intro z hz
        have hzd : z ≠ d := fun hzd => hdS (hzd ▸ hz)
        have h1 := hpres2 z (List.mem_cons_of_mem d hz)
        rw [Heap.get_set_ne _ _ _ _ hzd] at h1
        exact h1
      · calc Nat.max hT.size (d + 1) = (hT.set d ⟨r, none⟩).size := rfl
          _ ≤ hT2.size := hsz2

theorem RelS_refl (h : Heap) : RelS [] h h :=
  ⟨fun _ => rfl, fun _ _ => rfl, fun x hx => absurd hx (List.not_mem_nil x), rfl⟩

/-- `promise::satisfy` produces the same result and trace in both
implementations (given enough stack for the recursive one). -/
theorem promiseSatisfy_couple (h : Heap) (s : Nat) (arg : FVal) (P : Nat → Prop)
    (hok : StoredOK h P) (hsP : P s) (harg : arg ≠ .empty) :
    ∃ (h' : Heap) (tr : Trace) (f : Nat), promiseSatisfy h s arg = some (h', tr) ∧
      ∀ f', f ≤ f' → promiseSatisfyR f' h s arg = some (h', tr) := by
  obtain ⟨hT', hR', tr, f, hTw, hRw, hrel', -, -⟩ :=
    couple h.storedCount h h [] s arg (Nat.le_refl _) (RelS_refl h)
      (fun x hx => absurd hx (List.not_mem_nil x)) harg (List.not_mem_nil s)
      (fun x c' hc' =>
        ⟨List.not_mem_nil _, fun hds =>
          (hok.1 x c' hc').2.1 (hds ▸ hsP)⟩)
      hok.2
  have heq : hR' = hT' := hrel'.nil_eq
  subst heq
  refine ⟨hR', tr, f, ?_, ?_⟩
  · rw [promiseSatisfy_as_settle]
    exact hTw
  · intro f' hf'
    rw [promiseSatisfyR]
    exact dispatchR_mono_le f f' _ _ _ hf' hRw

/-- `future::then` produces the same downstream state, heap and trace
in both implementations. -/
theorem futureThen_couple (h : Heap) (src l : Nat) (k : FnK) (P : Nat → Prop)
    (hok : StoredOK h P) :
    ∃ (h' : Heap) (tr : Trace) (f : Nat), futureThen h src l k = some (h', h.size, tr) ∧
      ∀ f', f ≤ f' → futureThenR f' h src l k = some (h', h.size, tr) := by
  have hok1 : ∀ (x : Nat) (c' : FutureCont),
      ((h.set h.size FutureState.init).get x).cont = some c' → c'.dest < h.size := by
    intro x c' hc'
    rw [Heap.get_allocFresh] at hc'
    exact (hok.1 x c' hc').2.2
  have hdist1 : DistinctDests (h.set h.size FutureState.init) := by
    intro x₁ x₂ c₁ c₂ hxx hc₁ hc₂
    rw [Heap.get_allocFresh] at hc₁ hc₂
    exact hok.2 x₁ x₂ c₁ c₂ hxx hc₁ hc₂
  rcases hready : (h.set h.size FutureState.init).ready src with - | -
  · -- pending source: both store the continuation and stop
    refine ⟨(h.set h.size FutureState.init).set src
      { (h.set h.size FutureState.init).get src with
        cont := some (.thenC l k h.size) }, [], 1, ?_, ?_⟩
    · unfold futureThen Heap.alloc
      dsimp only
      rw [chain_pend _ _ _ hready]
      dsimp only [executeWork]
    · intro f' hf'
      have h1 : futureThenR 1 h src l k =
          some ((h.set h.size FutureState.init).set src
            { (h.set h.size FutureState.init).get src with
              cont := some (.thenC l k h.size) }, h.size, []) := by
        unfold futureThenR Heap.alloc
        dsimp only
        rw [dispatchR_chn_pend _ _ _ _ hready]
        rfl
      have hmono : ∀ g g', g ≤ g' → ∀ r, futureThenR g h src l k = some r →
          futureThenR g' h src l k = some r := by
        intro g g' hg r hr
        unfold futureThenR Heap.alloc at hr ⊢
        dsimp only at hr ⊢
        rcases hd : dispatchR g (.chn src (.thenC l k h.size))
            (h.set h.size FutureState.init) with - | r₁
        · rw [hd] at hr
          simp at hr
        · rw [hd] at hr
          rw [dispatchR_mono_le g g' _ _ _ hg hd]
          exact hr
      exact hmono 1 f' hf' _ h1
  · -- ready source: both run the chained continuation at once
    obtain ⟨hT', hR', tr, f, hTef, hRd, hrel', -, -⟩ :=
      cw_of_sat _ (couple (h.set h.size FutureState.init).storedCount)
        (h.set h.size FutureState.init) (h.set h.size FutureState.init) []
        (.thenC l k h.size) src ((h.set h.size FutureState.init).get src).val
        (Nat.le_refl _) (RelS_refl _)
        (fun x hx => absurd hx (List.not_mem_nil x)) rfl
        ((h.set h.size FutureState.init).val_ne_empty_of_ready src hready)
        (List.not_mem_nil _)
        (fun x c' hc' =>
          ⟨List.not_mem_nil _, by
            simp only [FutureCont.dest_thenC]
            have := hok1 x c' hc'
            omega⟩)
        hdist1
    have heq : hR' = hT' := hrel'.nil_eq
    subst heq
    refine ⟨hR', tr, f + 1, ?_, ?_⟩
    · unfold futureThen Heap.alloc
      dsimp only
      rw [chain_ready _ _ _ hready]
      dsimp only [executeWork]
      rw [hTef]
    · intro f' hf'
      have h1 : futureThenR (f + 1) h src l k = some (hR', h.size, tr) := by
        unfold futureThenR Heap.alloc
        dsimp only
        rw [dispatchR_chn_ready _ _ _ _ hready, hRd]
        rfl
      have hmono : ∀ g g', g ≤ g' → ∀ r, futureThenR g h src l k = some r →
          futureThenR g' h src l k = some r := by
        intro g g' hg r hr
        unfold futureThenR Heap.alloc at hr ⊢
        dsimp only at hr ⊢
        rcases hd : dispatchR g (.chn src (.thenC l k h.size))
            (h.set h.size FutureState.init) with - | r₁
        · rw [hd] at hr
          simp at hr
        · rw [hd] at hr
          rw [dispatchR_mono_le g g' _ _ _ hg hd]
          exact hr
      exact hmono (f + 1) f' hf' _ h1

/-- `future::catch_exception` produces the same downstream state, heap
and trace in both implementations. -/
theorem futureCatch_couple (h : Heap) (src l : Nat) (k : CatchK) (P : Nat → Prop)
    (hok : StoredOK h P) :
    ∃ (h' : Heap) (tr : Trace) (f : Nat), futureCatch h src l k = some (h', h.size, tr) ∧
      ∀ f', f ≤ f' → futureCatchR f' h src l k = some (h', h.size, tr) := by
  have hok1 : ∀ (x : Nat) (c' : FutureCont),
      ((h.set h.size FutureState.init).get x).cont = some c' → c'.dest < h.size := by
    intro x c' hc'
    rw [Heap.get_allocFresh] at hc'
    exact (hok.1 x c' hc').2.2
  have hdist1 : DistinctDests (h.set h.size FutureState.init) := by
    intro x₁ x₂ c₁ c₂ hxx hc₁ hc₂
    rw [Heap.get_allocFresh] at hc₁ hc₂
    exact hok.2 x₁ x₂ c₁ c₂ hxx hc₁ hc₂
  rcases hready : (h.set h.size FutureState.init).ready src with - | -
  · refine ⟨(h.set h.size FutureState.init).set src
      { (h.set h.size FutureState.init).get src with
        cont := some (.catchC l k h.size) }, [], 1, ?_, ?_⟩
    · unfold futureCatch Heap.alloc
      dsimp only
      rw [chain_pend _ _ _ hready]
      dsimp only [executeWork]
    · intro f' hf'
      have h1 : futureCatchR 1 h src l k =
          some ((h.set h.size FutureState.init).set src
            { (h.set h.size FutureState.init).get src with
              cont := some (.catchC l k h.size) }, h.size, []) := by
        unfold futureCatchR Heap.alloc
        dsimp only
        rw [dispatchR_chn_pend _ _ _ _ hready]
        rfl
      have hmono : ∀ g g', g ≤ g' → ∀ r, futureCatchR g h src l k = some r →
          futureCatchR g' h src l k = some r := by
        intro g g' hg r hr
        unfold futureCatchR Heap.alloc at hr ⊢
        dsimp only at hr ⊢
        rcases hd : dispatchR g (.chn src (.catchC l k h.size))
            (h.set h.size FutureState.init) with - | r₁
        · rw [hd] at hr
          simp at hr
        · rw [hd] at hr
          rw [dispatchR_mono_le g g' _ _ _ hg hd]
          exact hr
      exact hmono 1 f' hf' _ h1
  · obtain ⟨hT', hR', tr, f, hTef, hRd, hrel', -, -⟩ :=
      cw_of_sat _ (couple (h.set h.size FutureState.init).storedCount)
        (h.set h.size FutureState.init) (h.set h.size FutureState.init) []
        (.catchC l k h.size) src ((h.set h.size FutureState.init).get src).val
        (Nat.le_refl _) (RelS_refl _)
        (fun x hx => absurd hx (List.not_mem_nil x)) rfl
        ((h.set h.size FutureState.init).val_ne_empty_of_ready src hready)
        (List.not_mem_nil _)
        (fun x c' hc' =>
          ⟨List.not_mem_nil _, by
            simp only [FutureCont.dest_catchC]
            have := hok1 x c' hc'
            omega⟩)
        hdist1
    have heq : hR' = hT' := hrel'.nil_eq
    subst heq
    refine ⟨hR', tr, f + 1, ?_, ?_⟩
    · unfold futureCatch Heap.alloc
      dsimp only
      rw [chain_ready _ _ _ hready]
      dsimp only [executeWork]
      rw [hTef]
    · intro f' hf'
      have h1 : futureCatchR (f + 1) h src l k = some (hR', h.size, tr) := by
        unfold futureCatchR Heap.alloc
        dsimp only
        rw [dispatchR_chn_ready _ _ _ _ hready, hRd]
        rfl
      have hmono : ∀ g g', g ≤ g' → ∀ r, futureCatchR g h src l k = some r →
          futureCatchR g' h src l k = some r := by
        intro g g' hg r hr
        unfold futureCatchR Heap.alloc at hr ⊢
        dsimp only at hr ⊢
        rcases hd : dispatchR g (.chn src (.catchC l k h.size))
            (h.set h.size FutureState.init) with - | r₁
        · rw [hd] at hr
          simp at hr
        · rw [hd] at hr
          rw [dispatchR_mono_le g g' _ _ _ hg hd]
          exact hr
      exact hmono (f + 1) f' hf' _ h1

/-- `future::then` of `Future.cpp` at the handle level. -/
def Fut.thenFR (fuel : Nat) (h : Heap) (f : Fut) (l : Nat) (k : FnK) :
    Fut × ApiOut (Fut × Heap × Trace) :=
  match f.st with
  | none => (⟨none⟩, .raised "invalid future")
  | some s =>
    match futureThenR fuel h s l k with
    | none => (⟨none⟩, .fault)
    | some (h', d, tr) => (⟨none⟩, .ok (⟨some d⟩, h', tr))

/-- `future::catch_exception` of `Future.cpp` at the handle level. -/
def Fut.catchFR (fuel : Nat) (h : Heap) (f : Fut) (l : Nat) (k : CatchK) :
    Fut × ApiOut (Fut × Heap × Trace) :=
  match f.st with
  | none => (⟨none⟩, .raised "invalid future")
  | some s =>
    match futureCatchR fuel h s l k with
    | none => (⟨none⟩, .fault)
    | some (h', d, tr) => (⟨none⟩, .ok (⟨some d⟩, h', tr))

/-- `promise::set_value` of `Future.cpp` at the handle level. -/
def Prom.setValueR (fuel : Nat) (h : Heap) (p : Prom) (v : Nat) :
    Prom × ApiOut (Heap × Trace) :=
  match p.st with
  | none => (p, .raised "promise already satisfied")
  | some s =>
    match promiseSatisfyR fuel h s (.value v) with
    | none => (⟨none⟩, .fault)
    | some r => (⟨none⟩, .ok r)

/-- `promise::set_exception` of `Future.cpp` at the handle level. -/
def Prom.setExceptionR (fuel : Nat) (h : Heap) (p : Prom) (e : Err) :
    Prom × ApiOut (Heap × Trace) :=
  match p.st with
  | none => (p, .raised "promise already satisfied")
  | some s =>
    match promiseSatisfyR fuel h s (.error e) with
    | none => (⟨none⟩, .fault)
    | some r => (⟨none⟩, .ok r)

/-- `promise_base::~promise_base` of `Future.cpp` at the handle level. -/
def Prom.dropR (fuel : Nat) (h : Heap) (p : Prom) : ApiOut (Heap × Trace) :=
  match p.st with
  | none => .ok (h, [])
  | some s =>
    match promiseSatisfyR fuel h s (.error (.futureError "broken promise")) with
    | none => .fault
    | some r => .ok r

/-- Run one API call against the recursive implementation of
`Future.cpp`, with recursion budget `fuel` for each dispatch. -/
def runStepR (fuel : Nat) (cfg : Config) : ApiStep → Option (Config × Trace)
  | .mkProm =>
    let ((p, f), h') := makePromise cfg.heap
    some (⟨h', ⟨cfg.env.futs ++ [f], cfg.env.prms ++ [p]⟩⟩, [])
  | .mkReady v =>
    let (f, h') := makeReadyFuture cfg.heap v
    some (⟨h', ⟨cfg.env.futs ++ [f], cfg.env.prms⟩⟩, [])
  | .mkExc e =>
    let (f, h') := makeExceptionalFuture cfg.heap e
    some (⟨h', ⟨cfg.env.futs ++ [f], cfg.env.prms⟩⟩, [])
  | .thenS fid l g =>
    match Fut.thenFR fuel cfg.heap (cfg.env.getFut fid) l (.fnPlain g) with
    | (f', .raised w) =>
      some (⟨cfg.heap, ⟨(cfg.env.futs.set fid f') ++ [⟨none⟩], cfg.env.prms⟩⟩, [.apiRaise w])
    | (_, .fault) => none
    | (f', .ok (fd, h', tr)) =>
      some (⟨h', ⟨(cfg.env.futs.set fid f') ++ [fd], cfg.env.prms⟩⟩, tr)
  | .thenFutS fid l cfid =>
    let inner := cfg.env.getFut cfid
    let env1 : Env := ⟨cfg.env.futs.set cfid ⟨none⟩, cfg.env.prms⟩
    match Fut.thenFR fuel cfg.heap (env1.getFut fid) l (.fnFut inner.st) with
    | (f', .raised w) =>
      some (⟨cfg.heap, ⟨(env1.futs.set fid f') ++ [⟨none⟩], cfg.env.prms⟩⟩, [.apiRaise w])
    | (_, .fault) => none
    | (f', .ok (fd, h', tr)) =>
      some (⟨h', ⟨(env1.futs.set fid f') ++ [fd], cfg.env.prms⟩⟩, tr)
  | .catchS fid l g =>
    match Fut.catchFR fuel cfg.heap (cfg.env.getFut fid) l (.cPlain g) with
    | (f', .raised w) =>
      some (⟨cfg.heap, ⟨(cfg.env.futs.set fid f') ++ [⟨none⟩], cfg.env.prms⟩⟩, [.apiRaise w])
    | (_, .fault) => none
    | (f', .ok (fd, h', tr)) =>
      some (⟨h', ⟨(cfg.env.futs.set fid f') ++ [fd], cfg.env.prms⟩⟩, tr)
  | .catchFutS fid l cfid =>
    let inner := cfg.env.getFut cfid
    let env1 : Env := ⟨cfg.env.futs.set cfid ⟨none⟩, cfg.env.prms⟩
    match Fut.catchFR fuel cfg.heap (env1.getFut fid) l (.cFut inner.st) with
    | (f', .raised w) =>
      some (⟨cfg.heap, ⟨(env1.futs.set fid f') ++ [⟨none⟩], cfg.env.prms⟩⟩, [.apiRaise w])
    | (_, .fault) => none
    | (f', .ok (fd, h', tr)) =>
      some (⟨h', ⟨(env1.futs.set fid f') ++ [fd], cfg.env.prms⟩⟩, tr)
  | .setVal pid v =>
    match Prom.setValueR fuel cfg.heap (cfg.env.getProm pid) v with
    | (p', .raised w) =>
      some (⟨cfg.heap, ⟨cfg.env.futs, cfg.env.prms.set pid p'⟩⟩, [.apiRaise w])
    | (_, .fault) => none
    | (p', .ok (h', tr)) =>
      some (⟨h', ⟨cfg.env.futs, cfg.env.prms.set pid p'⟩⟩, tr)
  | .setExc pid e =>
    match Prom.setExceptionR fuel cfg.heap (cfg.env.getProm pid) e with
    | (p', .raised w) =>
      some (⟨cfg.heap, ⟨cfg.env.futs, cfg.env.prms.set pid p'⟩⟩, [.apiRaise w])
    | (_, .fault) => none
    | (p', .ok (h', tr)) =>
      some (⟨h', ⟨cfg.env.futs, cfg.env.prms.set pid p'⟩⟩, tr)
  | .dropProm pid =>
    match Prom.dropR fuel cfg.heap (cfg.env.getProm pid) with
    | .raised _ => none
    | .fault => none
    | .ok (h', tr) =>
      some (⟨h', ⟨cfg.env.futs, cfg.env.prms.set pid ⟨none⟩⟩⟩, tr)

/-- Run a whole program against the recursive implementation. -/
def runProgR (fuel : Nat) : Config → List ApiStep → Option (Config × Trace)
  | cfg, [] => some (cfg, [])
  | cfg, st :: rest =>
    match runStepR fuel cfg st with
    | none => none
    | some (cfg1, tr1) =>
      match runProgR fuel cfg1 rest with
      | none => none
      | some (cfg2, tr2) => some (cfg2, tr1 ++ tr2)

/-- **Per-step coupling**: under the invariant, every public API call
returns the same configuration and the same event trace under both
implementations, once the recursive one is given enough stack. -/
theorem runStep_couple (cfg : Config) (st : ApiStep) (hg : GInv cfg) :
    ∃ (cfg' : Config) (tr : Trace) (f : Nat), runStepT cfg st = some (cfg', tr) ∧
      ∀ f', f ≤ f' → runStepR f' cfg st = some (cfg', tr) := by
  obtain ⟨h, f, p⟩ := cfg
  obtain ⟨hok, hlive, hdup⟩ := hg
  dsimp only at hok hlive hdup ⊢
  cases st with
  | mkProm =>
    exact ⟨⟨h.set h.size FutureState.init,
      ⟨f ++ [⟨some h.size⟩], p ++ [⟨some h.size⟩]⟩⟩, [], 0, by rfl, fun f' _ => by rfl⟩
  | mkReady v =>
    exact ⟨⟨(h.set h.size FutureState.init).setVal h.size (.value v),
      ⟨f ++ [⟨some h.size⟩], p⟩⟩, [], 0, by rfl, fun f' _ => by rfl⟩
  | mkExc e =>
    exact ⟨⟨(h.set h.size FutureState.init).setVal h.size (.error e),
      ⟨f ++ [⟨some h.size⟩], p⟩⟩, [], 0, by rfl, fun f' _ => by rfl⟩
  | thenS fid l g =>
    rcases hf : ((⟨f, p⟩ : Env).getFut fid).st with - | s
    · refine ⟨⟨h, ⟨(f.set fid ⟨none⟩) ++ [⟨none⟩], p⟩⟩, [.apiRaise "invalid future"],
        0, ?_, fun f' _ => ?_⟩
      · simp only [runStepT, Fut.thenF, hf]
      · simp only [runStepR, Fut.thenFR, hf]
    · obtain ⟨h', tr, f₁, hT, hRm⟩ :=
        futureThen_couple h s l (.fnPlain g)
          (fun x => ∃ q, PromAt (⟨f, p⟩ : Env) q = some x) hok
      refine ⟨⟨h', ⟨(f.set fid ⟨none⟩) ++ [⟨some h.size⟩], p⟩⟩, tr, f₁, ?_,
        fun f' hf' => ?_⟩
      · simp only [runStepT, Fut.thenF, hf, hT]
      · simp only [runStepR, Fut.thenFR, hf, hRm f' hf']
  | thenFutS fid l cfid =>
    rcases hf : ((⟨(f.set cfid ⟨none⟩ : List Fut), p⟩ : Env).getFut fid).st with - | s
    · refine ⟨⟨h, ⟨((f.set cfid ⟨none⟩).set fid ⟨none⟩) ++ [⟨none⟩], p⟩⟩,
        [.apiRaise "invalid future"], 0, ?_, fun f' _ => ?_⟩
      · simp only [runStepT, Fut.thenF, hf]
      · simp only [runStepR, Fut.thenFR, hf]
    · obtain ⟨h', tr, f₁, hT, hRm⟩ :=
        futureThen_couple h s l (.fnFut ((⟨f, p⟩ : Env).getFut cfid).st)
          (fun x => ∃ q, PromAt (⟨f, p⟩ : Env) q = some x) hok
      refine ⟨⟨h', ⟨((f.set cfid ⟨none⟩).set fid ⟨none⟩) ++ [⟨some h.size⟩], p⟩⟩, tr, f₁,
        ?_, fun f' hf' => ?_⟩
      · simp only [runStepT, Fut.thenF, hf, hT]
      · simp only [runStepR, Fut.thenFR, hf, hRm f' hf']
  | catchS fid l g =>
    rcases hf : ((⟨f, p⟩ : Env).getFut fid).st with - | s
    · refine ⟨⟨h, ⟨(f.set fid ⟨none⟩) ++ [⟨none⟩], p⟩⟩, [.apiRaise "invalid future"],
        0, ?_, fun f' _ => ?_⟩
      · simp only [runStepT, Fut.catchF, hf]
      · simp only [runStepR, Fut.catchFR, hf]
    · obtain ⟨h', tr, f₁, hT, hRm⟩ :=
        futureCatch_couple h s l (.cPlain g)
          (fun x => ∃ q, PromAt (⟨f, p⟩ : Env) q = some x) hok
      refine ⟨⟨h', ⟨(f.set fid ⟨none⟩) ++ [⟨some h.size⟩], p⟩⟩, tr, f₁, ?_,
        fun f' hf' => ?_⟩
      · simp only [runStepT, Fut.catchF, hf, hT]
      · simp only [runStepR, Fut.catchFR, hf, hRm f' hf']
  | catchFutS fid l cfid =>
    rcases hf : ((⟨(f.set cfid ⟨none⟩ : List Fut), p⟩ : Env).getFut fid).st with - | s
    · refine ⟨⟨h, ⟨((f.set cfid ⟨none⟩).set fid ⟨none⟩) ++ [⟨none⟩], p⟩⟩,
        [.apiRaise "invalid future"], 0, ?_, fun f' _ => ?_⟩
      · simp only [runStepT, Fut.catchF, hf]
      · simp only [runStepR, Fut.catchFR, hf]
    · obtain ⟨h', tr, f₁, hT, hRm⟩ :=
        futureCatch_couple h s l (.cFut ((⟨f, p⟩ : Env).getFut cfid).st)
          (fun x => ∃ q, PromAt (⟨f, p⟩ : Env) q = some x) hok
      refine ⟨⟨h', ⟨((f.set cfid ⟨none⟩).set fid ⟨none⟩) ++ [⟨some h.size⟩], p⟩⟩, tr, f₁,
        ?_, fun f' hf' => ?_⟩
      · simp only [runStepT, Fut.catchF, hf, hT]
      · simp only [runStepR, Fut.catchFR, hf, hRm f' hf']
  | setVal pid v =>
    rcases hp : ((⟨f, p⟩ : Env).getProm pid).st with - | s
    · refine ⟨⟨h, ⟨f, p.set pid ((⟨f, p⟩ : Env).getProm pid)⟩⟩,
        [.apiRaise "promise already satisfied"], 0, ?_, fun f' _ => ?_⟩
      · simp only [runStepT, Prom.setValue, hp]
      · simp only [runStepR, Prom.setValueR, hp]
    · obtain ⟨h', tr, f₁, hT, hRm⟩ :=
        promiseSatisfy_couple h s (.value v)
          (fun x => ∃ q, PromAt (⟨f, p⟩ : Env) q = some x) hok ⟨pid, hp⟩
          (by intro hc; cases hc)
      refine ⟨⟨h', ⟨f, p.set pid ⟨none⟩⟩⟩, tr, f₁, ?_, fun f' hf' => ?_⟩
      · simp only [runStepT, Prom.setValue, hp, hT]
      · simp only [runStepR, Prom.setValueR, hp, hRm f' hf']
  | setExc pid e =>
    rcases hp : ((⟨f, p⟩ : Env).getProm pid).st with - | s
    · refine ⟨⟨h, ⟨f, p.set pid ((⟨f, p⟩ : Env).getProm pid)⟩⟩,
        [.apiRaise "promise already satisfied"], 0, ?_, fun f' _ => ?_⟩
      · simp only [runStepT, Prom.setException, hp]
      · simp only [runStepR, Prom.setExceptionR, hp]
    · obtain ⟨h', tr, f₁, hT, hRm⟩ :=
        promiseSatisfy_couple h s (.error e)
          (fun x => ∃ q, PromAt (⟨f, p⟩ : Env) q = some x) hok ⟨pid, hp⟩
          (by intro hc; cases hc)
      refine ⟨⟨h', ⟨f, p.set pid ⟨none⟩⟩⟩, tr, f₁, ?_, fun f' hf' => ?_⟩
      · simp only [runStepT, Prom.setException, hp, hT]
      · simp only [runStepR, Prom.setExceptionR, hp, hRm f' hf']
  | dropProm pid =>
    rcases hp : ((⟨f, p⟩ : Env).getProm pid).st with - | s
    · refine ⟨⟨h, ⟨f, p.set pid ⟨none⟩⟩⟩, [], 0, ?_, fun f' _ => ?_⟩
      · simp only [runStepT, Prom.drop, hp]
      · simp only [runStepR, Prom.dropR, hp]
    · obtain ⟨h', tr, f₁, hT, hRm⟩ :=
        promiseSatisfy_couple h s (.error (.futureError "broken promise"))
          (fun x => ∃ q, PromAt (⟨f, p⟩ : Env) q = some x) hok ⟨pid, hp⟩
          (by intro hc; cases hc)
      refine ⟨⟨h', ⟨f, p.set pid ⟨none⟩⟩⟩, tr, f₁, ?_, fun f' hf' => ?_⟩
      · simp only [runStepT, Prom.drop, hp, hT]
      · simp only [runStepR, Prom.dropR, hp, hRm f' hf']

/-- **Program coupling**: whole programs agree between the two
implementations, configuration and trace alike, for all sufficiently
large recursion budgets. -/
theorem runProg_couple (p : List ApiStep) : ∀ (cfg : Config), GInv cfg →
    ∃ (cfg' : Config) (tr : Trace) (f : Nat), runProgT cfg p = some (cfg', tr) ∧
      ∀ f', f ≤ f' → runProgR f' cfg p = some (cfg', tr) := by
  induction p with
  | nil =>
    intro cfg hg
    exact ⟨cfg, [], 0, rfl, fun f' _ => rfl⟩
  | cons st rest ih =>
    intro cfg hg
    obtain ⟨cfg1, tr1, f₁, hT1, hR1⟩ := runStep_couple cfg st hg
    obtain ⟨cfg1', tr1', hT1', hg1', -, -⟩ := runStepT_sound cfg st hg
    rw [hT1] at hT1'
    have h2 := Option.some.inj hT1'
    have hcfg : cfg1 = cfg1' := congrArg Prod.fst h2
    have hg1 : GInv cfg1 := by
      rw [hcfg]
      exact hg1'
    obtain ⟨cfg2, tr2, f₂, hT2, hR2⟩ := ih cfg1 hg1
    refine ⟨cfg2, tr1 ++ tr2, Nat.max f₁ f₂, ?_, fun f' hf' => ?_⟩
    · simp only [runProgT, hT1, hT2]
    · have h1 := hR1 f' (le_trans (Nat.le_max_left _ _) hf')
      have h2 := hR2 f' (le_trans (Nat.le_max_right _ _) hf')
      simp only [runProgR, h1, h2]

/-- **C9**: for every program over the public API (`make_promise`,
`make_ready_future`, `make_exceptional_future`, `then`,
`catch_exception`, `set_value`, `set_exception`, promise destruction,
in any order), the trampoline implementation of part_000 completes, and
the earlier recursive-dispatch implementation of Future.cpp — run with
any sufficient recursion budget — produces the *same* outcome: the same
final configuration and the identical event trace, so every user
continuation is invoked with identical values and errors, in the same
order. -/
theorem claim_c9_recursive_matches_trampoline (prog : List ApiStep) :
    (runProgT Config.init prog).isSome = true ∧
    ∃ f, runProgR f Config.init prog = runProgT Config.init prog := by
  obtain ⟨cfg', tr, f, hT, hR⟩ := runProg_couple prog Config.init GInv_init
  constructor
  · rw [hT]
    rfl
  · exact ⟨f, by rw [hT, hR f (Nat.le_refl _)]⟩
